import Mathlib

/-!
# tinyusdz: the USDC (Crate) writer, the variant and the example programs

A shallow embedding of `src/usdc-writer.cc`: the interning tables of `Packer`
(`AddToken`, `AddString`, `AddPath`, `AddField`, `AddFieldSet`), the byte
output of `Writer` (`WriteHeader`, `WriteTokens`, `WriteTOC`, `Write`) and the
entry points `SaveAsUSDCToMemory` and `SaveAsUSDCToFile`; of
`src/simple-variant.hh`: the tagged container `variant<Ts...>`; and of the
function `main` of the two example programs.

Conventions of the embedding.
* `std::vector<T>` is `List T`; `emplace_back`/`push_back` append at the end.
* `std::unordered_map<K, V>` is an association list with at most one entry
  per key; key equality is value equality (`DecidableEq`).
* `size_t` is 64 bits wide, so a vector can hold `2 ^ 32` elements and more;
  `uint32_t(n)` of a `size_t` is `n % 2 ^ 32`.
* Integers are stored least significant byte first (a little-endian host).
* A member function returns its C++ result paired with the object after the
  call.
-/

namespace tinyusdz
namespace usdc

/-! ## Machine integers -/

/-- The conversion `uint32_t(n)` of a `size_t` value: reduction modulo `2 ^ 32`. -/
def uint32_t (n : Nat) : Nat := n % 2 ^ 32

/-! ## Types declared outside `usdc-writer.cc` -/

namespace crate

/-- Modelled from the spec: `crate::Index`, declared in crate-format.hh which is
not among the sources. An index is an unsigned 32-bit number; the source says of
the default-constructed index `Index()(= ~0)`. -/
structure Index where
  value : Nat
deriving DecidableEq, Repr

/-- The default-constructed index `Index()`, whose value is `~0` on 32 bits. -/
def Index.dflt : Index := ⟨2 ^ 32 - 1⟩

abbrev TokenIndex := Index
abbrev StringIndex := Index
abbrev PathIndex := Index
abbrev FieldIndex := Index
abbrev FieldSetIndex := Index

/-- Modelled from the spec: `crate::ValueRep`, declared in crate-format.hh which
is not among the sources: "a single fixed-width word" holding the encoded value
representation. -/
structure ValueRep where
  data : Nat
deriving DecidableEq, Repr

end crate

/-- Modelled from the spec: `Token`, declared in token-type.hh which is not among
the sources: "an interned immutable string used for names/identifiers". -/
structure Token where
  str : String
deriving DecidableEq, Repr

/-- Modelled from the spec: `Path`, declared outside the sources: it "decomposes
into a prim-path component and optional property-name component". -/
structure Path where
  prim_part : String
  prop_part : Option String
deriving DecidableEq, Repr

/-- The `Field` of usdc-writer.cc: a token index and a value representation. -/
structure Field where
  token_index : crate.TokenIndex
  value_rep : crate.ValueRep
deriving DecidableEq, Repr

/-! ## `std::unordered_map` -/

/-- First value stored under key `k` in an association list. -/
def lookup {K V : Type} [DecidableEq K] (k : K) : List (K × V) → Option V
  | [] => none
  | e :: es => if e.1 = k then some e.2 else lookup k es

/-- Store `v` under `k`: overwrite the entry of `k` when there is one, else add a
new entry. -/
def store {K V : Type} [DecidableEq K] (k : K) (v : V) : List (K × V) → List (K × V)
  | [] => [(k, v)]
  | e :: es => if e.1 = k then (e.1, v) :: es else e :: store k v es

/-- The container `std::unordered_map<K, V>`. -/
structure unordered_map (K V : Type) where
  entries : List (K × V)
deriving Repr

namespace unordered_map

variable {K V : Type} [DecidableEq K]

/-- The member `count(k)`: 1 when `k` has an entry, 0 otherwise. -/
def count (m : unordered_map K V) (k : K) : Nat :=
  if (lookup k m.entries).isSome then 1 else 0

/-- The member `size()`. -/
def size (m : unordered_map K V) : Nat := m.entries.length

/-- The expression `m[k]` read as a value: the mapped value, and the map after
the access. When `k` has no entry a value-initialised one (`dflt`) is inserted. -/
def subscript (m : unordered_map K V) (k : K) (dflt : V) : V × unordered_map K V :=
  match lookup k m.entries with
  | some v => (v, m)
  | none => (dflt, ⟨m.entries ++ [(k, dflt)]⟩)

/-- The statement `m[k] = v`. -/
def assign (m : unordered_map K V) (k : K) (v : V) : unordered_map K V :=
  ⟨store k v m.entries⟩

end unordered_map

/-! ## `Packer` -/

/-- The class `Packer`: five interning maps and the five sequences they index. -/
structure Packer where
  token_to_index_map : unordered_map Token crate.TokenIndex
  string_to_index_map : unordered_map String crate.StringIndex
  path_to_index_map : unordered_map Path crate.PathIndex
  field_to_index_map : unordered_map Field crate.FieldIndex
  fieldset_to_index_map : unordered_map (List crate.FieldIndex) crate.FieldSetIndex
  tokens_ : List Token
  strings_ : List String
  paths_ : List Path
  fields_ : List Field
  fieldsets_ : List crate.FieldIndex
deriving Repr

namespace Packer

/-- The default-constructed `Packer`: every map and every sequence is empty. -/
def empty : Packer :=
  { token_to_index_map := ⟨[]⟩, string_to_index_map := ⟨[]⟩, path_to_index_map := ⟨[]⟩,
    field_to_index_map := ⟨[]⟩, fieldset_to_index_map := ⟨[]⟩,
    tokens_ := [], strings_ := [], paths_ := [], fields_ := [], fieldsets_ := [] }

/-- `Packer::AddToken`. -/
def AddToken (self : Packer) (token : Token) : crate.TokenIndex × Packer :=
  if self.token_to_index_map.count token ≠ 0 then
    let r := self.token_to_index_map.subscript token crate.Index.dflt
    (r.1, { self with token_to_index_map := r.2 })
  else
    let s1 := { self with
      token_to_index_map :=
        self.token_to_index_map.assign token ⟨uint32_t self.tokens_.length⟩ }
    let s2 := { s1 with tokens_ := s1.tokens_ ++ [token] }
    let r := s2.token_to_index_map.subscript token crate.Index.dflt
    (r.1, { s2 with token_to_index_map := r.2 })

/-- `Packer::AddString`. -/
def AddString (self : Packer) (str : String) : crate.StringIndex × Packer :=
  if self.string_to_index_map.count str ≠ 0 then
    let r := self.string_to_index_map.subscript str crate.Index.dflt
    (r.1, { self with string_to_index_map := r.2 })
  else
    let s1 := { self with
      string_to_index_map :=
        self.string_to_index_map.assign str ⟨uint32_t self.strings_.length⟩ }
    let s2 := { s1 with strings_ := s1.strings_ ++ [str] }
    let r := s2.string_to_index_map.subscript str crate.Index.dflt
    (r.1, { s2 with string_to_index_map := r.2 })

/-- `Packer::AddPath`. -/
def AddPath (self : Packer) (path : Path) : crate.PathIndex × Packer :=
  if self.path_to_index_map.count path ≠ 0 then
    let r := self.path_to_index_map.subscript path crate.Index.dflt
    (r.1, { self with path_to_index_map := r.2 })
  else
    let s1 := { self with
      path_to_index_map :=
        self.path_to_index_map.assign path ⟨uint32_t self.paths_.length⟩ }
    let s2 := { s1 with paths_ := s1.paths_ ++ [path] }
    let r := s2.path_to_index_map.subscript path crate.Index.dflt
    (r.1, { s2 with path_to_index_map := r.2 })

/-- `Packer::AddField`. -/
def AddField (self : Packer) (field : Field) : crate.FieldIndex × Packer :=
  if self.field_to_index_map.count field ≠ 0 then
    let r := self.field_to_index_map.subscript field crate.Index.dflt
    (r.1, { self with field_to_index_map := r.2 })
  else
    let s1 := { self with
      field_to_index_map :=
        self.field_to_index_map.assign field ⟨uint32_t self.fields_.length⟩ }
    let s2 := { s1 with fields_ := s1.fields_ ++ [field] }
    let r := s2.field_to_index_map.subscript field crate.Index.dflt
    (r.1, { s2 with field_to_index_map := r.2 })

/-- `Packer::AddFieldSet`: a new fieldset is appended to the flattened array
`fieldsets_`, followed by the terminator `FieldIndex()`. -/
def AddFieldSet (self : Packer) (fieldset : List crate.FieldIndex) :
    crate.FieldSetIndex × Packer :=
  if self.fieldset_to_index_map.count fieldset ≠ 0 then
    let r := self.fieldset_to_index_map.subscript fieldset crate.Index.dflt
    (r.1, { self with fieldset_to_index_map := r.2 })
  else
    let s1 := { self with
      fieldset_to_index_map :=
        self.fieldset_to_index_map.assign fieldset ⟨uint32_t self.fieldsets_.length⟩ }
    let s2 := { s1 with fieldsets_ := s1.fieldsets_ ++ fieldset }
    let s3 := { s2 with fieldsets_ := s2.fieldsets_ ++ [crate.Index.dflt] }
    let r := s3.fieldset_to_index_map.subscript fieldset crate.Index.dflt
    (r.1, { s3 with fieldset_to_index_map := r.2 })

/-- One call of the public interface of `Packer`. -/
inductive Op where
  | addToken (token : Token)
  | addString (str : String)
  | addPath (path : Path)
  | addField (field : Field)
  | addFieldSet (fieldset : List crate.FieldIndex)
deriving DecidableEq, Repr

/-- The Packer after one call. -/
def step (self : Packer) : Op → Packer
  | .addToken t => (self.AddToken t).2
  | .addString s => (self.AddString s).2
  | .addPath p => (self.AddPath p).2
  | .addField f => (self.AddField f).2
  | .addFieldSet fs => (self.AddFieldSet fs).2

/-- The Packer after a finite sequence of calls, performed from left to right.
The Packers reachable from the empty one are the `run empty ops`. -/
def run (self : Packer) (ops : List Op) : Packer :=
  ops.foldl step self

end Packer

/-! ## One interning table on its own

The four functions `AddToken`, `AddString`, `AddPath` and `AddField` have the
same body, each on its own pair of members. `InternTable.intern` is that body on
a pair taken alone; the lemmas `Packer.AddToken_eq` and its siblings relate it
to the four functions. -/

/-- A map of `Packer` together with the sequence it indexes. -/
structure InternTable (K : Type) where
  map : unordered_map K crate.Index
  seq : List K

namespace InternTable

variable {K : Type} [DecidableEq K]

/-- The common body of `AddToken`, `AddString`, `AddPath` and `AddField`. -/
def intern (t : InternTable K) (k : K) : crate.Index × InternTable K :=
  if t.map.count k ≠ 0 then
    let r := t.map.subscript k crate.Index.dflt
    (r.1, { t with map := r.2 })
  else
    let s1 := { t with map := t.map.assign k ⟨uint32_t t.seq.length⟩ }
    let s2 := { s1 with seq := s1.seq ++ [k] }
    let r := s2.map.subscript k crate.Index.dflt
    (r.1, { s2 with map := r.2 })

/-- The table after interning the keys of `ks` from left to right. -/
def internAll (t : InternTable K) (ks : List K) : InternTable K :=
  ks.foldl (fun s k => (s.intern k).2) t

/-- Map and sequence describe the same assignment: a key has an entry exactly
when it occurs in the sequence, and its entry is the 32-bit image of its
position. -/
def Consistent (t : InternTable K) : Prop :=
  ∀ k, lookup k t.map.entries =
    if k ∈ t.seq then some (⟨uint32_t (t.seq.indexOf k)⟩ : crate.Index) else none

end InternTable

namespace Packer

/-- The token table of a Packer. -/
def tokenTable (p : Packer) : InternTable Token := ⟨p.token_to_index_map, p.tokens_⟩
/-- The string table of a Packer. -/
def stringTable (p : Packer) : InternTable String := ⟨p.string_to_index_map, p.strings_⟩
/-- The path table of a Packer. -/
def pathTable (p : Packer) : InternTable Path := ⟨p.path_to_index_map, p.paths_⟩
/-- The field table of a Packer. -/
def fieldTable (p : Packer) : InternTable Field := ⟨p.field_to_index_map, p.fields_⟩

/-- The token a call interns, when it is an `AddToken` call. -/
def Op.tokenKey : Op → Option Token
  | .addToken t => some t
  | _ => none
/-- The string a call interns, when it is an `AddString` call. -/
def Op.stringKey : Op → Option String
  | .addString s => some s
  | _ => none
/-- The path a call interns, when it is an `AddPath` call. -/
def Op.pathKey : Op → Option Path
  | .addPath p => some p
  | _ => none
/-- The field a call interns, when it is an `AddField` call. -/
def Op.fieldKey : Op → Option Field
  | .addField f => some f
  | _ => none

end Packer

/-! ## Long call sequences -/

/-- The binary numeral of `n` written in the letters `a` (for 0) and `b`
(for 1), the least significant digit first; `fuel` bounds the number of
letters. -/
def binaryLetters : Nat → Nat → List Char
  | 0, _ => []
  | fuel + 1, n =>
    if n = 0 then [] else (if n % 2 = 0 then 'a' else 'b') :: binaryLetters fuel (n / 2)

/-- The token whose text is the binary numeral of `i` in letters: two numbers
give two tokens, and the token of a number below `2 ^ k` has at most `k`
letters. -/
def tok (i : Nat) : Token := ⟨String.mk (binaryLetters i i)⟩

/-- The calls `AddToken (tok a)`, `AddToken (tok (a + 1))`, ..., `n` of them. -/
def tokensFrom (a n : Nat) : List Packer.Op :=
  (List.range' a n).map (fun i => Packer.Op.addToken (tok i))

/-- A short sequence of calls, one for each of the four interning tables. -/
def sampleOps : List Packer.Op :=
  [.addToken (tok 0), .addString "a", .addPath ⟨"/a", none⟩, .addField ⟨⟨0⟩, ⟨0⟩⟩]

/-! ## `Writer` -/

/-- The struct `Section`: a 16-byte name field, a start offset and a size. -/
structure Section where
  name : List Nat
  start : Int
  size : Int
deriving DecidableEq, Repr

/-- The struct `TableOfContents`. -/
structure TableOfContents where
  sections : List Section
deriving DecidableEq, Repr

/-- The stream `std::ostringstream`, as the bytes before the put position and
the bytes from the put position on. The stream is taken to stay in the good
state. -/
structure ostringstream where
  before : List Nat
  after : List Nat
deriving DecidableEq, Repr

namespace ostringstream

/-- The member `str()`: the whole content. -/
def str (s : ostringstream) : List Nat := s.before ++ s.after

/-- The member `tellp()`: the put position. -/
def tellp (s : ostringstream) : Nat := s.before.length

/-- The member `write(bytes, n)`: the bytes overwrite the content from the put
position on, extend it when they reach past its end, and the put position
advances by their number. -/
def write (s : ostringstream) (bytes : List Nat) : ostringstream :=
  ⟨s.before ++ bytes, s.after.drop bytes.length⟩

/-- The call `seekp(0, std::ios::beg)`. -/
def seekp_beg (s : ostringstream) : ostringstream :=
  ⟨[], s.before ++ s.after⟩

end ostringstream

/-- The `width` bytes of `n`, least significant first (the object
representation of an unsigned integer on a little-endian host). -/
def le_bytes (width n : Nat) : List Nat :=
  (List.range width).map (fun i => n / 256 ^ i % 256)

/-- The call `memcpy(&dst[off], src, n)` on byte sequences. -/
def memcpy (dst : List Nat) (off : Nat) (src : List Nat) (n : Nat) : List Nat :=
  dst.take off ++ src.take n ++ dst.drop (off + n)

/-- The values of the locals that `WriteHeader` reads without having written
them: `version[3..7]` and `toc_offset`. -/
structure Indeterminate where
  version3 : Nat
  version4 : Nat
  version5 : Nat
  version6 : Nat
  version7 : Nat
  toc_offset : Nat

/-- What the preprocessor fixes: whether `TINYUSDZ_PRODUCTION_BUILD` is
defined, and the value of `__FILE__`. -/
structure BuildConfig where
  production : Bool
  file : String

/-- The macro `PUSH_ERROR(s)` used in function `func` at line `line`: the new
value of `err_`. -/
def PUSH_ERROR (cfg : BuildConfig) (func : String) (line : Nat) (s : String)
    (err_ : String) : String :=
  let ss :=
    if cfg.production then "[usdc-writer] " ++ func ++ "():" ++ toString line ++ " "
    else cfg.file ++ ":" ++ func ++ "():" ++ toString line ++ " "
  err_ ++ ((ss ++ s) ++ "\n")

/-- The class `Writer`. The member `scene_` is a reference that no member
function reads; `Scene` is its type. -/
structure Writer (Scene : Type) where
  scene_ : Scene
  toc_ : TableOfContents
  oss_ : ostringstream
  err_ : String

namespace Writer

variable {Scene : Type}

/-- The constructor `Writer(const Scene &scene)`. -/
def ctor (scene : Scene) : Writer Scene :=
  { scene_ := scene, toc_ := ⟨[]⟩, oss_ := ⟨[], []⟩, err_ := "" }

/-- The member `Error()`. -/
def Error (self : Writer Scene) : String := self.err_

/-- `Writer::WriteHeader`. -/
def WriteHeader (self : Writer Scene) (u : Indeterminate) : Bool × Writer Scene :=
  let magic : List Nat := ['P', 'X', 'R', '-', 'U', 'S', 'D', 'C'].map Char.toNat
  let version : List Nat :=
    [0, 8, 0, u.version3 % 256, u.version4 % 256, u.version5 % 256, u.version6 % 256,
      u.version7 % 256]
  let toc_offset : Nat := u.toc_offset % 2 ^ 64
  let header : List Nat := List.replicate 88 0
  let header := memcpy header 0 magic 8
  let header := memcpy header 8 version 8
  let header := memcpy header 16 (le_bytes 8 toc_offset) 8
  (true, { self with oss_ := self.oss_.write (header.take 88) })

/-- `Writer::WriteTokens`. -/
def WriteTokens (self : Writer Scene) : Bool × Writer Scene :=
  (false, self)

/-- `Writer::WriteTOC`. The debug line sent to `std::cout` by `DCOUT` is not
part of the Writer and is left out. -/
def WriteTOC (self : Writer Scene) : Bool × Writer Scene :=
  let num_sections : Nat := self.toc_.sections.length
  if num_sections = 0 then
    (false, { self with err_ := self.err_ ++ "Zero sections in TOC.\n" })
  else
    (true, { self with oss_ := self.oss_.write (le_bytes 8 num_sections) })

/-- `Writer::Write`. -/
def Write (self : Writer Scene) (cfg : BuildConfig) (u : Indeterminate) :
    Bool × Writer Scene :=
  let r := self.WriteTokens
  if !r.1 then
    (false, { r.2 with err_ := PUSH_ERROR cfg "Write" 288 "Failed to write TOC." r.2.err_ })
  else
    let r := r.2.WriteTOC
    if !r.1 then
      (false, { r.2 with err_ := PUSH_ERROR cfg "Write" 293 "Failed to write TOC." r.2.err_ })
    else
      let s := { r.2 with oss_ := r.2.oss_.seekp_beg }
      let r := s.WriteHeader u
      if !r.1 then
        (false,
          { r.2 with err_ := PUSH_ERROR cfg "Write" 300 "Failed to write Header." r.2.err_ })
      else
        (true, r.2)

/-- `Writer::GetOutput`: the result, and the vector `*output` after the call. -/
def GetOutput (self : Writer Scene) (output : List Nat) : Bool × List Nat :=
  if !self.err_.isEmpty then (false, output) else (false, output)

end Writer

/-! ## A Writer with one section -/

/-- The platform macros that select the body of `SaveAsUSDCToFile`:
`__ANDROID__` and `_WIN32`. -/
structure Platform where
  android : Bool
  win32 : Bool

/-- One call of the C file interface. -/
inductive FileCall where
  | fopen (filename : String)
  | fwrite (data : List Nat)
deriving DecidableEq, Repr

/-- What the file system answers: whether a file opens for writing, and how
many bytes an `fwrite` of the given data writes. -/
structure FileSystem where
  fopen_ok : String → Bool
  fwrite : List Nat → Nat

/-- What an entry point leaves behind: its result, the vector `output`, the
strings `*warn` and `*err` (`none` for a null pointer) and the calls made to the
file interface, in order. -/
structure SaveResult where
  ret : Bool
  output : List Nat
  warn : Option String
  err : Option String
  calls : List FileCall
deriving DecidableEq, Repr

/-- `SaveAsUSDCToMemory`. -/
def SaveAsUSDCToMemory {Scene : Type} (scene : Scene) (output : List Nat)
    (warn err : Option String) : SaveResult :=
  let _writer := Writer.ctor scene
  let err := err.map (fun e => e ++ "USDC writer is not yet implemented.\n")
  { ret := false, output := output, warn := warn, err := err, calls := [] }

/-- `SaveAsUSDCToFile`. The member `output` of the result is the local vector
`output` of the function. -/
def SaveAsUSDCToFile {Scene : Type} (plat : Platform) (fs : FileSystem) (filename : String)
    (scene : Scene) (warn err : Option String) : SaveResult :=
  if plat.android then
    { ret := false, output := [], warn := warn,
      err := err.map
        (fun e => e ++ "Saving USDC to a file is not supported for Android platform.\n"),
      calls := [] }
  else
    let r := SaveAsUSDCToMemory scene [] warn err
    if !r.ret then
      { r with ret := false }
    else if !fs.fopen_ok filename then
      { r with
        ret := false,
        err := r.err.map (fun e =>
          if plat.win32 then e ++ "Failed to open file to write.\n"
          else e ++ ("Failed to open file `" ++ filename ++ "` to write.\n")),
        calls := [.fopen filename] }
    else if fs.fwrite r.output < r.output.length then
      { r with
        ret := false,
        err := r.err.map (fun e => e ++ "Failed to write data to a file.\n"),
        calls := [.fopen filename, .fwrite r.output] }
    else
      { r with ret := true, calls := [.fopen filename, .fwrite r.output] }

/-! ## The layout of the flattened fieldset array -/

/-- The flattened array made of the given fieldsets in order, each followed by
the terminator `FieldIndex()`. -/
def flattenSpans : List (List crate.FieldIndex) → List crate.FieldIndex
  | [] => []
  | fs :: rest => fs ++ [crate.Index.dflt] ++ flattenSpans rest

/-- The map entries of the given fieldsets when the first of them starts at
position `start` of the flattened array: each fieldset with the 32-bit image of
the position where its span starts. -/
def spanEntries :
    List (List crate.FieldIndex) → Nat → List (List crate.FieldIndex × crate.FieldSetIndex)
  | [], _ => []
  | fs :: rest, start => (fs, ⟨uint32_t start⟩) :: spanEntries rest (start + fs.length + 1)

/-- Reading a fieldset back: the elements of the flattened array from position
`i` up to, and not including, the first terminator at or after `i`. -/
def readSpan (fieldsets : List crate.FieldIndex) (i : Nat) : List crate.FieldIndex :=
  (fieldsets.drop i).takeWhile (fun x => x != crate.Index.dflt)

/-- Map and flattened array of a Packer describe the same fieldsets: there are
fieldsets of which `fieldsets_` is the flattened array and of which the map
holds, in the same order, the entries. -/
def Packer.SpanConsistent (p : Packer) : Prop :=
  ∃ spans, p.fieldset_to_index_map.entries = spanEntries spans 0 ∧
    p.fieldsets_ = flattenSpans spans

end usdc

/-! ## `variant` (simple-variant.hh)

The aligned byte buffer `data` of a variant is seen through the object in it:
`live o` for one live object `o`; `destroyed o` when the destructor of the
object `o` has run, the bytes of `o` being still in the buffer, which the
destructor does not release; `indeterminate` when no object has been
constructed there. A payload is a value of one type `V` shared by all value
types. The variants of a program are the cells of a `Store`, and a pointer to a
variant or to its buffer is the position of the cell, so that two pointers may
name the same buffer. A statement that reads what cannot be read, or destroys
what is not alive, has the outcome `undefined_behavior`. -/

/-- Modelled from the spec: the value types and `value::TypeTrait`, declared in
value-type.hh which is not among the sources. A `type_id` is an "index into
ValueType-derived registry", so two value types have different ids, and the id
of `void`, which marks the empty variant, is the id of no value type.
`moved_from T v` is the value that the move constructor of `T` leaves in a
source object of value `v`. `after_destroy T v` is the value that a copy
constructor reads in the bytes of a `T` of value `v` whose destructor has run:
`some v` for a type whose destructor does nothing, such as `int`, and `none`
when the bytes refer to storage that the destructor has released, such as that
of a `std::string` with heap storage. -/
structure ValueTypes (Ty V : Type) where
  type_id : Ty → Nat
  void_type_id : Nat
  moved_from : Ty → V → V
  after_destroy : Ty → V → Option V
  type_id_injective : ∀ a b : Ty, type_id a = type_id b → a = b
  type_id_ne_void : ∀ a : Ty, type_id a ≠ void_type_id

/-- An object in a buffer: its type and its value. -/
structure Object (Ty V : Type) where
  ty : Ty
  value : V
deriving DecidableEq, Repr

/-- How an operation ends: with a result, in undefined behaviour, or it names
an object that does not exist. -/
inductive Outcome (α : Type) where
  | ok (a : α)
  | undefined_behavior
  | no_such_object
deriving DecidableEq, Repr

/-- Sequencing of two operations. -/
def Outcome.andThen {α β : Type} (x : Outcome α) (f : α → Outcome β) : Outcome β :=
  match x with
  | .ok a => f a
  | .undefined_behavior => .undefined_behavior
  | .no_such_object => .no_such_object

/-- The content of the buffer `data` of a variant. -/
inductive Buffer (Ty V : Type) where
  | indeterminate
  | live (o : Object Ty V)
  | destroyed (o : Object Ty V)
deriving DecidableEq, Repr

namespace Buffer

variable {Ty V : Type}

/-- The object whose bytes are in the buffer. -/
def object : Buffer Ty V → Option (Object Ty V)
  | .indeterminate => none
  | .live o => some o
  | .destroyed o => some o

/-- A live object is in the buffer. -/
def is_live : Buffer Ty V → Bool
  | .live _ => true
  | _ => false

/-- The buffer after a write of the value `v` into the object in it. -/
def with_value : Buffer Ty V → V → Buffer Ty V
  | .indeterminate, _ => .indeterminate
  | .live o, v => .live ⟨o.ty, v⟩
  | .destroyed o, v => .destroyed ⟨o.ty, v⟩

end Buffer

/-- The object that a copy constructor reads in the buffer: it follows what
the bytes refer to. -/
def Buffer.read {Ty V : Type} (E : ValueTypes Ty V) : Buffer Ty V → Option (Object Ty V)
  | .indeterminate => none
  | .live o => some o
  | .destroyed o => (E.after_destroy o.ty o.value).map fun v => ⟨o.ty, v⟩

/-- The struct `variant<Ts...>`: the tag `variant_id` and the buffer `data`. -/
structure variant (Ty V : Type) where
  variant_id : Nat
  data : Buffer Ty V
deriving DecidableEq, Repr

/-- What the reference returned by `get<T>()` refers to: the live `T` in the
buffer, with its value; the buffer although no live `T` is there; or the null
pointer. -/
inductive Ref (V : Type) where
  | object (value : V)
  | reinterpreted
  | null
deriving DecidableEq, Repr

/-- The variants that exist, in the order of their construction. -/
abbrev Store (Ty V : Type) := List (variant Ty V)

/-- The variant in cell `i`. -/
def Store.read {Ty V : Type} (s : Store Ty V) (i : Nat) : Outcome (variant Ty V) :=
  match s[i]? with
  | some x => .ok x
  | none => .no_such_object

namespace variant_helper_rec

variable {Ty V : Type} [DecidableEq Ty]

/-- `variant_helper_rec<Ts...>::destroy(id, data)`, the pointer `data` being to
the buffer of cell `data`: the store after the call. The destructor of `F` runs
on the buffer as soon as the id of `F` is `id`. -/
def destroy (E : ValueTypes Ty V) : List Ty → Nat → Nat → Store Ty V → Outcome (Store Ty V)
  | [], _, _, s => .ok s
  | F :: Ts, id, data, s =>
    if E.type_id F = id then
      (s.read data).andThen fun x =>
        match x.data with
        | .live o =>
          if o.ty = F then .ok (s.set data { x with data := .destroyed o })
          else .undefined_behavior
        | _ => .undefined_behavior
    else destroy E Ts id data s

/-- `variant_helper_rec<Ts...>::move(id, from, to)`, the pointers being to the
buffers of the cells `src` and `dst`: the store after the call. The move
constructor of `F` takes over the bytes of the object in `src`, without
following what they refer to, for the new object in `dst`, and then leaves the
source with its moved-from value. -/
def move (E : ValueTypes Ty V) :
    List Ty → Nat → Nat → Nat → Store Ty V → Outcome (Store Ty V)
  | [], _, _, _, s => .ok s
  | F :: Ts, id, src, dst, s =>
    if E.type_id F = id then
      (s.read src).andThen fun x =>
        match x.data.object with
        | some o =>
          if o.ty = F then
            (s.read dst).andThen fun y =>
              let s1 : Store Ty V := s.set dst { y with data := .live ⟨F, o.value⟩ }
              (s1.read src).andThen fun x1 =>
                .ok (s1.set src
                  { x1 with data := x1.data.with_value (E.moved_from F o.value) })
          else .undefined_behavior
        | none => .undefined_behavior
    else move E Ts id src dst s

/-- `variant_helper_rec<Ts...>::copy(id, from, to)`, the pointers being to the
buffers of the cells `src` and `dst`: the store after the call. -/
def copy (E : ValueTypes Ty V) :
    List Ty → Nat → Nat → Nat → Store Ty V → Outcome (Store Ty V)
  | [], _, _, _, s => .ok s
  | F :: Ts, id, src, dst, s =>
    if E.type_id F = id then
      (s.read src).andThen fun x =>
        match x.data.read E with
        | some o =>
          if o.ty = F then
            (s.read dst).andThen fun y =>
              .ok (s.set dst { y with data := .live ⟨F, o.value⟩ })
          else .undefined_behavior
        | none => .undefined_behavior
    else copy E Ts id src dst s

end variant_helper_rec

namespace variant_helper

variable {Ty V : Type} [DecidableEq Ty]

/-- `variant_helper<Ts...>::destroy`. -/
def destroy (E : ValueTypes Ty V) (Ts : List Ty) (id : Nat) (data : Nat) (s : Store Ty V) :
    Outcome (Store Ty V) :=
  variant_helper_rec.destroy E Ts id data s

/-- `variant_helper<Ts...>::move`. -/
def move (E : ValueTypes Ty V) (Ts : List Ty) (id : Nat) (old_v new_v : Nat)
    (s : Store Ty V) : Outcome (Store Ty V) :=
  variant_helper_rec.move E Ts id old_v new_v s

/-- `variant_helper<Ts...>::copy`. -/
def copy (E : ValueTypes Ty V) (Ts : List Ty) (id : Nat) (old_v new_v : Nat)
    (s : Store Ty V) : Outcome (Store Ty V) :=
  variant_helper_rec.copy E Ts id old_v new_v s

end variant_helper

/-- An argument of `set<T>(args...)` from which the new `T` is built: a value
that is no part of the variant, or the reference `get<T>()` to the payload of
the variant itself, which the copy constructor of `T` reads when it runs. -/
inductive Arg (V : Type) where
  | value (v : V)
  | own_payload
deriving DecidableEq, Repr

namespace variant

variable {Ty V : Type} [DecidableEq Ty]

/-- `variant::invalid_type()`. -/
def invalid_type (E : ValueTypes Ty V) : Nat := E.void_type_id

/-- The default constructor `variant()`. -/
def ctor (E : ValueTypes Ty V) : variant Ty V :=
  { variant_id := invalid_type E, data := .indeterminate }

/-- `variant::is<T>()`. -/
def is (E : ValueTypes Ty V) (T : Ty) (self : variant Ty V) : Bool :=
  self.variant_id == E.type_id T

/-- `variant::id()`. -/
def id (self : variant Ty V) : Nat := self.variant_id

/-- `variant::get<T>()`. The function exists for `T` in `Ts` only. -/
def get (E : ValueTypes Ty V) (T : Ty) (self : variant Ty V) : Ref V :=
  if self.variant_id = E.type_id T then
    match self.data with
    | .live o => if o.ty = T then .object o.value else .reinterpreted
    | _ => .reinterpreted
  else
    .null

/-- `variant::set<T>(args...)` on the variant in cell `this`: the store after
the call. The function exists for `T` in `Ts` only. The argument is evaluated
before the call: the reference `get<T>()` must be one to a live `T`. The
constructor of `T` runs after `destroy`, and reads then what its argument
refers to. -/
def set (E : ValueTypes Ty V) (Ts : List Ty) (T : Ty) (arg : Arg V) (s : Store Ty V)
    (this : Nat) : Outcome (Store Ty V) :=
  (s.read this).andThen fun a =>
    (match arg with
      | .value _ => Outcome.ok ()
      | .own_payload =>
        match a.get E T with
        | .object _ => Outcome.ok ()
        | _ => Outcome.undefined_behavior).andThen fun _ =>
      (variant_helper.destroy E Ts a.variant_id this s).andThen fun s1 =>
        (s1.read this).andThen fun a1 =>
          (match arg with
            | .value v => Outcome.ok v
            | .own_payload =>
              match a1.data.read E with
              | some o => if o.ty = T then Outcome.ok o.value else Outcome.undefined_behavior
              | none => Outcome.undefined_behavior).andThen fun v =>
            .ok (s1.set this { variant_id := E.type_id T, data := .live ⟨T, v⟩ })

/-- The destructor `~variant()` of the variant in cell `this`: the store after
the call. -/
def dtor (E : ValueTypes Ty V) (Ts : List Ty) (s : Store Ty V) (this : Nat) :
    Outcome (Store Ty V) :=
  (s.read this).andThen fun a => variant_helper.destroy E Ts a.variant_id this s

/-- The variant is in the empty state: the tag is the invalid one and no live
object is in the buffer. -/
def Empty (E : ValueTypes Ty V) (self : variant Ty V) : Prop :=
  self.variant_id = E.void_type_id ∧ self.data.is_live = false

/-- The variant holds the value `v` of type `T`: the tag is the id of `T` and
the live object in the buffer is a `T` of value `v`. -/
def Holds (E : ValueTypes Ty V) (self : variant Ty V) (T : Ty) (v : V) : Prop :=
  self.variant_id = E.type_id T ∧ self.data = .live ⟨T, v⟩

/-- The tag/payload invariant: the variant is empty, or it holds a value of one
of the types `Ts`. -/
def Valid (E : ValueTypes Ty V) (Ts : List Ty) (self : variant Ty V) : Prop :=
  Empty E self ∨ ∃ T, T ∈ Ts ∧ ∃ v, Holds E self T v

end variant

/-! ### The operations on variants

The constructors and assignment operators involve two variants, which may be
one and the same object; each statement of a member function reads and writes
cells of the store. -/

namespace Store

variable {Ty V : Type} [DecidableEq Ty]

/-- A new variant built by the default constructor. -/
def construct (E : ValueTypes Ty V) (s : Store Ty V) : Outcome (Store Ty V) :=
  .ok (s ++ [variant.ctor E])

/-- A new variant built by the copy constructor `variant(const variant& from)`
from the variant in cell `src`. The new variant is the cell after the last. -/
def copy_construct (E : ValueTypes Ty V) (Ts : List Ty) (s : Store Ty V) (src : Nat) :
    Outcome (Store Ty V) :=
  (s.read src).andThen fun x =>
    let s1 : Store Ty V := s ++ [{ variant_id := x.variant_id, data := .indeterminate }]
    (s1.read src).andThen fun x1 =>
      variant_helper.copy E Ts x1.variant_id src s.length s1

/-- A new variant built by the move constructor `variant(variant&& from)` from
the variant in cell `src`. The new variant is the cell after the last. -/
def move_construct (E : ValueTypes Ty V) (Ts : List Ty) (s : Store Ty V) (src : Nat) :
    Outcome (Store Ty V) :=
  (s.read src).andThen fun x =>
    let s1 : Store Ty V := s ++ [{ variant_id := x.variant_id, data := .indeterminate }]
    (s1.read src).andThen fun x1 =>
      variant_helper.move E Ts x1.variant_id src s.length s1

/-- The copy assignment `operator=(variant& rhs)` of the variant in cell `this`,
with the variant in cell `rhs`. -/
def assign_copy (E : ValueTypes Ty V) (Ts : List Ty) (s : Store Ty V) (this rhs : Nat) :
    Outcome (Store Ty V) :=
  (s.read this).andThen fun a =>
    (variant_helper.destroy E Ts a.variant_id this s).andThen fun s1 =>
      (s1.read rhs).andThen fun b =>
        (s1.read this).andThen fun a1 =>
          let s2 : Store Ty V := s1.set this { a1 with variant_id := b.variant_id }
          (s2.read rhs).andThen fun b2 =>
            variant_helper.copy E Ts b2.variant_id rhs this s2

/-- The move assignment `operator=(variant&& rhs)` of the variant in cell
`this`, with the variant in cell `rhs`. -/
def assign_move (E : ValueTypes Ty V) (Ts : List Ty) (s : Store Ty V) (this rhs : Nat) :
    Outcome (Store Ty V) :=
  (s.read this).andThen fun a =>
    (variant_helper.destroy E Ts a.variant_id this s).andThen fun s1 =>
      (s1.read rhs).andThen fun b =>
        (s1.read this).andThen fun a1 =>
          let s2 : Store Ty V := s1.set this { a1 with variant_id := b.variant_id }
          (s2.read rhs).andThen fun b2 =>
            variant_helper.move E Ts b2.variant_id rhs this s2

/-- The call `set<T>(args...)` on the variant in cell `this`. -/
def set_value (E : ValueTypes Ty V) (Ts : List Ty) (s : Store Ty V) (this : Nat) (T : Ty)
    (arg : Arg V) : Outcome (Store Ty V) :=
  variant.set E Ts T arg s this

/-- One operation of a program on its variants. -/
inductive Op (Ty V : Type) where
  | construct
  | copy_construct (src : Nat)
  | move_construct (src : Nat)
  | assign_copy (this rhs : Nat)
  | assign_move (this rhs : Nat)
  | set (this : Nat) (T : Ty) (arg : Arg V)
deriving DecidableEq, Repr

/-- The store after one operation. -/
def step (E : ValueTypes Ty V) (Ts : List Ty) (s : Store Ty V) : Op Ty V → Outcome (Store Ty V)
  | .construct => construct E s
  | .copy_construct src => copy_construct E Ts s src
  | .move_construct src => move_construct E Ts s src
  | .assign_copy this rhs => assign_copy E Ts s this rhs
  | .assign_move this rhs => assign_move E Ts s this rhs
  | .set this T arg => set_value E Ts s this T arg

/-- The store after a sequence of operations, from left to right. -/
def run (E : ValueTypes Ty V) (Ts : List Ty) : Store Ty V → List (Op Ty V) → Outcome (Store Ty V)
  | s, [] => .ok s
  | s, op :: ops => (step E Ts s op).andThen fun s2 => run E Ts s2 ops

/-- The operation is one that the compiler accepts: `set<T>` exists for the
types `T` of the variant only. -/
def Op.WellTyped (Ts : List Ty) : Op Ty V → Prop
  | .set _ T _ => T ∈ Ts
  | _ => True

/-- The operation names cells that exist, and `set` is called at a type of `Ts`
with a value that is no part of the variant; an assignment may have one and the
same variant on its two sides. -/
def Op.InRange (Ts : List Ty) (n : Nat) : Op Ty V → Prop
  | .construct => True
  | .copy_construct src => src < n
  | .move_construct src => src < n
  | .assign_copy this rhs => this < n ∧ rhs < n
  | .assign_move this rhs => this < n ∧ rhs < n
  | .set this T arg => this < n ∧ T ∈ Ts ∧ ∃ v, arg = .value v

/-- The operation is not a copy assignment of a variant to itself. -/
def Op.NoSelfCopy : Op Ty V → Prop
  | .assign_copy this rhs => this ≠ rhs
  | _ => True

/-- The number of variants an operation adds to the store. -/
def Op.grows : Op Ty V → Nat
  | .construct => 1
  | .copy_construct _ => 1
  | .move_construct _ => 1
  | _ => 0

/-- Every operation of the sequence names cells that exist at the time it
runs, the store holding `n` variants at the start. -/
def InRange (Ts : List Ty) : Nat → List (Op Ty V) → Prop
  | _, [] => True
  | n, op :: ops => op.InRange Ts n ∧ InRange Ts (n + op.grows) ops

end Store

/-! ### Three value types -/

/-- Three value types, for instances. -/
inductive SampleType where
  | int
  | float
  | string
deriving DecidableEq, Repr

/-- The three types with ids 1, 2 and 3, the id 0 for `void`, payloads as
numbers. Moving from a `string` leaves the value 0, moving from an `int` or a
`float` leaves the value as it is. The destructor of `int` and `float` does
nothing. A `string` of value below 16 stands for one whose characters are held
in the object itself, which its destructor leaves as they are; a `string` of
value 16 or more stands for one with heap storage, which its destructor
releases. -/
def sampleTypes : ValueTypes SampleType Nat :=
  { type_id := fun t => match t with
      | .int => 1
      | .float => 2
      | .string => 3,
    void_type_id := 0,
    moved_from := fun t v => match t with
      | .string => 0
      | _ => v,
    after_destroy := fun t v => match t with
      | .string => if v < 16 then some v else none
      | _ => some v,
    type_id_injective := by intro a b; cases a <;> cases b <;> simp,
    type_id_ne_void := by intro a; cases a <;> simp }

/-- The alternatives of the variant used for instances:
`variant<int, float, string>`. -/
def sampleTs : List SampleType := [.int, .float, .string]

/-! ### The size of the buffer -/

/-- The template `static_max<arg1, others...>::value`. -/
def static_max : Nat → List Nat → Nat
  | arg, [] => arg
  | arg1, arg2 :: others =>
    if arg1 ≥ arg2 then static_max arg1 others else static_max arg2 others

/-- The operators `sizeof` and `alignof` on the value types. -/
structure TypeLayout (Ty : Type) where
  sizeof : Ty → Nat
  alignof : Ty → Nat

/-- The constant `variant<Ts...>::data_size`, which is
`static_max<sizeof(Ts)...>::value`. The template `static_max` has no
instance without argument, so there is no value for the empty list. -/
def variant.data_size {Ty : Type} (L : TypeLayout Ty) : List Ty → Option Nat
  | [] => none
  | T :: Ts => some (static_max (L.sizeof T) (Ts.map L.sizeof))

/-- The constant `variant<Ts...>::data_align`, which is
`static_max<alignof(Ts)...>::value`. -/
def variant.data_align {Ty : Type} (L : TypeLayout Ty) : List Ty → Option Nat
  | [] => none
  | T :: Ts => some (static_max (L.alignof T) (Ts.map L.alignof))

/-- Sizes and alignments of the three sample types on a common 64-bit
platform: `int` 4 and 4, `float` 4 and 4, `string` 32 and 8. -/
def sampleLayout : TypeLayout SampleType :=
  { sizeof := fun t => match t with
      | .int => 4
      | .float => 4
      | .string => 32,
    alignof := fun t => match t with
      | .int => 4
      | .float => 4
      | .string => 8 }

end tinyusdz

/-! ## The example programs -/

/-- The macro `EXIT_SUCCESS` of `stdlib.h`. -/
def EXIT_SUCCESS : Int := 0

/-- The macro `EXIT_FAILURE` of `stdlib.h`. -/
def EXIT_FAILURE : Int := 1

namespace c_api_example

/-- The functions of the C binding that the example calls, as functions of the
file name: the result of `c_tinyusd_is_usd_file`; the result of
`c_tinyusd_load_usd_from_file` with the warning and the error text it leaves;
and the result of `c_tinyusd_stage_to_string` on the stage loaded from that
file. -/
structure CTinyUSD where
  c_tinyusd_is_usd_file : String → Int
  c_tinyusd_load_usd_from_file : String → Int × String × String
  c_tinyusd_stage_to_string : String → Int

/-- The function `main` of c-api-example-main.c: its exit code. `argv` holds
the `argc` arguments, the program name first. The text sent to standard output
is left out. -/
def main (api : CTinyUSD) (argv : List String) : Int :=
  if argv.length < 2 then
    EXIT_FAILURE
  else
    let arg1 := argv.getD 1 ""
    let ret := api.c_tinyusd_is_usd_file arg1
    if ret = 0 then
      EXIT_FAILURE
    else
      let _ret := (api.c_tinyusd_load_usd_from_file arg1).1
      if api.c_tinyusd_stage_to_string arg1 = 0 then
        EXIT_SUCCESS
      else
        EXIT_SUCCESS

/-- A binding for which `broken.usda` is a USD file that fails to load. -/
def brokenFile : CTinyUSD :=
  { c_tinyusd_is_usd_file := fun _ => 1,
    c_tinyusd_load_usd_from_file := fun _ => (0, "", "parse error"),
    c_tinyusd_stage_to_string := fun _ => 1 }

end c_api_example

namespace tydra_convert

/-- `GetFileExtension`: the text after the last `.` of the file name, empty
when there is none. -/
def GetFileExtension (filename : String) : String :=
  if filename.data.contains '.' then
    String.mk ((filename.data.reverse.takeWhile (fun c => c != '.')).reverse)
  else ""

/-- `str_tolower`. -/
def str_tolower (s : String) : String := String.mk (s.data.map Char.toLower)

/-- The four loaders the example calls, as functions of the file name: the
result of each (the warning and error texts only feed standard error). -/
structure Loaders where
  LoadUSDCFromFile : String → Bool
  LoadUSDAFromFile : String → Bool
  LoadUSDZFromFile : String → Bool
  LoadUSDFromFile : String → Bool

/-- The function `main` of tydra-convert-main.cc: its exit code. The text sent
to the standard streams is left out; the part after loading prints the stage
and returns 0. -/
def main (L : Loaders) (argv : List String) : Int :=
  if argv.length < 2 then
    EXIT_FAILURE
  else
    let filepath := argv.getD 1 ""
    let ext := str_tolower (GetFileExtension filepath)
    if ext = "usdc" then
      if !L.LoadUSDCFromFile filepath then EXIT_FAILURE else 0
    else if ext = "usda" then
      if !L.LoadUSDAFromFile filepath then EXIT_FAILURE else 0
    else if ext = "usdz" then
      if !L.LoadUSDZFromFile filepath then EXIT_FAILURE else 0
    else
      if !L.LoadUSDFromFile filepath then EXIT_FAILURE else 0

end tydra_convert

namespace tinyusdz
namespace usdc

/-! ## Association lists -/

section AssocLemmas

variable {K V : Type} [DecidableEq K]

theorem lookup_store_self (k : K) (v : V) (es : List (K × V)) :
    lookup k (store k v es) = some v := by
  induction es with
  | nil => simp [store, lookup]
  | cons e es ih =>
    by_cases h : e.1 = k
    · simp [store, lookup, h]
    · simp [store, lookup, h, ih]

theorem lookup_store_ne {k k2 : K} (h : k2 ≠ k) (v : V) (es : List (K × V)) :
    lookup k2 (store k v es) = lookup k2 es := by
  induction es with
  | nil => simp [store, lookup, Ne.symm h]
  | cons e es ih =>
    by_cases h1 : e.1 = k
    · have h2 : ¬ e.1 = k2 := fun h3 => h (h3.symm.trans h1)
      simp only [store, lookup, if_pos h1, if_neg h2]
    · by_cases h2 : e.1 = k2
      · simp only [store, lookup, if_neg h1, if_pos h2]
      · simp only [store, lookup, if_neg h1, if_neg h2, ih]

theorem store_of_lookup_none {k : K} (v : V) {es : List (K × V)}
    (h : lookup k es = none) : store k v es = es ++ [(k, v)] := by
  induction es with
  | nil => simp [store]
  | cons e es ih =>
    by_cases h1 : e.1 = k
    · simp [lookup, h1] at h
    · simp [lookup, h1] at h
      simp [store, h1, ih h]

theorem lookup_append (k : K) (es fs : List (K × V)) :
    lookup k (es ++ fs) = (lookup k es).orElse (fun _ => lookup k fs) := by
  induction es with
  | nil => simp [lookup]
  | cons e es ih =>
    by_cases h1 : e.1 = k
    · simp [lookup, h1]
    · simp [lookup, h1, ih]

end AssocLemmas

/-- Below `2 ^ 32` the conversion to `uint32_t` changes nothing. -/
theorem uint32_t_of_lt {n : Nat} (h : n < 2 ^ 32) : uint32_t n = n :=
  Nat.mod_eq_of_lt h

/-! ## Lemmas on one interning table -/

namespace InternTable

variable {K : Type} [DecidableEq K]

theorem intern_of_lookup_some {t : InternTable K} {k : K} {i : crate.Index}
    (h : lookup k t.map.entries = some i) : t.intern k = (i, t) := by
  simp [intern, unordered_map.count, unordered_map.subscript, h]

theorem intern_of_lookup_none {t : InternTable K} {k : K}
    (h : lookup k t.map.entries = none) :
    t.intern k =
      (⟨uint32_t t.seq.length⟩,
        ⟨⟨t.map.entries ++ [(k, ⟨uint32_t t.seq.length⟩)]⟩, t.seq ++ [k]⟩) := by
  simp [intern, unordered_map.count, unordered_map.subscript, unordered_map.assign, h,
    store_of_lookup_none, lookup_append, lookup]

/-- After `intern k` the map holds the returned index under `k`. -/
theorem lookup_intern_self (t : InternTable K) (k : K) :
    lookup k (t.intern k).2.map.entries = some (t.intern k).1 := by
  cases h : lookup k t.map.entries with
  | some i => rw [intern_of_lookup_some h]; exact h
  | none =>
    rw [intern_of_lookup_none h]
    simp [lookup_append, h, lookup]

/-- An entry of the map is never changed by a later `intern`. -/
theorem lookup_intern_of_some {t : InternTable K} {k : K} {i : crate.Index}
    (h : lookup k t.map.entries = some i) (k2 : K) :
    lookup k (t.intern k2).2.map.entries = some i := by
  cases h2 : lookup k2 t.map.entries with
  | some j => rw [intern_of_lookup_some h2]; exact h
  | none =>
    rw [intern_of_lookup_none h2]
    simp [lookup_append, h]

theorem lookup_internAll_of_some {k : K} {i : crate.Index} (ks : List K) :
    ∀ {t : InternTable K}, lookup k t.map.entries = some i →
      lookup k (t.internAll ks).map.entries = some i := by
  induction ks with
  | nil => intro t h; exact h
  | cons k2 ks ih =>
    intro t h
    exact ih (lookup_intern_of_some h k2)

/-- Interning a key again, after any further interns, gives the first index. -/
theorem intern_again (t : InternTable K) (k : K) (ks : List K) :
    (((t.intern k).2.internAll ks).intern k).1 = (t.intern k).1 := by
  have h := lookup_internAll_of_some ks (lookup_intern_self t k)
  rw [intern_of_lookup_some h]

theorem internAll_append (t : InternTable K) (ks ls : List K) :
    t.internAll (ks ++ ls) = (t.internAll ks).internAll ls := by
  simp [internAll, List.foldl_append]

theorem internAll_cons (t : InternTable K) (k : K) (ks : List K) :
    t.internAll (k :: ks) = (t.intern k).2.internAll ks := rfl

theorem consistent_nil : Consistent (⟨⟨[]⟩, []⟩ : InternTable K) := by
  intro k
  simp [lookup]

theorem Consistent.intern_of_mem {t : InternTable K} (h : Consistent t) {k : K}
    (hk : k ∈ t.seq) : t.intern k = (⟨uint32_t (t.seq.indexOf k)⟩, t) := by
  apply intern_of_lookup_some
  rw [h k, if_pos hk]

theorem Consistent.intern_of_not_mem {t : InternTable K} (h : Consistent t) {k : K}
    (hk : k ∉ t.seq) :
    t.intern k =
      (⟨uint32_t t.seq.length⟩,
        ⟨⟨t.map.entries ++ [(k, ⟨uint32_t t.seq.length⟩)]⟩, t.seq ++ [k]⟩) := by
  apply intern_of_lookup_none
  rw [h k, if_neg hk]

theorem Consistent.intern {t : InternTable K} (h : Consistent t) (k : K) :
    Consistent (t.intern k).2 := by
  by_cases hk : k ∈ t.seq
  · rw [h.intern_of_mem hk]; exact h
  · rw [h.intern_of_not_mem hk]
    intro k2
    simp only [lookup_append]
    by_cases hk2 : k2 ∈ t.seq
    · rw [h k2, if_pos hk2, if_pos (List.mem_append_left _ hk2),
        List.indexOf_append_of_mem hk2]
      rfl
    · rw [h k2, if_neg hk2]
      by_cases he : k = k2
      · subst he
        have hm : k ∈ t.seq ++ [k] := by simp
        rw [if_pos hm, List.indexOf_append_of_not_mem hk2]
        simp [lookup]
      · have hm : k2 ∉ t.seq ++ [k] := by
          simp [hk2, Ne.symm he]
        rw [if_neg hm]
        simp [lookup, he]

theorem Consistent.internAll (ks : List K) :
    ∀ {t : InternTable K}, Consistent t → Consistent (t.internAll ks) := by
  induction ks with
  | nil => intro t h; exact h
  | cons k ks ih => intro t h; exact ih (h.intern k)

/-- The sequence only grows at its end. -/
theorem seq_intern_extends (t : InternTable K) (k : K) :
    ∃ l, (t.intern k).2.seq = t.seq ++ l := by
  cases h : lookup k t.map.entries with
  | some i => rw [intern_of_lookup_some h]; exact ⟨[], by simp⟩
  | none => rw [intern_of_lookup_none h]; exact ⟨[k], rfl⟩

theorem seq_internAll_extends (ks : List K) :
    ∀ t : InternTable K, ∃ l, (t.internAll ks).seq = t.seq ++ l := by
  induction ks with
  | nil => intro t; exact ⟨[], by simp [internAll]⟩
  | cons k ks ih =>
    intro t
    obtain ⟨l1, h1⟩ := seq_intern_extends t k
    obtain ⟨l2, h2⟩ := ih (t.intern k).2
    exact ⟨l1 ++ l2, by rw [internAll_cons, h2, h1, List.append_assoc]⟩

/-- In a consistent table the returned index is the 32-bit image of the position
of the key in the sequence after the call, where the key occurs. -/
theorem Consistent.intern_fst {t : InternTable K} (h : Consistent t) (k : K) :
    k ∈ (t.intern k).2.seq ∧
      (t.intern k).1 = ⟨uint32_t ((t.intern k).2.seq.indexOf k)⟩ := by
  by_cases hk : k ∈ t.seq
  · rw [h.intern_of_mem hk]; exact ⟨hk, rfl⟩
  · rw [h.intern_of_not_mem hk]
    refine ⟨by simp, ?_⟩
    simp [List.indexOf_append_of_not_mem hk]

/-- Two different keys of a consistent table of at most `2 ^ 32` keys have
different entries. -/
theorem Consistent.entries_differ {t : InternTable K} (h : Consistent t)
    (hlen : t.seq.length ≤ 2 ^ 32) {k1 k2 : K} {i : crate.Index}
    (h1 : lookup k1 t.map.entries = some i) (h2 : lookup k2 t.map.entries = some i) :
    k1 = k2 := by
  rw [h k1] at h1
  rw [h k2] at h2
  by_cases m1 : k1 ∈ t.seq
  · by_cases m2 : k2 ∈ t.seq
    · rw [if_pos m1] at h1
      rw [if_pos m2] at h2
      have l1 : t.seq.indexOf k1 < 2 ^ 32 :=
        lt_of_lt_of_le (List.indexOf_lt_length.mpr m1) hlen
      have l2 : t.seq.indexOf k2 < 2 ^ 32 :=
        lt_of_lt_of_le (List.indexOf_lt_length.mpr m2) hlen
      rw [uint32_t_of_lt l1] at h1
      rw [uint32_t_of_lt l2] at h2
      have e : t.seq.indexOf k1 = t.seq.indexOf k2 := by
        have e1 := h1.trans h2.symm
        simpa using e1
      exact (List.indexOf_inj m1 m2).mp e
    · rw [if_neg m2] at h2; cases h2
  · rw [if_neg m1] at h1; cases h1

/-- Injectivity on one table: a later `intern` of another key gives another
index, as long as the table then holds at most `2 ^ 32` keys. -/
theorem Consistent.intern_differ {t : InternTable K} (h : Consistent t) {k1 k2 : K}
    (hne : k1 ≠ k2) (ks : List K)
    (hlen : (((t.intern k1).2.internAll ks).intern k2).2.seq.length ≤ 2 ^ 32) :
    (((t.intern k1).2.internAll ks).intern k2).1 ≠ (t.intern k1).1 := by
  intro heq
  have hc : Consistent (((t.intern k1).2.internAll ks).intern k2).2 :=
    (Consistent.internAll ks (h.intern k1)).intern k2
  have a1 := lookup_intern_of_some
    (lookup_internAll_of_some ks (lookup_intern_self t k1)) k2
  have a2 := lookup_intern_self ((t.intern k1).2.internAll ks) k2
  rw [heq] at a2
  exact hne (hc.entries_differ hlen a1 a2)

/-- Position stability on one table: the key sits at the position named by its
index, now and after any further interns, when the table held at most `2 ^ 32`
keys after the call. -/
theorem Consistent.getElem?_intern {t : InternTable K} (h : Consistent t) (k : K)
    (ks : List K) (hlen : (t.intern k).2.seq.length ≤ 2 ^ 32) :
    ((t.intern k).2.internAll ks).seq[(t.intern k).1.value]? = some k := by
  obtain ⟨hm, hi⟩ := h.intern_fst k
  obtain ⟨l, hl⟩ := seq_internAll_extends ks (t.intern k).2
  have hlt := List.indexOf_lt_length.mpr hm
  rw [hl, hi]
  simp only
  rw [uint32_t_of_lt (lt_of_lt_of_le hlt hlen), List.getElem?_append_left hlt]
  exact List.getElem?_indexOf hm

/-- The sequence lists the interned keys without repetition, in the order of
their first occurrence. -/
theorem Consistent.seq_internAll [BEq K] [LawfulBEq K] (ks : List K) :
    ∀ {t : InternTable K}, Consistent t →
      (t.internAll ks).seq = List.eraseDups.loop ks t.seq.reverse := by
  induction ks with
  | nil => intro t _; simp [InternTable.internAll, List.eraseDups.loop]
  | cons k ks ih =>
    intro t h
    rw [internAll_cons, ih (h.intern k)]
    by_cases hk : k ∈ t.seq
    · rw [h.intern_of_mem hk]
      simp [List.eraseDups.loop, hk]
    · rw [h.intern_of_not_mem hk]
      simp [List.eraseDups.loop, hk]

/-- Keys that are new and pairwise different are appended in order. -/
theorem Consistent.seq_internAll_fresh (ks : List K) :
    ∀ {t : InternTable K}, Consistent t → ks.Nodup → (∀ k ∈ ks, k ∉ t.seq) →
      (t.internAll ks).seq = t.seq ++ ks := by
  induction ks with
  | nil => intro t _ _ _; simp [InternTable.internAll]
  | cons k ks ih =>
    intro t h hn hf
    have hk : k ∉ t.seq := hf k (by simp)
    have hn2 := List.nodup_cons.mp hn
    rw [internAll_cons, ih (h.intern k) hn2.2, h.intern_of_not_mem hk]
    · simp
    · intro k2 hk2
      rw [h.intern_of_not_mem hk]
      have h3 : k2 ∉ t.seq := hf k2 (List.mem_cons_of_mem _ hk2)
      have h4 : k2 ≠ k := fun e => hn2.1 (e ▸ hk2)
      simp [h3, h4]

theorem Consistent.fresh_index {t : InternTable K}
    (h : t.Consistent) {k : K} (hk : k ∉ t.seq) (hlen : t.seq.length < 2 ^ 32) :
    (t.intern k).1.value = t.seq.length ∧ (t.intern k).2.seq = t.seq ++ [k] := by
  rw [h.intern_of_not_mem hk]
  exact ⟨uint32_t_of_lt hlen, rfl⟩

theorem Consistent.fresh_append {t : InternTable K}
    (h : t.Consistent) {k : K} (hk : k ∉ t.seq) : (t.intern k).2.seq = t.seq ++ [k] := by
  rw [h.intern_of_not_mem hk]

theorem Consistent.seq_of_mem {t : InternTable K}
    (h : t.Consistent) {k : K} (hk : k ∈ t.seq) : (t.intern k).2.seq = t.seq := by
  rw [h.intern_of_mem hk]

theorem seq_internAll_nil [BEq K] [LawfulBEq K]
    (ks : List K) : ((⟨⟨[]⟩, []⟩ : InternTable K).internAll ks).seq = ks.eraseDups := by
  rw [Consistent.seq_internAll ks consistent_nil]
  rfl

theorem mem_internAll_nil (ks : List K) :
    ∀ (t : InternTable K) (k : K), k ∈ (t.internAll ks).seq → k ∈ t.seq ∨ k ∈ ks := by
  induction ks with
  | nil => intro t k h; exact Or.inl h
  | cons k1 ks ih =>
    intro t k h
    rw [internAll_cons] at h
    rcases ih _ k h with h1 | h1
    · cases h2 : lookup k1 t.map.entries with
      | some i =>
        rw [intern_of_lookup_some h2] at h1
        exact Or.inl h1
      | none =>
        rw [intern_of_lookup_none h2] at h1
        rcases List.mem_append.mp h1 with h3 | h3
        · exact Or.inl h3
        · right
          have : k = k1 := by simpa using h3
          simp [this]
    · exact Or.inr (List.mem_cons_of_mem _ h1)

/-- A key that no call has interned, added to a table reached from the empty
one, gets the number of distinct keys interned so far. -/
theorem next_index [BEq K] [LawfulBEq K]
    (ks : List K) (k : K) (hk : k ∉ ks) (hlen : ks.eraseDups.length < 2 ^ 32) :
    (((⟨⟨[]⟩, []⟩ : InternTable K).internAll ks).intern k).1.value = ks.eraseDups.length := by
  have hc := Consistent.internAll ks (consistent_nil (K := K))
  have hs := seq_internAll_nil ks
  have hm : k ∉ ((⟨⟨[]⟩, []⟩ : InternTable K).internAll ks).seq := by
    intro h
    rcases mem_internAll_nil ks _ k h with h1 | h1
    · simp at h1
    · exact hk h1
  rw [← hs] at hlen ⊢
  exact (hc.fresh_index hm hlen).1

end InternTable

/-! ## From `Packer` to its tables -/

namespace Packer

theorem AddToken_eq (p : Packer) (k : Token) :
    p.AddToken k =
      ((p.tokenTable.intern k).1,
        { p with token_to_index_map := (p.tokenTable.intern k).2.map,
                 tokens_ := (p.tokenTable.intern k).2.seq }) := by
  unfold AddToken InternTable.intern tokenTable
  split <;> rfl

theorem AddString_eq (p : Packer) (k : String) :
    p.AddString k =
      ((p.stringTable.intern k).1,
        { p with string_to_index_map := (p.stringTable.intern k).2.map,
                 strings_ := (p.stringTable.intern k).2.seq }) := by
  unfold AddString InternTable.intern stringTable
  split <;> rfl

theorem AddPath_eq (p : Packer) (k : Path) :
    p.AddPath k =
      ((p.pathTable.intern k).1,
        { p with path_to_index_map := (p.pathTable.intern k).2.map,
                 paths_ := (p.pathTable.intern k).2.seq }) := by
  unfold AddPath InternTable.intern pathTable
  split <;> rfl

theorem AddField_eq (p : Packer) (k : Field) :
    p.AddField k =
      ((p.fieldTable.intern k).1,
        { p with field_to_index_map := (p.fieldTable.intern k).2.map,
                 fields_ := (p.fieldTable.intern k).2.seq }) := by
  unfold AddField InternTable.intern fieldTable
  split <;> rfl

theorem AddFieldSet_tables (p : Packer) (fs : List crate.FieldIndex) :
    (p.AddFieldSet fs).2.tokenTable = p.tokenTable ∧
    (p.AddFieldSet fs).2.stringTable = p.stringTable ∧
    (p.AddFieldSet fs).2.pathTable = p.pathTable ∧
    (p.AddFieldSet fs).2.fieldTable = p.fieldTable := by
  unfold AddFieldSet tokenTable stringTable pathTable fieldTable
  split <;> simp

theorem tokenTable_step (p : Packer) (op : Op) :
    (p.step op).tokenTable =
      match op.tokenKey with
      | some k => (p.tokenTable.intern k).2
      | none => p.tokenTable := by
  cases op with
  | addToken t => simp [step, Op.tokenKey, AddToken_eq, tokenTable]
  | addString s => simp [step, Op.tokenKey, AddString_eq, tokenTable]
  | addPath s => simp [step, Op.tokenKey, AddPath_eq, tokenTable]
  | addField s => simp [step, Op.tokenKey, AddField_eq, tokenTable]
  | addFieldSet s => simp [step, Op.tokenKey, (AddFieldSet_tables p s).1]

theorem stringTable_step (p : Packer) (op : Op) :
    (p.step op).stringTable =
      match op.stringKey with
      | some k => (p.stringTable.intern k).2
      | none => p.stringTable := by
  cases op with
  | addToken t => simp [step, Op.stringKey, AddToken_eq, stringTable]
  | addString s => simp [step, Op.stringKey, AddString_eq, stringTable]
  | addPath s => simp [step, Op.stringKey, AddPath_eq, stringTable]
  | addField s => simp [step, Op.stringKey, AddField_eq, stringTable]
  | addFieldSet s => simp [step, Op.stringKey, (AddFieldSet_tables p s).2.1]

theorem pathTable_step (p : Packer) (op : Op) :
    (p.step op).pathTable =
      match op.pathKey with
      | some k => (p.pathTable.intern k).2
      | none => p.pathTable := by
  cases op with
  | addToken t => simp [step, Op.pathKey, AddToken_eq, pathTable]
  | addString s => simp [step, Op.pathKey, AddString_eq, pathTable]
  | addPath s => simp [step, Op.pathKey, AddPath_eq, pathTable]
  | addField s => simp [step, Op.pathKey, AddField_eq, pathTable]
  | addFieldSet s => simp [step, Op.pathKey, (AddFieldSet_tables p s).2.2.1]

theorem fieldTable_step (p : Packer) (op : Op) :
    (p.step op).fieldTable =
      match op.fieldKey with
      | some k => (p.fieldTable.intern k).2
      | none => p.fieldTable := by
  cases op with
  | addToken t => simp [step, Op.fieldKey, AddToken_eq, fieldTable]
  | addString s => simp [step, Op.fieldKey, AddString_eq, fieldTable]
  | addPath s => simp [step, Op.fieldKey, AddPath_eq, fieldTable]
  | addField s => simp [step, Op.fieldKey, AddField_eq, fieldTable]
  | addFieldSet s => simp [step, Op.fieldKey, (AddFieldSet_tables p s).2.2.2]

theorem tokenTable_run (ops : List Op) :
    ∀ p : Packer, (p.run ops).tokenTable = p.tokenTable.internAll (ops.filterMap Op.tokenKey) := by
  induction ops with
  | nil => intro p; rfl
  | cons op ops ih =>
    intro p
    have h := ih (p.step op)
    rw [tokenTable_step] at h
    cases hk : op.tokenKey with
    | none => simpa [run, InternTable.internAll, List.filterMap_cons, hk] using h
    | some k => simpa [run, InternTable.internAll, List.filterMap_cons, hk] using h

theorem stringTable_run (ops : List Op) :
    ∀ p : Packer,
      (p.run ops).stringTable = p.stringTable.internAll (ops.filterMap Op.stringKey) := by
  induction ops with
  | nil => intro p; rfl
  | cons op ops ih =>
    intro p
    have h := ih (p.step op)
    rw [stringTable_step] at h
    cases hk : op.stringKey with
    | none => simpa [run, InternTable.internAll, List.filterMap_cons, hk] using h
    | some k => simpa [run, InternTable.internAll, List.filterMap_cons, hk] using h

theorem pathTable_run (ops : List Op) :
    ∀ p : Packer, (p.run ops).pathTable = p.pathTable.internAll (ops.filterMap Op.pathKey) := by
  induction ops with
  | nil => intro p; rfl
  | cons op ops ih =>
    intro p
    have h := ih (p.step op)
    rw [pathTable_step] at h
    cases hk : op.pathKey with
    | none => simpa [run, InternTable.internAll, List.filterMap_cons, hk] using h
    | some k => simpa [run, InternTable.internAll, List.filterMap_cons, hk] using h

theorem fieldTable_run (ops : List Op) :
    ∀ p : Packer,
      (p.run ops).fieldTable = p.fieldTable.internAll (ops.filterMap Op.fieldKey) := by
  induction ops with
  | nil => intro p; rfl
  | cons op ops ih =>
    intro p
    have h := ih (p.step op)
    rw [fieldTable_step] at h
    cases hk : op.fieldKey with
    | none => simpa [run, InternTable.internAll, List.filterMap_cons, hk] using h
    | some k => simpa [run, InternTable.internAll, List.filterMap_cons, hk] using h

theorem AddToken_fst (p : Packer) (k : Token) :
    (p.AddToken k).1 = (p.tokenTable.intern k).1 := by rw [AddToken_eq]
theorem AddString_fst (p : Packer) (k : String) :
    (p.AddString k).1 = (p.stringTable.intern k).1 := by rw [AddString_eq]
theorem AddPath_fst (p : Packer) (k : Path) :
    (p.AddPath k).1 = (p.pathTable.intern k).1 := by rw [AddPath_eq]
theorem AddField_fst (p : Packer) (k : Field) :
    (p.AddField k).1 = (p.fieldTable.intern k).1 := by rw [AddField_eq]

theorem AddToken_table (p : Packer) (k : Token) :
    (p.AddToken k).2.tokenTable = (p.tokenTable.intern k).2 := by
  rw [AddToken_eq]; rfl
theorem AddString_table (p : Packer) (k : String) :
    (p.AddString k).2.stringTable = (p.stringTable.intern k).2 := by
  rw [AddString_eq]; rfl
theorem AddPath_table (p : Packer) (k : Path) :
    (p.AddPath k).2.pathTable = (p.pathTable.intern k).2 := by
  rw [AddPath_eq]; rfl
theorem AddField_table (p : Packer) (k : Field) :
    (p.AddField k).2.fieldTable = (p.fieldTable.intern k).2 := by
  rw [AddField_eq]; rfl

theorem consistent_tokenTable (ops : List Op) : (empty.run ops).tokenTable.Consistent := by
  rw [tokenTable_run]; exact InternTable.Consistent.internAll _ InternTable.consistent_nil
theorem consistent_stringTable (ops : List Op) : (empty.run ops).stringTable.Consistent := by
  rw [stringTable_run]; exact InternTable.Consistent.internAll _ InternTable.consistent_nil
theorem consistent_pathTable (ops : List Op) : (empty.run ops).pathTable.Consistent := by
  rw [pathTable_run]; exact InternTable.Consistent.internAll _ InternTable.consistent_nil
theorem consistent_fieldTable (ops : List Op) : (empty.run ops).fieldTable.Consistent := by
  rw [fieldTable_run]; exact InternTable.Consistent.internAll _ InternTable.consistent_nil

theorem AddToken_tokens (p : Packer) (k : Token) :
    (p.AddToken k).2.tokens_ = (p.tokenTable.intern k).2.seq := by rw [AddToken_eq]
theorem AddString_strings (p : Packer) (k : String) :
    (p.AddString k).2.strings_ = (p.stringTable.intern k).2.seq := by rw [AddString_eq]
theorem AddPath_paths (p : Packer) (k : Path) :
    (p.AddPath k).2.paths_ = (p.pathTable.intern k).2.seq := by rw [AddPath_eq]
theorem AddField_fields (p : Packer) (k : Field) :
    (p.AddField k).2.fields_ = (p.fieldTable.intern k).2.seq := by rw [AddField_eq]

theorem tokens_eq_seq (p : Packer) : p.tokens_ = p.tokenTable.seq := rfl
theorem strings_eq_seq (p : Packer) : p.strings_ = p.stringTable.seq := rfl
theorem paths_eq_seq (p : Packer) : p.paths_ = p.pathTable.seq := rfl
theorem fields_eq_seq (p : Packer) : p.fields_ = p.fieldTable.seq := rfl

/-! ### The long sequence of tokens -/

theorem binaryLetters_eq_nil {f n : Nat} (hn : n ≤ f) (h : binaryLetters f n = []) :
    n = 0 := by
  cases f with
  | zero => exact Nat.le_zero.mp hn
  | succ f =>
    by_cases h0 : n = 0
    · exact h0
    · simp [binaryLetters, h0] at h

theorem binaryLetters_injective :
    ∀ f1 f2 n m : Nat, n ≤ f1 → m ≤ f2 → binaryLetters f1 n = binaryLetters f2 m → n = m := by
  intro f1
  induction f1 with
  | zero =>
    intro f2 n m hn hm h
    have e : n = 0 := Nat.le_zero.mp hn
    subst e
    exact (binaryLetters_eq_nil hm h.symm).symm
  | succ f1 ih =>
    intro f2 n m hn hm h
    by_cases h0 : n = 0
    · subst h0
      have e : binaryLetters (f1 + 1) 0 = [] := by simp [binaryLetters]
      rw [e] at h
      exact (binaryLetters_eq_nil hm h.symm).symm
    · cases f2 with
      | zero =>
        have e : m = 0 := Nat.le_zero.mp hm
        subst e
        exact binaryLetters_eq_nil hn h
      | succ f2 =>
        by_cases h1 : m = 0
        · subst h1
          have e : binaryLetters (f2 + 1) 0 = [] := by simp [binaryLetters]
          rw [e] at h
          exact binaryLetters_eq_nil hn h
        · simp only [binaryLetters, if_neg h0, if_neg h1, List.cons.injEq] at h
          have hd : n / 2 = m / 2 :=
            ih f2 (n / 2) (m / 2) (by omega) (by omega) h.2
          have hm2 : n % 2 = m % 2 := by
            by_cases a : n % 2 = 0 <;> by_cases b : m % 2 = 0
            · omega
            · simp [a, b] at h
            · simp [a, b] at h
            · omega
          omega

/-- The token of a number below `2 ^ k` has at most `k` letters. -/
theorem length_binaryLetters :
    ∀ f k n : Nat, n < 2 ^ k → (binaryLetters f n).length ≤ k := by
  intro f
  induction f with
  | zero => intro k n _; simp [binaryLetters]
  | succ f ih =>
    intro k n h
    by_cases h0 : n = 0
    · simp [binaryLetters, h0]
    · cases k with
      | zero => simp at h; omega
      | succ k =>
        simp only [binaryLetters, if_neg h0, List.length_cons]
        have h2 : n / 2 < 2 ^ k := by
          rw [Nat.pow_succ] at h
          omega
        have := ih k (n / 2) h2
        omega

theorem tok_injective : Function.Injective tok := by
  intro i j h
  have h2 : binaryLetters i i = binaryLetters j j := by
    have h3 := congrArg (fun t => t.str.data) h
    simpa [tok] using h3
  exact binaryLetters_injective i j i j (Nat.le_refl _) (Nat.le_refl _) h2

/-- The tokens of the numbers up to `2 ^ 32` have at most 33 letters each. -/
theorem length_tok (i : Nat) (h : i ≤ 2 ^ 32) : (tok i).str.data.length ≤ 33 :=
  length_binaryLetters i 33 i (by omega)

theorem tokenKey_tokensFrom (a n : Nat) :
    (tokensFrom a n).filterMap Op.tokenKey = (List.range' a n).map tok := by
  unfold tokensFrom
  rw [List.filterMap_map]
  have h : (Op.tokenKey ∘ fun i => Op.addToken (tok i)) = fun i => some (tok i) := rfl
  rw [h]
  show List.filterMap (some ∘ tok) (List.range' a n) = _
  rw [List.filterMap_eq_map]

/-- Adding the new tokens `tok a`, ..., `tok (a + n - 1)` appends them in order. -/
theorem run_tokensFrom (p : Packer) (hc : p.tokenTable.Consistent) (a n : Nat)
    (hf : ∀ i, a ≤ i → tok i ∉ p.tokens_) :
    (p.run (tokensFrom a n)).tokenTable.Consistent ∧
      (p.run (tokensFrom a n)).tokens_ = p.tokens_ ++ (List.range' a n).map tok := by
  constructor
  · rw [tokenTable_run]; exact InternTable.Consistent.internAll _ hc
  · rw [tokens_eq_seq, tokenTable_run, tokenKey_tokensFrom]
    apply InternTable.Consistent.seq_internAll_fresh _ hc
    · exact (List.nodup_range' a n).map tok_injective
    · intro k hk
      obtain ⟨i, hi, rfl⟩ := List.mem_map.mp hk
      exact hf i (List.mem_range'_1.mp hi).1

/-- A token that is new to a consistent table gets the 32-bit image of the
length of the table. -/
theorem AddToken_of_not_mem (p : Packer) (hc : p.tokenTable.Consistent) {k : Token}
    (hk : k ∉ p.tokens_) :
    (p.AddToken k).1 = ⟨uint32_t p.tokens_.length⟩ ∧
      (p.AddToken k).2.tokens_ = p.tokens_ ++ [k] := by
  rw [AddToken_eq, hc.intern_of_not_mem hk]
  exact ⟨rfl, rfl⟩

/-- The table after `tok 0`, ..., `tok (n - 1)` were added to the empty Packer. -/
theorem run_tokensFrom_empty (n : Nat) :
    (empty.run (tokensFrom 0 n)).tokenTable.Consistent ∧
      (empty.run (tokensFrom 0 n)).tokens_ = (List.range' 0 n).map tok := by
  have h := run_tokensFrom empty (consistent_tokenTable []) 0 n
    (fun i _ => by simp [empty])
  exact ⟨h.1, by rw [h.2]; simp [empty]⟩

theorem tok_not_mem_run (n : Nat) : tok n ∉ (empty.run (tokensFrom 0 n)).tokens_ := by
  rw [(run_tokensFrom_empty n).2]
  intro h
  obtain ⟨i, hi, he⟩ := List.mem_map.mp h
  have h2 := (List.mem_range'_1.mp hi).2
  have h3 := tok_injective he
  omega

theorem length_run_tokensFrom (n : Nat) : (empty.run (tokensFrom 0 n)).tokens_.length = n := by
  rw [(run_tokensFrom_empty n).2, List.length_map, List.length_range']

/-- The token `tok n`, added after `tok 0`, ..., `tok (n - 1)`, gets the 32-bit
image of `n`. -/
theorem AddToken_after_tokensFrom (n : Nat) :
    ((empty.run (tokensFrom 0 n)).AddToken (tok n)).1 = ⟨uint32_t n⟩ ∧
      ((empty.run (tokensFrom 0 n)).AddToken (tok n)).2.tokens_ =
        (List.range' 0 n).map tok ++ [tok n] := by
  have h := AddToken_of_not_mem _ (run_tokensFrom_empty n).1 (tok_not_mem_run n)
  rw [length_run_tokensFrom] at h
  rw [(run_tokensFrom_empty n).2] at h
  exact h

theorem run_append (p : Packer) (xs ys : List Op) : p.run (xs ++ ys) = (p.run xs).run ys := by
  simp [run, List.foldl_append]

theorem tokensFrom_succ (n : Nat) :
    tokensFrom 0 (n + 1) = Op.addToken (tok 0) :: tokensFrom 1 n := by
  simp [tokensFrom, List.range'_succ]

/-- The same table, with the first call written apart. -/
theorem AddToken_run_tokensFrom (n : Nat) :
    ((empty.run []).AddToken (tok 0)).2.run (tokensFrom 1 n) = empty.run (tokensFrom 0 (n + 1)) := by
  rw [tokensFrom_succ]
  rfl

/-- After `tok 0`, ..., `tok (n - 1)`, the new token `tok n` gets the 32-bit image
of `n`. -/
theorem AddToken_tok_index (n : Nat) (hn : 0 < n) :
    ((((empty.run []).AddToken (tok 0)).2.run (tokensFrom 1 (n - 1))).AddToken (tok n)).1
      = ⟨uint32_t n⟩ := by
  obtain ⟨m, rfl⟩ : ∃ m, n = m + 1 := ⟨n - 1, by omega⟩
  rw [Nat.add_sub_cancel, AddToken_run_tokensFrom]
  exact (AddToken_after_tokensFrom (m + 1)).1

/-- After `tok 0`, ..., `tok (n - 1)` and the new token `tok n`, position 0 of
the sequence still holds `tok 0`. -/
theorem tokens_head_after (n : Nat) (hn : 0 < n) :
    (((empty.run (tokensFrom 0 n)).AddToken (tok n)).2.run []).tokens_[0]? = some (tok 0) := by
  obtain ⟨m, rfl⟩ : ∃ m, n = m + 1 := ⟨n - 1, by omega⟩
  show ((empty.run (tokensFrom 0 (m + 1))).AddToken (tok (m + 1))).2.tokens_[0]? = _
  rw [(AddToken_after_tokensFrom (m + 1)).2, List.range'_succ]
  simp

/-! ### The fieldset table -/

theorem AddFieldSet_of_lookup_some {p : Packer} {fs : List crate.FieldIndex}
    {i : crate.FieldSetIndex} (h : lookup fs p.fieldset_to_index_map.entries = some i) :
    p.AddFieldSet fs = (i, p) := by
  simp [AddFieldSet, unordered_map.count, unordered_map.subscript, h]

theorem AddFieldSet_of_lookup_none {p : Packer} {fs : List crate.FieldIndex}
    (h : lookup fs p.fieldset_to_index_map.entries = none) :
    p.AddFieldSet fs =
      (⟨uint32_t p.fieldsets_.length⟩,
        { p with
          fieldset_to_index_map :=
            ⟨p.fieldset_to_index_map.entries ++ [(fs, ⟨uint32_t p.fieldsets_.length⟩)]⟩,
          fieldsets_ := p.fieldsets_ ++ fs ++ [crate.Index.dflt] }) := by
  simp [AddFieldSet, unordered_map.count, unordered_map.subscript, unordered_map.assign, h,
    store_of_lookup_none, lookup_append, lookup]

theorem lookup_AddFieldSet_self (p : Packer) (fs : List crate.FieldIndex) :
    lookup fs (p.AddFieldSet fs).2.fieldset_to_index_map.entries = some (p.AddFieldSet fs).1 := by
  cases h : lookup fs p.fieldset_to_index_map.entries with
  | some i => rw [AddFieldSet_of_lookup_some h]; exact h
  | none =>
    rw [AddFieldSet_of_lookup_none h]
    simp [lookup_append, h, lookup]

/-- What a call does to the fieldset map: only `AddFieldSet` of a fieldset
without entry changes it, by one entry added at the end. -/
theorem fieldset_map_step (p : Packer) (op : Op) :
    (p.step op).fieldset_to_index_map = p.fieldset_to_index_map ∨
      ∃ fs i, op = Op.addFieldSet fs ∧ lookup fs p.fieldset_to_index_map.entries = none ∧
        (p.step op).fieldset_to_index_map = ⟨p.fieldset_to_index_map.entries ++ [(fs, i)]⟩ := by
  cases op with
  | addToken t => left; simp [step, AddToken_eq]
  | addString t => left; simp [step, AddString_eq]
  | addPath t => left; simp [step, AddPath_eq]
  | addField t => left; simp [step, AddField_eq]
  | addFieldSet fs =>
    cases h : lookup fs p.fieldset_to_index_map.entries with
    | some i => left; simp [step, AddFieldSet_of_lookup_some h]
    | none =>
      right
      exact ⟨fs, ⟨uint32_t p.fieldsets_.length⟩, rfl, h, by
        simp [step, AddFieldSet_of_lookup_none h]⟩

theorem lookup_fieldset_step {p : Packer} {fs : List crate.FieldIndex}
    {i : crate.FieldSetIndex} (h : lookup fs p.fieldset_to_index_map.entries = some i)
    (op : Op) : lookup fs (p.step op).fieldset_to_index_map.entries = some i := by
  rcases fieldset_map_step p op with h1 | ⟨fs2, j, _, _, h1⟩
  · rw [h1]; exact h
  · rw [h1]; simp [lookup_append, h]

theorem lookup_fieldset_run {fs : List crate.FieldIndex} {i : crate.FieldSetIndex}
    (ops : List Op) :
    ∀ {p : Packer}, lookup fs p.fieldset_to_index_map.entries = some i →
      lookup fs (p.run ops).fieldset_to_index_map.entries = some i := by
  induction ops with
  | nil => intro p h; exact h
  | cons op ops ih => intro p h; exact ih (lookup_fieldset_step h op)

/-- A fieldset that no call has added has no entry in the map. -/
theorem lookup_fieldset_none {fs : List crate.FieldIndex} (ops : List Op) :
    ∀ {p : Packer}, lookup fs p.fieldset_to_index_map.entries = none →
      Op.addFieldSet fs ∉ ops →
      lookup fs (p.run ops).fieldset_to_index_map.entries = none := by
  induction ops with
  | nil => intro p h _; exact h
  | cons op ops ih =>
    intro p h hn
    have hn1 : Op.addFieldSet fs ≠ op := fun e => hn (e ▸ List.mem_cons_self _ _)
    have hn2 : Op.addFieldSet fs ∉ ops := fun e => hn (List.mem_cons_of_mem _ e)
    apply ih _ hn2
    rcases fieldset_map_step p op with h1 | ⟨fs2, j, h0, _, h1⟩
    · rw [h1]; exact h
    · rw [h1]
      have hne : ¬ fs2 = fs := fun e => hn1 (by rw [h0, e])
      simp [lookup_append, h, lookup, hne]

/-- A long fieldset followed by the empty one: the empty fieldset gets the
32-bit image of the length of the flattened array. -/
theorem AddFieldSet_after_long (n : Nat) (hn : 0 < n) (x : crate.FieldIndex) :
    Op.addFieldSet [] ∉ [Op.addFieldSet (List.replicate n x)] ∧
    (empty.run [Op.addFieldSet (List.replicate n x)]).fieldsets_.length = n + 1 ∧
    ((empty.run [Op.addFieldSet (List.replicate n x)]).AddFieldSet []).1
      = ⟨uint32_t (n + 1)⟩ := by
  obtain ⟨m, rfl⟩ : ∃ m, n = m + 1 := ⟨n - 1, by omega⟩
  have hne : Op.addFieldSet [] ∉ [Op.addFieldSet (List.replicate (m + 1) x)] := by
    simp [List.replicate_succ]
  have h0 : lookup (List.replicate (m + 1) x) empty.fieldset_to_index_map.entries = none := rfl
  have hrun : empty.run [Op.addFieldSet (List.replicate (m + 1) x)]
      = (empty.AddFieldSet (List.replicate (m + 1) x)).2 := rfl
  have hlen : (empty.run [Op.addFieldSet (List.replicate (m + 1) x)]).fieldsets_.length
      = m + 1 + 1 := by
    rw [hrun, AddFieldSet_of_lookup_none h0]
    simp [empty]
  refine ⟨hne, hlen, ?_⟩
  have hl : lookup ([] : List crate.FieldIndex)
      (empty.run [Op.addFieldSet (List.replicate (m + 1) x)]).fieldset_to_index_map.entries
        = none :=
    lookup_fieldset_none _ (p := empty) rfl hne
  rw [AddFieldSet_of_lookup_none hl, hlen]

/-- C1. Interning idempotence: in any Packer reachable from the empty one,
calling `AddToken` with a key and then, after any further `Add` calls, with the
same key again returns the same index both times; likewise for `AddString`,
`AddPath` and `AddField`. -/
theorem interning_idempotent (ops0 ops1 : List Op) :
    (∀ k : Token,
      ((((empty.run ops0).AddToken k).2.run ops1).AddToken k).1
        = ((empty.run ops0).AddToken k).1) ∧
    (∀ k : String,
      ((((empty.run ops0).AddString k).2.run ops1).AddString k).1
        = ((empty.run ops0).AddString k).1) ∧
    (∀ k : Path,
      ((((empty.run ops0).AddPath k).2.run ops1).AddPath k).1
        = ((empty.run ops0).AddPath k).1) ∧
    (∀ k : Field,
      ((((empty.run ops0).AddField k).2.run ops1).AddField k).1
        = ((empty.run ops0).AddField k).1) := by
  refine ⟨fun k => ?_, fun k => ?_, fun k => ?_, fun k => ?_⟩
  · rw [AddToken_fst, AddToken_fst, tokenTable_run, AddToken_table]
    exact InternTable.intern_again _ _ _
  · rw [AddString_fst, AddString_fst, stringTable_run, AddString_table]
    exact InternTable.intern_again _ _ _
  · rw [AddPath_fst, AddPath_fst, pathTable_run, AddPath_table]
    exact InternTable.intern_again _ _ _
  · rw [AddField_fst, AddField_fst, fieldTable_run, AddField_table]
    exact InternTable.intern_again _ _ _

/-- C2, amended. Interning injectivity: in a sequence of calls starting from the
empty Packer, an `AddToken` call and a later `AddToken` call with a different
key return different indices, provided the token table holds at most `2 ^ 32`
keys after the later call; likewise for `AddString`, `AddPath` and `AddField`. -/
theorem interning_injective (ops0 ops1 : List Op) :
    (∀ k1 k2 : Token, k1 ≠ k2 →
      ((((empty.run ops0).AddToken k1).2.run ops1).AddToken k2).2.tokens_.length ≤ 2 ^ 32 →
      ((((empty.run ops0).AddToken k1).2.run ops1).AddToken k2).1
        ≠ ((empty.run ops0).AddToken k1).1) ∧
    (∀ k1 k2 : String, k1 ≠ k2 →
      ((((empty.run ops0).AddString k1).2.run ops1).AddString k2).2.strings_.length ≤ 2 ^ 32 →
      ((((empty.run ops0).AddString k1).2.run ops1).AddString k2).1
        ≠ ((empty.run ops0).AddString k1).1) ∧
    (∀ k1 k2 : Path, k1 ≠ k2 →
      ((((empty.run ops0).AddPath k1).2.run ops1).AddPath k2).2.paths_.length ≤ 2 ^ 32 →
      ((((empty.run ops0).AddPath k1).2.run ops1).AddPath k2).1
        ≠ ((empty.run ops0).AddPath k1).1) ∧
    (∀ k1 k2 : Field, k1 ≠ k2 →
      ((((empty.run ops0).AddField k1).2.run ops1).AddField k2).2.fields_.length ≤ 2 ^ 32 →
      ((((empty.run ops0).AddField k1).2.run ops1).AddField k2).1
        ≠ ((empty.run ops0).AddField k1).1) := by
  refine ⟨fun k1 k2 hne hlen => ?_, fun k1 k2 hne hlen => ?_, fun k1 k2 hne hlen => ?_,
    fun k1 k2 hne hlen => ?_⟩
  · rw [AddToken_tokens, tokenTable_run, AddToken_table] at hlen
    rw [AddToken_fst, AddToken_fst, tokenTable_run, AddToken_table]
    exact (consistent_tokenTable ops0).intern_differ hne _ hlen
  · rw [AddString_strings, stringTable_run, AddString_table] at hlen
    rw [AddString_fst, AddString_fst, stringTable_run, AddString_table]
    exact (consistent_stringTable ops0).intern_differ hne _ hlen
  · rw [AddPath_paths, pathTable_run, AddPath_table] at hlen
    rw [AddPath_fst, AddPath_fst, pathTable_run, AddPath_table]
    exact (consistent_pathTable ops0).intern_differ hne _ hlen
  · rw [AddField_fields, fieldTable_run, AddField_table] at hlen
    rw [AddField_fst, AddField_fst, fieldTable_run, AddField_table]
    exact (consistent_fieldTable ops0).intern_differ hne _ hlen

/-- C2, an instance: the tokens `tok 0` and `tok 1`, the strings `"a"` and `"b"`,
two paths and two fields, added to the empty Packer one after the other, get
different indices. -/
theorem interning_injective_witness :
    ((((empty.run []).AddToken (tok 0)).2.run []).AddToken (tok 1)).1
        ≠ ((empty.run []).AddToken (tok 0)).1 ∧
    ((((empty.run []).AddString "a").2.run []).AddString "b").1
        ≠ ((empty.run []).AddString "a").1 ∧
    ((((empty.run []).AddPath ⟨"/a", none⟩).2.run []).AddPath ⟨"/a", some "b"⟩).1
        ≠ ((empty.run []).AddPath ⟨"/a", none⟩).1 ∧
    ((((empty.run []).AddField ⟨⟨0⟩, ⟨0⟩⟩).2.run []).AddField ⟨⟨0⟩, ⟨1⟩⟩).1
        ≠ ((empty.run []).AddField ⟨⟨0⟩, ⟨0⟩⟩).1 :=
  ⟨(interning_injective [] []).1 (tok 0) (tok 1) (by decide) (by decide),
   (interning_injective [] []).2.1 "a" "b" (by decide) (by decide),
   (interning_injective [] []).2.2.1 ⟨"/a", none⟩ ⟨"/a", some "b"⟩ (by decide) (by decide),
   (interning_injective [] []).2.2.2 ⟨⟨0⟩, ⟨0⟩⟩ ⟨⟨0⟩, ⟨1⟩⟩ (by decide) (by decide)⟩

/-- C2 as stated fails: in the sequence `AddToken (tok 0)`, `AddToken (tok 1)`,
..., `AddToken (tok (2 ^ 32))` from the empty Packer, the different keys `tok 0`
and `tok (2 ^ 32)` both get index 0. -/
theorem interning_injective_counterexample :
    tok 0 ≠ tok (2 ^ 32) ∧
    ((((empty.run []).AddToken (tok 0)).2.run (tokensFrom 1 (2 ^ 32 - 1))).AddToken
        (tok (2 ^ 32))).1
      = ((empty.run []).AddToken (tok 0)).1 := by
  constructor
  · intro h
    exact absurd (tok_injective h) (by decide)
  · rw [AddToken_tok_index (2 ^ 32) (by decide)]
    have h3 : uint32_t (2 ^ 32) = 0 := by decide
    rw [h3]
    rfl

/-- C3, amended. First-seen order: in every Packer reachable from the empty one,
`AddToken` of a key that is not in `tokens_` appends the key as last element
and, when `tokens_` held fewer than `2 ^ 32` keys, returns the length of
`tokens_` before the call; for a key already in `tokens_` the call leaves
`tokens_` as it is. The sequence `tokens_` lists the keys of the `AddToken` calls made so
far without repetition, in the order of their first occurrence, so a key seen
for the first time after `n` distinct keys gets index `n` (for `n < 2 ^ 32`).
The same holds for `AddString`, `AddPath` and `AddField`. -/
theorem first_seen_order (ops : List Op) :
    ((∀ k : Token, k ∉ (empty.run ops).tokens_ →
        ((empty.run ops).AddToken k).2.tokens_ = (empty.run ops).tokens_ ++ [k] ∧
        ((empty.run ops).tokens_.length < 2 ^ 32 →
          ((empty.run ops).AddToken k).1.value = (empty.run ops).tokens_.length)) ∧
     (∀ k : Token, k ∈ (empty.run ops).tokens_ →
        ((empty.run ops).AddToken k).2.tokens_ = (empty.run ops).tokens_) ∧
     (empty.run ops).tokens_ = (ops.filterMap Op.tokenKey).eraseDups ∧
     (∀ k : Token, k ∉ ops.filterMap Op.tokenKey →
        (ops.filterMap Op.tokenKey).eraseDups.length < 2 ^ 32 →
        ((empty.run ops).AddToken k).1.value = (ops.filterMap Op.tokenKey).eraseDups.length)) ∧
    ((∀ k : String, k ∉ (empty.run ops).strings_ →
        ((empty.run ops).AddString k).2.strings_ = (empty.run ops).strings_ ++ [k] ∧
        ((empty.run ops).strings_.length < 2 ^ 32 →
          ((empty.run ops).AddString k).1.value = (empty.run ops).strings_.length)) ∧
     (∀ k : String, k ∈ (empty.run ops).strings_ →
        ((empty.run ops).AddString k).2.strings_ = (empty.run ops).strings_) ∧
     (empty.run ops).strings_ = (ops.filterMap Op.stringKey).eraseDups ∧
     (∀ k : String, k ∉ ops.filterMap Op.stringKey →
        (ops.filterMap Op.stringKey).eraseDups.length < 2 ^ 32 →
        ((empty.run ops).AddString k).1.value = (ops.filterMap Op.stringKey).eraseDups.length)) ∧
    ((∀ k : Path, k ∉ (empty.run ops).paths_ →
        ((empty.run ops).AddPath k).2.paths_ = (empty.run ops).paths_ ++ [k] ∧
        ((empty.run ops).paths_.length < 2 ^ 32 →
          ((empty.run ops).AddPath k).1.value = (empty.run ops).paths_.length)) ∧
     (∀ k : Path, k ∈ (empty.run ops).paths_ →
        ((empty.run ops).AddPath k).2.paths_ = (empty.run ops).paths_) ∧
     (empty.run ops).paths_ = (ops.filterMap Op.pathKey).eraseDups ∧
     (∀ k : Path, k ∉ ops.filterMap Op.pathKey →
        (ops.filterMap Op.pathKey).eraseDups.length < 2 ^ 32 →
        ((empty.run ops).AddPath k).1.value = (ops.filterMap Op.pathKey).eraseDups.length)) ∧
    ((∀ k : Field, k ∉ (empty.run ops).fields_ →
        ((empty.run ops).AddField k).2.fields_ = (empty.run ops).fields_ ++ [k] ∧
        ((empty.run ops).fields_.length < 2 ^ 32 →
          ((empty.run ops).AddField k).1.value = (empty.run ops).fields_.length)) ∧
     (∀ k : Field, k ∈ (empty.run ops).fields_ →
        ((empty.run ops).AddField k).2.fields_ = (empty.run ops).fields_) ∧
     (empty.run ops).fields_ = (ops.filterMap Op.fieldKey).eraseDups ∧
     (∀ k : Field, k ∉ ops.filterMap Op.fieldKey →
        (ops.filterMap Op.fieldKey).eraseDups.length < 2 ^ 32 →
        ((empty.run ops).AddField k).1.value = (ops.filterMap Op.fieldKey).eraseDups.length)) := by
  refine ⟨?_, ?_, ?_, ?_⟩
  · refine ⟨fun k hk => ?_, fun k hk => ?_, ?_, fun k hk hlen => ?_⟩
    · rw [AddToken_fst, AddToken_tokens]
      exact ⟨((consistent_tokenTable ops).fresh_append hk),
        fun hlen => ((consistent_tokenTable ops).fresh_index hk hlen).1⟩
    · rw [AddToken_tokens]
      exact (consistent_tokenTable ops).seq_of_mem hk
    · rw [tokens_eq_seq, tokenTable_run]
      exact InternTable.seq_internAll_nil _
    · rw [AddToken_fst, tokenTable_run]
      exact InternTable.next_index _ k hk hlen
  · refine ⟨fun k hk => ?_, fun k hk => ?_, ?_, fun k hk hlen => ?_⟩
    · rw [AddString_fst, AddString_strings]
      exact ⟨((consistent_stringTable ops).fresh_append hk),
        fun hlen => ((consistent_stringTable ops).fresh_index hk hlen).1⟩
    · rw [AddString_strings]
      exact (consistent_stringTable ops).seq_of_mem hk
    · rw [strings_eq_seq, stringTable_run]
      exact InternTable.seq_internAll_nil _
    · rw [AddString_fst, stringTable_run]
      exact InternTable.next_index _ k hk hlen
  · refine ⟨fun k hk => ?_, fun k hk => ?_, ?_, fun k hk hlen => ?_⟩
    · rw [AddPath_fst, AddPath_paths]
      exact ⟨((consistent_pathTable ops).fresh_append hk),
        fun hlen => ((consistent_pathTable ops).fresh_index hk hlen).1⟩
    · rw [AddPath_paths]
      exact (consistent_pathTable ops).seq_of_mem hk
    · rw [paths_eq_seq, pathTable_run]
      exact InternTable.seq_internAll_nil _
    · rw [AddPath_fst, pathTable_run]
      exact InternTable.next_index _ k hk hlen
  · refine ⟨fun k hk => ?_, fun k hk => ?_, ?_, fun k hk hlen => ?_⟩
    · rw [AddField_fst, AddField_fields]
      exact ⟨((consistent_fieldTable ops).fresh_append hk),
        fun hlen => ((consistent_fieldTable ops).fresh_index hk hlen).1⟩
    · rw [AddField_fields]
      exact (consistent_fieldTable ops).seq_of_mem hk
    · rw [fields_eq_seq, fieldTable_run]
      exact InternTable.seq_internAll_nil _
    · rw [AddField_fst, fieldTable_run]
      exact InternTable.next_index _ k hk hlen

/-- C3, an instance: after `sampleOps` each table holds one key; a second key
gets index 1 and is appended, and the key already present changes nothing. -/
theorem first_seen_order_witness :
    ((empty.run sampleOps).AddToken (tok 1)).2.tokens_
      = (empty.run sampleOps).tokens_ ++ [tok 1] ∧
    ((empty.run sampleOps).AddToken (tok 1)).1.value = (empty.run sampleOps).tokens_.length ∧
    ((empty.run sampleOps).AddToken (tok 0)).2.tokens_ = (empty.run sampleOps).tokens_ ∧
    ((empty.run sampleOps).AddToken (tok 1)).1.value
      = (sampleOps.filterMap Op.tokenKey).eraseDups.length ∧
    ((empty.run sampleOps).AddString "b").2.strings_
      = (empty.run sampleOps).strings_ ++ ["b"] ∧
    ((empty.run sampleOps).AddString "b").1.value = (empty.run sampleOps).strings_.length ∧
    ((empty.run sampleOps).AddString "a").2.strings_ = (empty.run sampleOps).strings_ ∧
    ((empty.run sampleOps).AddString "b").1.value
      = (sampleOps.filterMap Op.stringKey).eraseDups.length ∧
    ((empty.run sampleOps).AddPath ⟨"/b", none⟩).2.paths_
      = (empty.run sampleOps).paths_ ++ [⟨"/b", none⟩] ∧
    ((empty.run sampleOps).AddPath ⟨"/b", none⟩).1.value = (empty.run sampleOps).paths_.length ∧
    ((empty.run sampleOps).AddPath ⟨"/a", none⟩).2.paths_ = (empty.run sampleOps).paths_ ∧
    ((empty.run sampleOps).AddPath ⟨"/b", none⟩).1.value
      = (sampleOps.filterMap Op.pathKey).eraseDups.length ∧
    ((empty.run sampleOps).AddField ⟨⟨0⟩, ⟨1⟩⟩).2.fields_
      = (empty.run sampleOps).fields_ ++ [⟨⟨0⟩, ⟨1⟩⟩] ∧
    ((empty.run sampleOps).AddField ⟨⟨0⟩, ⟨1⟩⟩).1.value = (empty.run sampleOps).fields_.length ∧
    ((empty.run sampleOps).AddField ⟨⟨0⟩, ⟨0⟩⟩).2.fields_ = (empty.run sampleOps).fields_ ∧
    ((empty.run sampleOps).AddField ⟨⟨0⟩, ⟨1⟩⟩).1.value
      = (sampleOps.filterMap Op.fieldKey).eraseDups.length :=
  ⟨((first_seen_order sampleOps).1.1 (tok 1) (by decide)).1,
   ((first_seen_order sampleOps).1.1 (tok 1) (by decide)).2 (by decide),
   (first_seen_order sampleOps).1.2.1 (tok 0) (by decide),
   (first_seen_order sampleOps).1.2.2.2 (tok 1) (by decide) (by decide),
   ((first_seen_order sampleOps).2.1.1 "b" (by decide)).1,
   ((first_seen_order sampleOps).2.1.1 "b" (by decide)).2 (by decide),
   (first_seen_order sampleOps).2.1.2.1 "a" (by decide),
   (first_seen_order sampleOps).2.1.2.2.2 "b" (by decide) (by decide),
   ((first_seen_order sampleOps).2.2.1.1 ⟨"/b", none⟩ (by decide)).1,
   ((first_seen_order sampleOps).2.2.1.1 ⟨"/b", none⟩ (by decide)).2 (by decide),
   (first_seen_order sampleOps).2.2.1.2.1 ⟨"/a", none⟩ (by decide),
   (first_seen_order sampleOps).2.2.1.2.2.2 ⟨"/b", none⟩ (by decide) (by decide),
   ((first_seen_order sampleOps).2.2.2.1 ⟨⟨0⟩, ⟨1⟩⟩ (by decide)).1,
   ((first_seen_order sampleOps).2.2.2.1 ⟨⟨0⟩, ⟨1⟩⟩ (by decide)).2 (by decide),
   (first_seen_order sampleOps).2.2.2.2.1 ⟨⟨0⟩, ⟨0⟩⟩ (by decide),
   (first_seen_order sampleOps).2.2.2.2.2.2 ⟨⟨0⟩, ⟨1⟩⟩ (by decide) (by decide)⟩

/-- C3 as stated fails: the Packer reached by `AddToken (tok 0)`, ...,
`AddToken (tok (2 ^ 32 - 1))` holds `2 ^ 32` tokens, `tok (2 ^ 32)` is not among
them, and `AddToken (tok (2 ^ 32))` returns index 0, not the length `2 ^ 32`. -/
theorem first_seen_order_counterexample :
    tok (2 ^ 32) ∉ (empty.run (tokensFrom 0 (2 ^ 32))).tokens_ ∧
    (empty.run (tokensFrom 0 (2 ^ 32))).tokens_.length = 2 ^ 32 ∧
    ((empty.run (tokensFrom 0 (2 ^ 32))).AddToken (tok (2 ^ 32))).1.value = 0 := by
  refine ⟨tok_not_mem_run (2 ^ 32), length_run_tokensFrom (2 ^ 32), ?_⟩
  rw [(AddToken_after_tokensFrom (2 ^ 32)).1]
  decide

/-- C4, amended. Index stability: let `i` be the index returned by `AddToken k`
on a Packer reachable from the empty one. If `tokens_` holds at most `2 ^ 32`
keys after that call, then after any further sequence of `Add` calls position
`i` of `tokens_` still holds `k`. And after any further sequence of `Add`
calls, `AddToken` of any other key returns an index other than `i`, as long as
`tokens_` then holds at most `2 ^ 32` keys. The same holds for the string, path
and field tables. -/
theorem index_stable (ops0 ops1 : List Op) :
    (∀ k : Token,
      (((empty.run ops0).AddToken k).2.tokens_.length ≤ 2 ^ 32 →
        (((empty.run ops0).AddToken k).2.run ops1).tokens_[((empty.run ops0).AddToken k).1.value]?
          = some k) ∧
      (∀ k2 : Token, k2 ≠ k →
        ((((empty.run ops0).AddToken k).2.run ops1).AddToken k2).2.tokens_.length ≤ 2 ^ 32 →
        ((((empty.run ops0).AddToken k).2.run ops1).AddToken k2).1 ≠ ((empty.run ops0).AddToken k).1)) ∧
    (∀ k : String,
      (((empty.run ops0).AddString k).2.strings_.length ≤ 2 ^ 32 →
        (((empty.run ops0).AddString k).2.run ops1).strings_[((empty.run ops0).AddString k).1.value]?
          = some k) ∧
      (∀ k2 : String, k2 ≠ k →
        ((((empty.run ops0).AddString k).2.run ops1).AddString k2).2.strings_.length ≤ 2 ^ 32 →
        ((((empty.run ops0).AddString k).2.run ops1).AddString k2).1 ≠ ((empty.run ops0).AddString k).1)) ∧
    (∀ k : Path,
      (((empty.run ops0).AddPath k).2.paths_.length ≤ 2 ^ 32 →
        (((empty.run ops0).AddPath k).2.run ops1).paths_[((empty.run ops0).AddPath k).1.value]?
          = some k) ∧
      (∀ k2 : Path, k2 ≠ k →
        ((((empty.run ops0).AddPath k).2.run ops1).AddPath k2).2.paths_.length ≤ 2 ^ 32 →
        ((((empty.run ops0).AddPath k).2.run ops1).AddPath k2).1 ≠ ((empty.run ops0).AddPath k).1)) ∧
    (∀ k : Field,
      (((empty.run ops0).AddField k).2.fields_.length ≤ 2 ^ 32 →
        (((empty.run ops0).AddField k).2.run ops1).fields_[((empty.run ops0).AddField k).1.value]?
          = some k) ∧
      (∀ k2 : Field, k2 ≠ k →
        ((((empty.run ops0).AddField k).2.run ops1).AddField k2).2.fields_.length ≤ 2 ^ 32 →
        ((((empty.run ops0).AddField k).2.run ops1).AddField k2).1 ≠ ((empty.run ops0).AddField k).1)) := by
  refine ⟨fun k => ?_, fun k => ?_, fun k => ?_, fun k => ?_⟩
  · refine ⟨fun hlen => ?_, fun k2 hne hlen => ?_⟩
    · rw [AddToken_tokens] at hlen
      rw [tokens_eq_seq, tokenTable_run, AddToken_table, AddToken_fst]
      exact (consistent_tokenTable ops0).getElem?_intern k _ hlen
    · rw [AddToken_tokens, tokenTable_run, AddToken_table] at hlen
      rw [AddToken_fst, AddToken_fst, tokenTable_run, AddToken_table]
      exact (consistent_tokenTable ops0).intern_differ (Ne.symm hne) _ hlen
  · refine ⟨fun hlen => ?_, fun k2 hne hlen => ?_⟩
    · rw [AddString_strings] at hlen
      rw [strings_eq_seq, stringTable_run, AddString_table, AddString_fst]
      exact (consistent_stringTable ops0).getElem?_intern k _ hlen
    · rw [AddString_strings, stringTable_run, AddString_table] at hlen
      rw [AddString_fst, AddString_fst, stringTable_run, AddString_table]
      exact (consistent_stringTable ops0).intern_differ (Ne.symm hne) _ hlen
  · refine ⟨fun hlen => ?_, fun k2 hne hlen => ?_⟩
    · rw [AddPath_paths] at hlen
      rw [paths_eq_seq, pathTable_run, AddPath_table, AddPath_fst]
      exact (consistent_pathTable ops0).getElem?_intern k _ hlen
    · rw [AddPath_paths, pathTable_run, AddPath_table] at hlen
      rw [AddPath_fst, AddPath_fst, pathTable_run, AddPath_table]
      exact (consistent_pathTable ops0).intern_differ (Ne.symm hne) _ hlen
  · refine ⟨fun hlen => ?_, fun k2 hne hlen => ?_⟩
    · rw [AddField_fields] at hlen
      rw [fields_eq_seq, fieldTable_run, AddField_table, AddField_fst]
      exact (consistent_fieldTable ops0).getElem?_intern k _ hlen
    · rw [AddField_fields, fieldTable_run, AddField_table] at hlen
      rw [AddField_fst, AddField_fst, fieldTable_run, AddField_table]
      exact (consistent_fieldTable ops0).intern_differ (Ne.symm hne) _ hlen

/-- C4, an instance: a second key added after `sampleOps` keeps its position
and its index when `sampleOps` is run once more. -/
theorem index_stable_witness :
    (((empty.run sampleOps).AddToken (tok 1)).2.run sampleOps).tokens_[
        ((empty.run sampleOps).AddToken (tok 1)).1.value]? = some (tok 1) ∧
    ((((empty.run sampleOps).AddToken (tok 1)).2.run sampleOps).AddToken (tok 0)).1
      ≠ ((empty.run sampleOps).AddToken (tok 1)).1 ∧
    (((empty.run sampleOps).AddString "b").2.run sampleOps).strings_[
        ((empty.run sampleOps).AddString "b").1.value]? = some "b" ∧
    ((((empty.run sampleOps).AddString "b").2.run sampleOps).AddString "a").1
      ≠ ((empty.run sampleOps).AddString "b").1 ∧
    (((empty.run sampleOps).AddPath ⟨"/b", none⟩).2.run sampleOps).paths_[
        ((empty.run sampleOps).AddPath ⟨"/b", none⟩).1.value]? = some ⟨"/b", none⟩ ∧
    ((((empty.run sampleOps).AddPath ⟨"/b", none⟩).2.run sampleOps).AddPath ⟨"/a", none⟩).1
      ≠ ((empty.run sampleOps).AddPath ⟨"/b", none⟩).1 ∧
    (((empty.run sampleOps).AddField ⟨⟨0⟩, ⟨1⟩⟩).2.run sampleOps).fields_[
        ((empty.run sampleOps).AddField ⟨⟨0⟩, ⟨1⟩⟩).1.value]? = some ⟨⟨0⟩, ⟨1⟩⟩ ∧
    ((((empty.run sampleOps).AddField ⟨⟨0⟩, ⟨1⟩⟩).2.run sampleOps).AddField ⟨⟨0⟩, ⟨0⟩⟩).1
      ≠ ((empty.run sampleOps).AddField ⟨⟨0⟩, ⟨1⟩⟩).1 :=
  ⟨((index_stable sampleOps sampleOps).1 (tok 1)).1 (by decide),
   ((index_stable sampleOps sampleOps).1 (tok 1)).2 (tok 0) (by decide) (by decide),
   ((index_stable sampleOps sampleOps).2.1 "b").1 (by decide),
   ((index_stable sampleOps sampleOps).2.1 "b").2 "a" (by decide) (by decide),
   ((index_stable sampleOps sampleOps).2.2.1 ⟨"/b", none⟩).1 (by decide),
   ((index_stable sampleOps sampleOps).2.2.1 ⟨"/b", none⟩).2 ⟨"/a", none⟩ (by decide) (by decide),
   ((index_stable sampleOps sampleOps).2.2.2 ⟨⟨0⟩, ⟨1⟩⟩).1 (by decide),
   ((index_stable sampleOps sampleOps).2.2.2 ⟨⟨0⟩, ⟨1⟩⟩).2 ⟨⟨0⟩, ⟨0⟩⟩ (by decide) (by decide)⟩

/-- C4 as stated fails: after `AddToken (tok 0)`, ..., `AddToken (tok (2 ^ 32 - 1))`
the call `AddToken (tok (2 ^ 32))` returns index 0, and position 0 of `tokens_`
holds `tok 0`, another key. -/
theorem index_stable_counterexample :
    (((empty.run (tokensFrom 0 (2 ^ 32))).AddToken (tok (2 ^ 32))).2.run []).tokens_[
        ((empty.run (tokensFrom 0 (2 ^ 32))).AddToken (tok (2 ^ 32))).1.value]?
      = some (tok 0) ∧
    tok 0 ≠ tok (2 ^ 32) := by
  constructor
  · have hv : ((empty.run (tokensFrom 0 (2 ^ 32))).AddToken (tok (2 ^ 32))).1.value = 0 := by
      rw [(AddToken_after_tokensFrom (2 ^ 32)).1]
      decide
    rw [hv]
    exact tokens_head_after (2 ^ 32) (by decide)
  · intro h
    exact absurd (tok_injective h) (by decide)

/-- C5. FieldSet deduplication: on a Packer reachable from the empty one, a
second `AddFieldSet` of the same list, after any further `Add` calls, returns
the index of the first one and leaves the flattened array `fieldsets_` (indeed
the whole Packer) as it was before that second call. -/
theorem fieldset_dedup (ops0 ops1 : List Op) (fs : List crate.FieldIndex) :
    ((((empty.run ops0).AddFieldSet fs).2.run ops1).AddFieldSet fs).1
      = ((empty.run ops0).AddFieldSet fs).1 ∧
    ((((empty.run ops0).AddFieldSet fs).2.run ops1).AddFieldSet fs).2.fieldsets_
      = (((empty.run ops0).AddFieldSet fs).2.run ops1).fieldsets_ ∧
    ((((empty.run ops0).AddFieldSet fs).2.run ops1).AddFieldSet fs).2
      = ((empty.run ops0).AddFieldSet fs).2.run ops1 := by
  have h := lookup_fieldset_run ops1 (lookup_AddFieldSet_self (empty.run ops0) fs)
  rw [AddFieldSet_of_lookup_some h]
  exact ⟨rfl, rfl, rfl⟩

/-- C6, amended. FieldSet span layout: on a Packer reachable from the empty one
with flattened array `F`, `AddFieldSet` of a fieldset `fs` that no call has
added before leaves `fieldsets_ = F ++ fs ++ [terminator]`, the terminator being
the default `FieldIndex` (`~0`), and returns the index `|F|` when `|F| < 2 ^ 32`. Adding
the same fieldset `[a, b]` twice to the empty Packer leaves `fieldsets_` exactly
`[a, b, ~0]` and returns index 0 both times. -/
theorem fieldset_span_layout (ops : List Op) (fs : List crate.FieldIndex) :
    (Op.addFieldSet fs ∉ ops →
      ((empty.run ops).AddFieldSet fs).2.fieldsets_
          = (empty.run ops).fieldsets_ ++ fs ++ [crate.Index.dflt] ∧
      ((empty.run ops).fieldsets_.length < 2 ^ 32 →
        ((empty.run ops).AddFieldSet fs).1.value = (empty.run ops).fieldsets_.length)) ∧
    (∀ a b : crate.FieldIndex,
      (empty.AddFieldSet [a, b]).1 = ⟨0⟩ ∧
      ((empty.AddFieldSet [a, b]).2.AddFieldSet [a, b]).1 = ⟨0⟩ ∧
      ((empty.AddFieldSet [a, b]).2.AddFieldSet [a, b]).2.fieldsets_
        = [a, b, crate.Index.dflt]) := by
  refine ⟨fun hn => ?_, fun a b => ?_⟩
  · rw [AddFieldSet_of_lookup_none (lookup_fieldset_none ops (p := empty) rfl hn)]
    exact ⟨rfl, fun hlen => uint32_t_of_lt hlen⟩
  · have h0 : lookup [a, b] empty.fieldset_to_index_map.entries = none := rfl
    have h1 : empty.AddFieldSet [a, b]
        = (⟨0⟩, { empty with fieldset_to_index_map := ⟨[([a, b], ⟨0⟩)]⟩,
                             fieldsets_ := [a, b, crate.Index.dflt] }) := by
      rw [AddFieldSet_of_lookup_none h0]
      rfl
    have h2 : lookup [a, b]
        ({ empty with fieldset_to_index_map := ⟨[([a, b], ⟨0⟩)]⟩,
                      fieldsets_ := [a, b, crate.Index.dflt] } : Packer
          ).fieldset_to_index_map.entries = some ⟨0⟩ := by
      simp [lookup]
    rw [h1]
    refine ⟨rfl, ?_, ?_⟩
    · show (Packer.AddFieldSet _ [a, b]).1 = _
      rw [AddFieldSet_of_lookup_some h2]
    · show (Packer.AddFieldSet _ [a, b]).2.fieldsets_ = _
      rw [AddFieldSet_of_lookup_some h2]

/-- C6, an instance: the fieldset `[7]`, new after `sampleOps`, is laid out at
the end of the (empty) flattened array and gets index 0. -/
theorem fieldset_span_layout_witness :
    ((empty.run sampleOps).AddFieldSet [⟨7⟩]).2.fieldsets_
        = (empty.run sampleOps).fieldsets_ ++ [⟨7⟩] ++ [crate.Index.dflt] ∧
    ((empty.run sampleOps).AddFieldSet [⟨7⟩]).1.value = (empty.run sampleOps).fieldsets_.length :=
  ⟨((fieldset_span_layout sampleOps [⟨7⟩]).1 (by decide)).1,
   ((fieldset_span_layout sampleOps [⟨7⟩]).1 (by decide)).2 (by decide)⟩

/-- C6 as stated fails: after one fieldset of `2 ^ 32 - 1` field indices the
flattened array has length `2 ^ 32`; the empty fieldset, not seen before, then
gets index 0, not `2 ^ 32`. -/
theorem fieldset_span_layout_counterexample :
    Op.addFieldSet [] ∉ [Op.addFieldSet (List.replicate (2 ^ 32 - 1) ⟨0⟩)] ∧
    (empty.run [Op.addFieldSet (List.replicate (2 ^ 32 - 1) ⟨0⟩)]).fieldsets_.length
      = 2 ^ 32 ∧
    ((empty.run [Op.addFieldSet (List.replicate (2 ^ 32 - 1) ⟨0⟩)]).AddFieldSet []).1.value
      = 0 := by
  have h := AddFieldSet_after_long (2 ^ 32 - 1) (by decide) ⟨0⟩
  refine ⟨h.1, h.2.1, ?_⟩
  rw [h.2.2]
  decide

end Packer

/-! ## The Writer -/

namespace Writer

variable {Scene : Type}

/-- The 88 bytes that `WriteHeader` hands to the stream. -/
theorem WriteHeader_oss (w : Writer Scene) (u : Indeterminate) :
    (w.WriteHeader u).2.oss_ =
      w.oss_.write
        ([80, 88, 82, 45, 85, 83, 68, 67,
          0, 8, 0, u.version3 % 256, u.version4 % 256, u.version5 % 256, u.version6 % 256,
          u.version7 % 256] ++ le_bytes 8 (u.toc_offset % 2 ^ 64) ++ List.replicate 64 0) := by
  rfl

theorem length_le_bytes (width n : Nat) : (le_bytes width n).length = width := by
  simp [le_bytes]

theorem length_header (u : Indeterminate) :
    ([80, 88, 82, 45, 85, 83, 68, 67,
      0, 8, 0, u.version3 % 256, u.version4 % 256, u.version5 % 256, u.version6 % 256,
      u.version7 % 256] ++ le_bytes 8 (u.toc_offset % 2 ^ 64) ++ List.replicate 64 0).length
      = 88 := by
  simp [length_le_bytes]

/-- What `write` does to the content, seen from the put position. -/
theorem ostringstream_write (s : ostringstream) (bytes : List Nat) :
    (s.write bytes).tellp = s.tellp + bytes.length ∧
    (s.write bytes).str.take s.tellp = s.str.take s.tellp ∧
    ((s.write bytes).str.drop s.tellp).take bytes.length = bytes ∧
    (s.write bytes).str.drop (s.tellp + bytes.length) = s.str.drop (s.tellp + bytes.length) := by
  simp [ostringstream.write, ostringstream.tellp, ostringstream.str, List.take_append_eq_append_take,
    List.drop_append_eq_append_drop, List.take_of_length_le, List.drop_of_length_le]

/-- The 88 bytes found at the old put position after `WriteHeader`. -/
theorem WriteHeader_written (w : Writer Scene) (u : Indeterminate) :
    ((w.WriteHeader u).2.oss_.str.drop w.oss_.tellp).take 88 =
      [80, 88, 82, 45, 85, 83, 68, 67,
        0, 8, 0, u.version3 % 256, u.version4 % 256, u.version5 % 256, u.version6 % 256,
        u.version7 % 256] ++ le_bytes 8 (u.toc_offset % 2 ^ 64) ++ List.replicate 64 0 := by
  have h := (ostringstream_write w.oss_
    ([80, 88, 82, 45, 85, 83, 68, 67,
      0, 8, 0, u.version3 % 256, u.version4 % 256, u.version5 % 256, u.version6 % 256,
      u.version7 % 256] ++ le_bytes 8 (u.toc_offset % 2 ^ 64) ++ List.replicate 64 0)).2.2.1
  rw [length_header u] at h
  rw [WriteHeader_oss]
  exact h

/-- C7. Empty TOC is rejected: `WriteTOC` returns false exactly when the table
of contents has zero sections; it then appends `"Zero sections in TOC.\n"` to
the error string and leaves the output stream as it was; and `Write` returns
false for a Writer with zero sections. -/
theorem empty_toc_rejected (w : Writer Scene) :
    (w.WriteTOC.1 = false ↔ w.toc_.sections.length = 0) ∧
    (w.toc_.sections.length = 0 →
      w.WriteTOC.2.err_ = w.err_ ++ "Zero sections in TOC.\n" ∧
      w.WriteTOC.2.oss_ = w.oss_) ∧
    (w.toc_.sections.length = 0 →
      ∀ (cfg : BuildConfig) (u : Indeterminate), (w.Write cfg u).1 = false) := by
  refine ⟨?_, fun h => ?_, fun _ cfg u => ?_⟩
  · by_cases h : w.toc_.sections.length = 0
    · simp [WriteTOC, h]
    · simp [WriteTOC, h]
  · simp [WriteTOC, h]
  · simp [Write, WriteTokens]

/-- C7, an instance: the freshly constructed Writer has zero sections. -/
theorem empty_toc_rejected_witness :
    ((Writer.ctor ()).WriteTOC.2.err_ = (Writer.ctor ()).err_ ++ "Zero sections in TOC.\n" ∧
      (Writer.ctor ()).WriteTOC.2.oss_ = (Writer.ctor ()).oss_) ∧
    (∀ (cfg : BuildConfig) (u : Indeterminate), ((Writer.ctor ()).Write cfg u).1 = false) :=
  ⟨(empty_toc_rejected (Writer.ctor ())).2.1 (by decide),
   (empty_toc_rejected (Writer.ctor ())).2.2 (by decide)⟩

/-- No member function of the Writer changes the table of contents, and a
freshly constructed Writer has none: through `Write` the table of contents
stays without section. -/
theorem toc_never_filled (w : Writer Scene) (cfg : BuildConfig) (u : Indeterminate) :
    (Writer.ctor w.scene_).toc_.sections.length = 0 ∧
    (w.WriteHeader u).2.toc_ = w.toc_ ∧ w.WriteTokens.2.toc_ = w.toc_ ∧
    w.WriteTOC.2.toc_ = w.toc_ ∧ (w.Write cfg u).2.toc_ = w.toc_ := by
  refine ⟨rfl, rfl, rfl, ?_, ?_⟩
  · by_cases h : w.toc_.sections.length = 0
    · simp [WriteTOC, h]
    · simp [WriteTOC, h]
  · simp [Write, WriteTokens]

/-- C9. Header size and magic: `WriteHeader` returns true and writes exactly 88
bytes at the put position of the stream: the position advances by 88, the
content before the old position and the content from 88 bytes after it on are
as before, and the first 8 of the 88 bytes are the characters `PXR-USDC`. -/
theorem header_size_and_magic (w : Writer Scene) (u : Indeterminate) :
    (w.WriteHeader u).1 = true ∧
    (w.WriteHeader u).2.oss_.tellp = w.oss_.tellp + 88 ∧
    (w.WriteHeader u).2.oss_.str.take w.oss_.tellp = w.oss_.str.take w.oss_.tellp ∧
    (w.WriteHeader u).2.oss_.str.drop (w.oss_.tellp + 88)
      = w.oss_.str.drop (w.oss_.tellp + 88) ∧
    (((w.WriteHeader u).2.oss_.str.drop w.oss_.tellp).take 88).length = 88 ∧
    (((w.WriteHeader u).2.oss_.str.drop w.oss_.tellp).take 88).take 8
      = ['P', 'X', 'R', '-', 'U', 'S', 'D', 'C'].map Char.toNat := by
  have h := ostringstream_write w.oss_
    ([80, 88, 82, 45, 85, 83, 68, 67,
      0, 8, 0, u.version3 % 256, u.version4 % 256, u.version5 % 256, u.version6 % 256,
      u.version7 % 256] ++ le_bytes 8 (u.toc_offset % 2 ^ 64) ++ List.replicate 64 0)
  rw [length_header u] at h
  refine ⟨rfl, ?_, ?_, ?_, ?_, ?_⟩
  · rw [WriteHeader_oss]; exact h.1
  · rw [WriteHeader_oss]; exact h.2.1
  · rw [WriteHeader_oss]; exact h.2.2.2
  · rw [WriteHeader_written, length_header]
  · rw [WriteHeader_written]
    rfl

/-- C10. Header padding: bytes 24 to 87 of the 88 bytes written by `WriteHeader`
are all zero. -/
theorem header_padding (w : Writer Scene) (u : Indeterminate) :
    (((w.WriteHeader u).2.oss_.str.drop w.oss_.tellp).take 88).drop 24
        = List.replicate 64 0 ∧
    ∀ i, 24 ≤ i → i < 88 →
      (((w.WriteHeader u).2.oss_.str.drop w.oss_.tellp).take 88)[i]? = some 0 := by
  have hd : (((w.WriteHeader u).2.oss_.str.drop w.oss_.tellp).take 88).drop 24
      = List.replicate 64 0 := by
    rw [WriteHeader_written]
    rfl
  refine ⟨hd, fun i h1 h2 => ?_⟩
  obtain ⟨j, rfl⟩ : ∃ j, i = 24 + j := ⟨i - 24, by omega⟩
  rw [← List.getElem?_drop, hd, List.getElem?_replicate]
  have : j < 64 := by omega
  simp [this]

/-- C10, an instance: byte 24 and byte 87 of the header written by a fresh
Writer are zero. -/
theorem header_padding_witness :
    ((((Writer.ctor ()).WriteHeader ⟨1, 2, 3, 4, 5, 6⟩).2.oss_.str.drop
        (Writer.ctor ()).oss_.tellp).take 88)[24]? = some 0 ∧
    ((((Writer.ctor ()).WriteHeader ⟨1, 2, 3, 4, 5, 6⟩).2.oss_.str.drop
        (Writer.ctor ()).oss_.tellp).take 88)[87]? = some 0 :=
  ⟨(header_padding (Writer.ctor ()) ⟨1, 2, 3, 4, 5, 6⟩).2 24 (by decide) (by decide),
   (header_padding (Writer.ctor ()) ⟨1, 2, 3, 4, 5, 6⟩).2 87 (by decide) (by decide)⟩

end Writer

end usdc
end tinyusdz

/-! ## The Writer, continued -/

namespace tinyusdz
namespace usdc
namespace Writer

variable {Scene : Type}

theorem append_ne_empty (a b : String) (h : 0 < b.length) : a ++ b ≠ "" := by
  intro e
  have h2 := congrArg String.length e
  rw [String.length_append] at h2
  have h3 : ("" : String).length = 0 := rfl
  omega

/-- The macro `PUSH_ERROR` appends a text that is not empty. -/
theorem PUSH_ERROR_appends (cfg : BuildConfig) (func : String) (line : Nat) (s err_ : String) :
    ∃ msg, 0 < msg.length ∧ PUSH_ERROR cfg func line s err_ = err_ ++ msg := by
  refine ⟨_, ?_, rfl⟩
  rw [String.length_append]
  have h : ("\n" : String).length = 1 := rfl
  omega

/-- C17. Failures carry a message: whenever `Write` returns false, the error
string is not empty afterwards and is the error string of before the call with
a text appended. -/
theorem failures_carry_message (w : Writer Scene) (cfg : BuildConfig) (u : Indeterminate)
    (_h : (w.Write cfg u).1 = false) :
    (w.Write cfg u).2.Error ≠ "" ∧ ∃ msg, (w.Write cfg u).2.Error = w.Error ++ msg := by
  obtain ⟨msg, hlen, hmsg⟩ := PUSH_ERROR_appends cfg "Write" 288 "Failed to write TOC." w.err_
  have e : (w.Write cfg u).2.Error = w.err_ ++ msg := by
    rw [← hmsg]
    simp [Write, WriteTokens, Error]
  exact ⟨by rw [e]; exact append_ne_empty _ _ hlen, msg, e⟩

/-- C17, an instance: `Write` on a freshly constructed Writer. -/
theorem failures_carry_message_witness :
    ((Writer.ctor ()).Write ⟨false, "usdc-writer.cc"⟩ ⟨0, 0, 0, 0, 0, 0⟩).2.Error ≠ "" ∧
    ∃ msg, ((Writer.ctor ()).Write ⟨false, "usdc-writer.cc"⟩ ⟨0, 0, 0, 0, 0, 0⟩).2.Error
      = (Writer.ctor ()).Error ++ msg :=
  failures_carry_message (Writer.ctor ()) ⟨false, "usdc-writer.cc"⟩ ⟨0, 0, 0, 0, 0, 0⟩ rfl

/-- C20. Header version bytes: bytes 8, 9 and 10 of the 88 bytes written by
`WriteHeader` are 0, 8 and 0, whatever the Writer holds. -/
theorem header_version_bytes (w : Writer Scene) (u : Indeterminate) :
    (((w.WriteHeader u).2.oss_.str.drop w.oss_.tellp).take 88)[8]? = some 0 ∧
    (((w.WriteHeader u).2.oss_.str.drop w.oss_.tellp).take 88)[9]? = some 8 ∧
    (((w.WriteHeader u).2.oss_.str.drop w.oss_.tellp).take 88)[10]? = some 0 := by
  rw [WriteHeader_written]
  exact ⟨rfl, rfl, rfl⟩

end Writer

/-- C19. The binary writer entry point is a stub: `SaveAsUSDCToMemory` returns
false, leaves the output vector as it is and touches no file; an error string
that is supplied gets exactly `"USDC writer is not yet implemented.\n"`
appended; and `SaveAsUSDCToFile` returns false for every file name, scene and
platform without a call to `fopen` or `fwrite`. -/
theorem usdc_writer_is_stub {Scene : Type} (scene : Scene) (output : List Nat)
    (warn : Option String) :
    (∀ err : Option String,
      (SaveAsUSDCToMemory scene output warn err).ret = false ∧
      (SaveAsUSDCToMemory scene output warn err).output = output ∧
      (SaveAsUSDCToMemory scene output warn err).calls = []) ∧
    (∀ e : String,
      (SaveAsUSDCToMemory scene output warn (some e)).err
        = some (e ++ "USDC writer is not yet implemented.\n")) ∧
    (SaveAsUSDCToMemory scene output warn none).err = none ∧
    (∀ (plat : Platform) (fs : FileSystem) (filename : String) (err : Option String),
      (SaveAsUSDCToFile plat fs filename scene warn err).ret = false ∧
      (SaveAsUSDCToFile plat fs filename scene warn err).calls = []) := by
  refine ⟨fun err => ⟨rfl, rfl, rfl⟩, fun e => rfl, rfl, fun plat fs filename err => ?_⟩
  by_cases h : plat.android = true
  · simp [SaveAsUSDCToFile, h]
  · simp [SaveAsUSDCToFile, h, SaveAsUSDCToMemory]

end usdc
end tinyusdz

/-! ## The example programs -/

namespace tydra_convert

/-- The example `tydra_convert` returns `EXIT_FAILURE` without a path argument
and whenever the loader selected by the file extension reports failure; it
returns 0 only with a path argument whose loader succeeded. -/
theorem tydra_main_exit_code (L : Loaders) (argv : List String) :
    (argv.length < 2 → main L argv = EXIT_FAILURE) ∧
    (str_tolower (GetFileExtension (argv.getD 1 "")) = "usdc" →
      L.LoadUSDCFromFile (argv.getD 1 "") = false → main L argv = EXIT_FAILURE) ∧
    (str_tolower (GetFileExtension (argv.getD 1 "")) = "usda" →
      L.LoadUSDAFromFile (argv.getD 1 "") = false → main L argv = EXIT_FAILURE) ∧
    (str_tolower (GetFileExtension (argv.getD 1 "")) = "usdz" →
      L.LoadUSDZFromFile (argv.getD 1 "") = false → main L argv = EXIT_FAILURE) ∧
    (str_tolower (GetFileExtension (argv.getD 1 "")) ≠ "usdc" →
      str_tolower (GetFileExtension (argv.getD 1 "")) ≠ "usda" →
      str_tolower (GetFileExtension (argv.getD 1 "")) ≠ "usdz" →
      L.LoadUSDFromFile (argv.getD 1 "") = false → main L argv = EXIT_FAILURE) ∧
    (main L argv = 0 ∨ main L argv = EXIT_FAILURE) := by
  by_cases h : argv.length < 2
  · simp [main, h]
  · unfold main
    rw [if_neg h]
    simp only
    refine ⟨fun h2 => absurd h2 h, fun h1 hr => ?_, fun h1 hr => ?_, fun h1 hr => ?_,
      fun h1 h2 h3 hr => ?_, ?_⟩
    · rw [if_pos h1, hr]; rfl
    · rw [h1, hr]; rfl
    · rw [h1, hr]; rfl
    · rw [if_neg h1, if_neg h2, if_neg h3, hr]; rfl
    · by_cases h1 : str_tolower (GetFileExtension (argv.getD 1 "")) = "usdc"
      · rw [if_pos h1]
        cases L.LoadUSDCFromFile (argv.getD 1 "") <;> simp
      · rw [if_neg h1]
        by_cases h2 : str_tolower (GetFileExtension (argv.getD 1 "")) = "usda"
        · rw [if_pos h2]
          cases L.LoadUSDAFromFile (argv.getD 1 "") <;> simp
        · rw [if_neg h2]
          by_cases h3 : str_tolower (GetFileExtension (argv.getD 1 "")) = "usdz"
          · rw [if_pos h3]
            cases L.LoadUSDZFromFile (argv.getD 1 "") <;> simp
          · rw [if_neg h3]
            cases L.LoadUSDFromFile (argv.getD 1 "") <;> simp

end tydra_convert

namespace c_api_example

/-- The exit code of the C example: failure without a path argument or when
`c_tinyusd_is_usd_file` answers 0, success in every other case. -/
theorem c_api_main_exit_code (api : CTinyUSD) (argv : List String) :
    main api argv =
      if argv.length < 2 ∨ api.c_tinyusd_is_usd_file (argv.getD 1 "") = 0 then EXIT_FAILURE
      else EXIT_SUCCESS := by
  unfold main
  by_cases h1 : argv.length < 2
  · simp [h1]
  · by_cases h2 : api.c_tinyusd_is_usd_file (argv.getD 1 "") = 0
    · simp [h1, h2]
    · simp [h1, h2]

/-- C18, the code at a file that passes `c_tinyusd_is_usd_file` and fails to
load: the C example returns `EXIT_SUCCESS`, which is 0. -/
theorem main_load_failure :
    (brokenFile.c_tinyusd_load_usd_from_file "broken.usda").1 = 0 ∧
    main brokenFile ["c-api-example", "broken.usda"] = EXIT_SUCCESS ∧
    EXIT_SUCCESS = 0 := by
  decide

end c_api_example

/-! ## The variant -/

namespace tinyusdz

section HelperLemmas

variable {Ty V : Type} [DecidableEq Ty] (E : ValueTypes Ty V)

omit [DecidableEq Ty] in
theorem Store.read_of_getElem? {s : Store Ty V} {i : Nat} {x : variant Ty V}
    (h : s[i]? = some x) : s.read i = .ok x := by
  simp [Store.read, h]

omit [DecidableEq Ty] in
theorem Store.lt_of_getElem? {s : Store Ty V} {i : Nat} {x : variant Ty V}
    (h : s[i]? = some x) : i < s.length := by
  obtain ⟨h2, _⟩ := List.getElem?_eq_some.mp h
  exact h2

omit [DecidableEq Ty] in
theorem Store.read_ok {s : Store Ty V} {i : Nat} {x : variant Ty V}
    (h : s.read i = .ok x) : s[i]? = some x := by
  unfold Store.read at h
  cases hx : s[i]? with
  | none => rw [hx] at h; cases h
  | some y => rw [hx] at h; cases h; rfl

omit [DecidableEq Ty] in
theorem Outcome.andThen_ok {α β : Type} {x : Outcome α} {f : α → Outcome β} {b : β}
    (h : x.andThen f = .ok b) : ∃ a, x = .ok a ∧ f a = .ok b := by
  cases x with
  | ok a => exact ⟨a, rfl, h⟩
  | undefined_behavior => cases h
  | no_such_object => cases h

omit [DecidableEq Ty] in
theorem Store.set_getElem?_self {s : Store Ty V} {i : Nat} {x : variant Ty V}
    (h : s[i]? = some x) : s.set i x = s := by
  apply List.ext_getElem?
  intro j
  by_cases e : i = j
  · subst e
    rw [List.getElem?_set_self (Store.lt_of_getElem? h), h]
  · rw [List.getElem?_set_ne e]

theorem variant_helper_rec.destroy_void (Ts : List Ty) (p : Nat) (s : Store Ty V) :
    variant_helper_rec.destroy E Ts E.void_type_id p s = .ok s := by
  induction Ts with
  | nil => rfl
  | cons F Ts ih => simp [variant_helper_rec.destroy, E.type_id_ne_void F, ih]

theorem variant_helper_rec.destroy_holds (Ts : List Ty) {T : Ty} (hT : T ∈ Ts)
    {s : Store Ty V} {p : Nat} {x : variant Ty V} (hx : s[p]? = some x) {v : V}
    (hd : x.data = .live ⟨T, v⟩) :
    variant_helper_rec.destroy E Ts (E.type_id T) p s
      = .ok (s.set p { x with data := .destroyed ⟨T, v⟩ }) := by
  induction Ts with
  | nil => cases hT
  | cons F Ts ih =>
    by_cases h : E.type_id F = E.type_id T
    · have e := E.type_id_injective _ _ h
      subst e
      simp [variant_helper_rec.destroy, Store.read_of_getElem? hx, Outcome.andThen, hd]
    · have hT2 : T ∈ Ts := by
        rcases List.mem_cons.mp hT with e | h2
        · exact absurd (by rw [e]) h
        · exact h2
      simp [variant_helper_rec.destroy, h, ih hT2]

theorem variant_helper_rec.copy_void (Ts : List Ty) (src dst : Nat) (s : Store Ty V) :
    variant_helper_rec.copy E Ts E.void_type_id src dst s = .ok s := by
  induction Ts with
  | nil => rfl
  | cons F Ts ih => simp [variant_helper_rec.copy, E.type_id_ne_void F, ih]

theorem variant_helper_rec.copy_holds (Ts : List Ty) {T : Ty} (hT : T ∈ Ts)
    {s : Store Ty V} {src dst : Nat} {x y : variant Ty V} (hx : s[src]? = some x) {v : V}
    (hr : x.data.read E = some ⟨T, v⟩) (hy : s[dst]? = some y) :
    variant_helper_rec.copy E Ts (E.type_id T) src dst s
      = .ok (s.set dst { y with data := .live ⟨T, v⟩ }) := by
  induction Ts with
  | nil => cases hT
  | cons F Ts ih =>
    by_cases h : E.type_id F = E.type_id T
    · have e := E.type_id_injective _ _ h
      subst e
      simp [variant_helper_rec.copy, Store.read_of_getElem? hx, Outcome.andThen, hr,
        Store.read_of_getElem? hy]
    · have hT2 : T ∈ Ts := by
        rcases List.mem_cons.mp hT with e | h2
        · exact absurd (by rw [e]) h
        · exact h2
      simp [variant_helper_rec.copy, h, ih hT2]

theorem variant_helper_rec.move_void (Ts : List Ty) (src dst : Nat) (s : Store Ty V) :
    variant_helper_rec.move E Ts E.void_type_id src dst s = .ok s := by
  induction Ts with
  | nil => rfl
  | cons F Ts ih => simp [variant_helper_rec.move, E.type_id_ne_void F, ih]

theorem variant_helper_rec.move_holds (Ts : List Ty) {T : Ty} (hT : T ∈ Ts)
    {s : Store Ty V} {src dst : Nat} {x y x1 : variant Ty V} (hx : s[src]? = some x) {v : V}
    (hr : x.data.object = some ⟨T, v⟩) (hy : s[dst]? = some y)
    (hx1 : (s.set dst { y with data := .live ⟨T, v⟩ })[src]? = some x1) :
    variant_helper_rec.move E Ts (E.type_id T) src dst s
      = .ok ((s.set dst { y with data := .live ⟨T, v⟩ }).set src
          { x1 with data := x1.data.with_value (E.moved_from T v) }) := by
  induction Ts with
  | nil => cases hT
  | cons F Ts ih =>
    by_cases h : E.type_id F = E.type_id T
    · have e := E.type_id_injective _ _ h
      subst e
      simp [variant_helper_rec.move, Store.read_of_getElem? hx, Outcome.andThen, hr,
        Store.read_of_getElem? hy, Store.read_of_getElem? hx1]
    · have hT2 : T ∈ Ts := by
        rcases List.mem_cons.mp hT with e | h2
        · exact absurd (by rw [e]) h
        · exact h2
      simp [variant_helper_rec.move, h, ih hT2]

end HelperLemmas

end tinyusdz

namespace tinyusdz

section ResultLemmas

variable {Ty V : Type} [DecidableEq Ty] (E : ValueTypes Ty V)

omit [DecidableEq Ty] in
/-- A valid variant with the tag of `T` holds a value of `T`, and `T` is a type
of the variant. -/
theorem variant.holds_of_tag {Ts : List Ty} {x : variant Ty V} (h : x.Valid E Ts) {T : Ty}
    (ht : x.variant_id = E.type_id T) : T ∈ Ts ∧ ∃ v, x.Holds E T v := by
  rcases h with ⟨h1, _⟩ | ⟨T2, hT2, v, h1, h2⟩
  · exact absurd (ht.symm.trans h1) (E.type_id_ne_void T)
  · have e : T2 = T := E.type_id_injective _ _ (h1.symm.trans ht)
    subst e
    exact ⟨hT2, v, h1, h2⟩

/-- On a valid variant the destructor dispatch ends well: it ends the life of
the object, if there is one, and leaves the buffer without live object. -/
theorem variant.destroy_valid {Ts : List Ty} {s : Store Ty V} {p : Nat} {x : variant Ty V}
    (hx : s[p]? = some x) (h : x.Valid E Ts) :
    ∃ d : Buffer Ty V, d.is_live = false ∧
      variant_helper.destroy E Ts x.variant_id p s = .ok (s.set p { x with data := d }) ∧
      (∀ T v, x.Holds E T v → d = .destroyed ⟨T, v⟩) ∧ (x.Empty E → d = x.data) := by
  rcases h with ⟨h1, h2⟩ | ⟨T, hT, v, h1, h2⟩
  · refine ⟨x.data, h2, ?_, fun T v hh => ?_, fun _ => rfl⟩
    · have e : s.set p { x with data := x.data } = s := Store.set_getElem?_self hx
      rw [e, h1]
      exact variant_helper_rec.destroy_void E Ts p s
    · rw [hh.2] at h2
      cases h2
  · refine ⟨.destroyed ⟨T, v⟩, rfl, ?_, fun T2 v2 hh => ?_, fun he => ?_⟩
    · have e := variant_helper_rec.destroy_holds E Ts hT hx h2
      rw [← h1] at e
      exact e
    · have e : T2 = T := E.type_id_injective _ _ (hh.1.symm.trans h1)
      subst e
      have e2 := hh.2.symm.trans h2
      cases e2
      rfl
    · have e := he.2
      rw [h2] at e
      cases e

omit [DecidableEq Ty] in
theorem variant.valid_holds {Ts : List Ty} {T : Ty} (hT : T ∈ Ts) (v : V) :
    variant.Valid E Ts { variant_id := E.type_id T, data := .live ⟨T, v⟩ } :=
  Or.inr ⟨T, hT, v, rfl, rfl⟩

omit [DecidableEq Ty] in
theorem variant.valid_ctor (Ts : List Ty) : (variant.ctor E).Valid E Ts :=
  Or.inl ⟨rfl, rfl⟩

theorem variant.get_holds {x : variant Ty V} {T : Ty} {v : V} (h : x.Holds E T v) :
    x.get E T = .object v := by
  simp [variant.get, h.1, h.2]

end ResultLemmas

end tinyusdz

namespace tinyusdz

namespace Store

variable {Ty V : Type} [DecidableEq Ty] (E : ValueTypes Ty V) (Ts : List Ty)

omit [DecidableEq Ty] in
theorem valid_set {s : Store Ty V} (hs : ∀ y ∈ s, y.Valid E Ts) (i : Nat) {x : variant Ty V}
    (hx : x.Valid E Ts) : ∀ y ∈ s.set i x, y.Valid E Ts := by
  intro y hy
  rcases List.mem_or_eq_of_mem_set hy with h | h
  · exact hs y h
  · rw [h]; exact hx

omit [DecidableEq Ty] in
theorem valid_append {s : Store Ty V} (hs : ∀ y ∈ s, y.Valid E Ts) {x : variant Ty V}
    (hx : x.Valid E Ts) : ∀ y ∈ s ++ [x], y.Valid E Ts := by
  intro y hy
  rcases List.mem_append.mp hy with h | h
  · exact hs y h
  · have e : y = x := by simpa using h
    rw [e]; exact hx

omit [DecidableEq Ty] in
theorem exists_of_lt {s : Store Ty V} {i : Nat} (h : i < s.length) : ∃ x, s[i]? = some x ∧ x ∈ s :=
  ⟨s[i], List.getElem?_eq_getElem h, List.getElem_mem h⟩

omit [DecidableEq Ty] in
theorem mem_of_getElem? {s : Store Ty V} {i : Nat} {x : variant Ty V} (h : s[i]? = some x) :
    x ∈ s := by
  obtain ⟨h2, e⟩ := List.getElem?_eq_some.mp h
  rw [← e]
  exact List.getElem_mem h2

omit [DecidableEq Ty] in
theorem append_set_length (s : Store Ty V) (a b : variant Ty V) :
    (s ++ [a]).set s.length b = s ++ [b] := by
  rw [List.set_append_right _ _ (Nat.le_refl _)]
  simp

/-- Copy construction from a valid variant ends well: the new variant has the
tag of the source, is valid, and is equal to the source when that holds a
value; nothing else changes. -/
theorem copy_construct_valid {s : Store Ty V} {src : Nat} {x : variant Ty V}
    (hx : s[src]? = some x) (hv : x.Valid E Ts) :
    ∃ dst, copy_construct E Ts s src = .ok (s ++ [dst]) ∧ dst.variant_id = x.variant_id ∧
      dst.Valid E Ts ∧ ∀ T v, x.Holds E T v → dst = x := by
  have hlt := lt_of_getElem? hx
  obtain ⟨xi, xd⟩ := x
  have hx1 : (s ++ [(⟨xi, .indeterminate⟩ : variant Ty V)])[src]? = some ⟨xi, xd⟩ := by
    rw [List.getElem?_append_left hlt]; exact hx
  have hy : (s ++ [(⟨xi, .indeterminate⟩ : variant Ty V)])[s.length]?
      = some ⟨xi, .indeterminate⟩ := List.getElem?_concat_length _ _
  rcases hv with ⟨h1, h2⟩ | ⟨T, hT, v, h1, h2⟩
  · have e1 : xi = E.void_type_id := h1
    subst e1
    refine ⟨⟨E.void_type_id, .indeterminate⟩, ?_, rfl, Or.inl ⟨rfl, rfl⟩, fun T v hh => ?_⟩
    · simp only [copy_construct, read_of_getElem? hx, Outcome.andThen, read_of_getElem? hx1,
        variant_helper.copy]
      exact variant_helper_rec.copy_void E Ts _ _ _
    · exact absurd hh.1.symm (E.type_id_ne_void T)
  · have e1 : xi = E.type_id T := h1
    have e2 : xd = .live ⟨T, v⟩ := h2
    subst e1 e2
    refine ⟨⟨E.type_id T, .live ⟨T, v⟩⟩, ?_, rfl, Or.inr ⟨T, hT, v, rfl, rfl⟩, fun _ _ _ => rfl⟩
    have e := variant_helper_rec.copy_holds E Ts hT hx1 rfl hy
    simp only [copy_construct, read_of_getElem? hx, Outcome.andThen, read_of_getElem? hx1,
      variant_helper.copy]
    rw [e, append_set_length]

/-- Move construction from a valid variant ends well: the new variant has the
tag of the source and is valid, the source stays valid; when the source holds a
value the new variant is what the source was and the source holds the
moved-from value; an empty source is as before. -/
theorem move_construct_valid {s : Store Ty V} {src : Nat} {x : variant Ty V}
    (hx : s[src]? = some x) (hv : x.Valid E Ts) :
    ∃ dst r, move_construct E Ts s src = .ok (s.set src r ++ [dst]) ∧
      dst.variant_id = x.variant_id ∧ dst.Valid E Ts ∧ r.Valid E Ts ∧
      (∀ T v, x.Holds E T v →
        dst = x ∧ r = ⟨E.type_id T, .live ⟨T, E.moved_from T v⟩⟩) := by
  have hlt := lt_of_getElem? hx
  obtain ⟨xi, xd⟩ := x
  have hx1 : (s ++ [(⟨xi, .indeterminate⟩ : variant Ty V)])[src]? = some ⟨xi, xd⟩ := by
    rw [List.getElem?_append_left hlt]; exact hx
  have hy : (s ++ [(⟨xi, .indeterminate⟩ : variant Ty V)])[s.length]?
      = some ⟨xi, .indeterminate⟩ := List.getElem?_concat_length _ _
  rcases hv with ⟨h1, h2⟩ | ⟨T, hT, v, h1, h2⟩
  · have e1 : xi = E.void_type_id := h1
    subst e1
    refine ⟨⟨E.void_type_id, .indeterminate⟩, ⟨E.void_type_id, xd⟩, ?_, rfl,
      Or.inl ⟨rfl, rfl⟩, Or.inl ⟨rfl, h2⟩, fun T v hh => ?_⟩
    · simp only [move_construct, read_of_getElem? hx, Outcome.andThen, read_of_getElem? hx1,
        variant_helper.move]
      rw [set_getElem?_self hx]
      exact variant_helper_rec.move_void E Ts _ _ _
    · exact absurd hh.1.symm (E.type_id_ne_void T)
  · have e1 : xi = E.type_id T := h1
    have e2 : xd = .live ⟨T, v⟩ := h2
    subst e1 e2
    refine ⟨⟨E.type_id T, .live ⟨T, v⟩⟩, ⟨E.type_id T, .live ⟨T, E.moved_from T v⟩⟩, ?_, rfl,
      Or.inr ⟨T, hT, v, rfl, rfl⟩, Or.inr ⟨T, hT, _, rfl, rfl⟩, fun T2 v2 hh => ?_⟩
    · have hx2 : ((s ++ [(⟨E.type_id T, .indeterminate⟩ : variant Ty V)]).set s.length
          { (⟨E.type_id T, .indeterminate⟩ : variant Ty V) with data := .live ⟨T, v⟩ })[src]?
            = some ⟨E.type_id T, .live ⟨T, v⟩⟩ := by
        rw [List.getElem?_set_ne (Nat.ne_of_gt hlt)]; exact hx1
      have e := variant_helper_rec.move_holds E Ts hT hx1 rfl hy hx2
      simp only [move_construct, read_of_getElem? hx, Outcome.andThen, read_of_getElem? hx1,
        variant_helper.move]
      rw [e, append_set_length, List.set_append_left _ _ hlt]
      rfl
    · have e : T2 = T := E.type_id_injective _ _ hh.1.symm
      subst e
      have e2 : (Buffer.live ⟨T2, v⟩ : Buffer Ty V) = .live ⟨T2, v2⟩ := hh.2
      cases e2
      exact ⟨rfl, rfl⟩

end Store

end tinyusdz

namespace tinyusdz

section Unreadable

variable {Ty V : Type} [DecidableEq Ty] (E : ValueTypes Ty V)

theorem variant_helper_rec.copy_unreadable (Ts : List Ty) {T : Ty} (hT : T ∈ Ts)
    {s : Store Ty V} {src : Nat} {x : variant Ty V} (hx : s[src]? = some x)
    (hr : x.data.read E = none) (dst : Nat) :
    variant_helper_rec.copy E Ts (E.type_id T) src dst s = .undefined_behavior := by
  induction Ts with
  | nil => cases hT
  | cons F Ts ih =>
    by_cases h : E.type_id F = E.type_id T
    · simp [variant_helper_rec.copy, h, Store.read_of_getElem? hx, Outcome.andThen, hr]
    · have hT2 : T ∈ Ts := by
        rcases List.mem_cons.mp hT with e | h2
        · exact absurd (by rw [e]) h
        · exact h2
      simp [variant_helper_rec.copy, h, ih hT2]

omit [DecidableEq Ty] in
theorem Buffer.read_destroyed_some {T : Ty} {v v2 : V} (h : E.after_destroy T v = some v2) :
    (Buffer.destroyed ⟨T, v⟩ : Buffer Ty V).read E = some ⟨T, v2⟩ := by
  simp [Buffer.read, h]

omit [DecidableEq Ty] in
theorem Buffer.read_destroyed_none {T : Ty} {v : V} (h : E.after_destroy T v = none) :
    (Buffer.destroyed ⟨T, v⟩ : Buffer Ty V).read E = none := by
  simp [Buffer.read, h]

end Unreadable

namespace Store

variable {Ty V : Type} [DecidableEq Ty] (E : ValueTypes Ty V) (Ts : List Ty)

/-- Copy assignment between two different valid variants ends well: the
assigned variant has the tag of the right-hand side, is valid, and is equal to
the right-hand side when that holds a value; nothing else changes. -/
theorem assign_copy_valid {s : Store Ty V} {this rhs : Nat} {a x : variant Ty V}
    (ha : s[this]? = some a) (hav : a.Valid E Ts) (hx : s[rhs]? = some x)
    (hxv : x.Valid E Ts) (hne : this ≠ rhs) :
    ∃ dst, assign_copy E Ts s this rhs = .ok (s.set this dst) ∧
      dst.variant_id = x.variant_id ∧ dst.Valid E Ts ∧ ∀ T v, x.Holds E T v → dst = x := by
  have hlt : this < s.length := lt_of_getElem? ha
  obtain ⟨d, hd, hdes, _, _⟩ := variant.destroy_valid E ha hav
  obtain ⟨xi, xd⟩ := x
  have h1r : (s.set this { a with data := d })[rhs]? = some ⟨xi, xd⟩ := by
    rw [List.getElem?_set_ne hne]; exact hx
  have h1t : (s.set this { a with data := d })[this]? = some { a with data := d } :=
    List.getElem?_set_self hlt
  have h2r : (s.set this (⟨xi, d⟩ : variant Ty V))[rhs]? = some ⟨xi, xd⟩ := by
    rw [List.getElem?_set_ne hne]; exact hx
  have h2t : (s.set this (⟨xi, d⟩ : variant Ty V))[this]? = some ⟨xi, d⟩ :=
    List.getElem?_set_self hlt
  have hstep : assign_copy E Ts s this rhs
      = variant_helper_rec.copy E Ts xi rhs this (s.set this ⟨xi, d⟩) := by
    simp only [assign_copy, read_of_getElem? ha, Outcome.andThen, hdes, read_of_getElem? h1r,
      read_of_getElem? h1t, List.set_set, read_of_getElem? h2r, variant_helper.copy]
  rw [hstep]
  rcases hxv with ⟨h1, h2⟩ | ⟨T, hT, v, h1, h2⟩
  · have e1 : xi = E.void_type_id := h1
    subst e1
    refine ⟨⟨E.void_type_id, d⟩, variant_helper_rec.copy_void E Ts _ _ _, rfl,
      Or.inl ⟨rfl, hd⟩, fun T v hh => ?_⟩
    exact absurd hh.1.symm (E.type_id_ne_void T)
  · have e1 : xi = E.type_id T := h1
    have e2 : xd = .live ⟨T, v⟩ := h2
    subst e1 e2
    refine ⟨⟨E.type_id T, .live ⟨T, v⟩⟩, ?_, rfl, Or.inr ⟨T, hT, v, rfl, rfl⟩,
      fun _ _ _ => rfl⟩
    rw [variant_helper_rec.copy_holds E Ts hT h2r rfl h2t, List.set_set]

/-- Copy assignment of an empty variant to itself leaves the store as it is. -/
theorem assign_copy_self_empty {s : Store Ty V} {p : Nat} {a : variant Ty V}
    (ha : s[p]? = some a) (he : a.Empty E) : assign_copy E Ts s p p = .ok s := by
  have hlt : p < s.length := lt_of_getElem? ha
  obtain ⟨ai, ad⟩ := a
  have e1 : ai = E.void_type_id := he.1
  subst e1
  have hdes : variant_helper.destroy E Ts E.void_type_id p s = .ok s :=
    variant_helper_rec.destroy_void E Ts p s
  simp only [assign_copy, read_of_getElem? ha, Outcome.andThen, hdes, set_getElem?_self ha,
    variant_helper.copy]
  exact variant_helper_rec.copy_void E Ts _ _ _

/-- Copy assignment to itself of a variant that holds a value: the destructor
runs, and the copy is built from what the destroyed object is read as. -/
theorem assign_copy_self_holds {s : Store Ty V} {p : Nat} {a : variant Ty V} {T : Ty}
    (hT : T ∈ Ts) {v : V} (ha : s[p]? = some a) (hh : a.Holds E T v) :
    (∀ v2, E.after_destroy T v = some v2 →
      assign_copy E Ts s p p = .ok (s.set p ⟨E.type_id T, .live ⟨T, v2⟩⟩)) ∧
    (E.after_destroy T v = none → assign_copy E Ts s p p = .undefined_behavior) := by
  have hlt : p < s.length := lt_of_getElem? ha
  obtain ⟨ai, ad⟩ := a
  have e1 : ai = E.type_id T := hh.1
  have e2 : ad = .live ⟨T, v⟩ := hh.2
  subst e1 e2
  have hdes : variant_helper.destroy E Ts (E.type_id T) p s
      = .ok (s.set p ⟨E.type_id T, .destroyed ⟨T, v⟩⟩) :=
    variant_helper_rec.destroy_holds E Ts hT ha rfl
  have h1 : (s.set p (⟨E.type_id T, .destroyed ⟨T, v⟩⟩ : variant Ty V))[p]?
      = some ⟨E.type_id T, .destroyed ⟨T, v⟩⟩ := List.getElem?_set_self hlt
  have hstep : assign_copy E Ts s p p
      = variant_helper_rec.copy E Ts (E.type_id T) p p
          (s.set p ⟨E.type_id T, .destroyed ⟨T, v⟩⟩) := by
    simp only [assign_copy, read_of_getElem? ha, Outcome.andThen, hdes, read_of_getElem? h1,
      List.set_set, variant_helper.copy]
  rw [hstep]
  constructor
  · intro v2 hs
    rw [variant_helper_rec.copy_holds E Ts hT h1 (Buffer.read_destroyed_some E hs) h1,
      List.set_set]
  · intro hn
    exact variant_helper_rec.copy_unreadable E Ts hT h1 (Buffer.read_destroyed_none E hn) p

end Store

end tinyusdz

namespace tinyusdz

namespace Store

variable {Ty V : Type} [DecidableEq Ty] (E : ValueTypes Ty V) (Ts : List Ty)

/-- Move assignment between two different valid variants ends well: the
assigned variant has the tag of the right-hand side and is valid, the
right-hand side stays valid; when the right-hand side holds a value the
assigned variant is what the right-hand side was and the right-hand side holds
the moved-from value; nothing else changes. -/
theorem assign_move_valid {s : Store Ty V} {this rhs : Nat} {a x : variant Ty V}
    (ha : s[this]? = some a) (hav : a.Valid E Ts) (hx : s[rhs]? = some x)
    (hxv : x.Valid E Ts) (hne : this ≠ rhs) :
    ∃ dst r, assign_move E Ts s this rhs = .ok ((s.set this dst).set rhs r) ∧
      dst.variant_id = x.variant_id ∧ dst.Valid E Ts ∧ r.Valid E Ts ∧
      (∀ T v, x.Holds E T v →
        dst = x ∧ r = ⟨E.type_id T, .live ⟨T, E.moved_from T v⟩⟩) := by
  have hlt : this < s.length := lt_of_getElem? ha
  obtain ⟨d, hd, hdes, _, _⟩ := variant.destroy_valid E ha hav
  obtain ⟨xi, xd⟩ := x
  have h1r : (s.set this { a with data := d })[rhs]? = some ⟨xi, xd⟩ := by
    rw [List.getElem?_set_ne hne]; exact hx
  have h1t : (s.set this { a with data := d })[this]? = some { a with data := d } :=
    List.getElem?_set_self hlt
  have h2r : (s.set this (⟨xi, d⟩ : variant Ty V))[rhs]? = some ⟨xi, xd⟩ := by
    rw [List.getElem?_set_ne hne]; exact hx
  have h2t : (s.set this (⟨xi, d⟩ : variant Ty V))[this]? = some ⟨xi, d⟩ :=
    List.getElem?_set_self hlt
  have hstep : assign_move E Ts s this rhs
      = variant_helper_rec.move E Ts xi rhs this (s.set this ⟨xi, d⟩) := by
    simp only [assign_move, read_of_getElem? ha, Outcome.andThen, hdes, read_of_getElem? h1r,
      read_of_getElem? h1t, List.set_set, read_of_getElem? h2r, variant_helper.move]
  rw [hstep]
  rcases hxv with ⟨h1, h2⟩ | ⟨T, hT, v, h1, h2⟩
  · have e1 : xi = E.void_type_id := h1
    subst e1
    refine ⟨⟨E.void_type_id, d⟩, ⟨E.void_type_id, xd⟩, ?_, rfl, Or.inl ⟨rfl, hd⟩,
      Or.inl ⟨rfl, h2⟩, fun T v hh => ?_⟩
    · rw [set_getElem?_self h2r]
      exact variant_helper_rec.move_void E Ts _ _ _
    · exact absurd hh.1.symm (E.type_id_ne_void T)
  · have e1 : xi = E.type_id T := h1
    have e2 : xd = .live ⟨T, v⟩ := h2
    subst e1 e2
    refine ⟨⟨E.type_id T, .live ⟨T, v⟩⟩, ⟨E.type_id T, .live ⟨T, E.moved_from T v⟩⟩, ?_, rfl,
      Or.inr ⟨T, hT, v, rfl, rfl⟩, Or.inr ⟨T, hT, _, rfl, rfl⟩, fun T2 v2 hh => ?_⟩
    · have hx1 : ((s.set this (⟨E.type_id T, d⟩ : variant Ty V)).set this
          { (⟨E.type_id T, d⟩ : variant Ty V) with data := .live ⟨T, v⟩ })[rhs]?
            = some ⟨E.type_id T, .live ⟨T, v⟩⟩ := by
        rw [List.getElem?_set_ne hne]; exact h2r
      rw [variant_helper_rec.move_holds E Ts hT h2r rfl h2t hx1, List.set_set]
      rfl
    · have e : T2 = T := E.type_id_injective _ _ hh.1.symm
      subst e
      have e2 : (Buffer.live ⟨T2, v⟩ : Buffer Ty V) = .live ⟨T2, v2⟩ := hh.2
      cases e2
      exact ⟨rfl, rfl⟩

/-- Move assignment of an empty variant to itself leaves the store as it is. -/
theorem assign_move_self_empty {s : Store Ty V} {p : Nat} {a : variant Ty V}
    (ha : s[p]? = some a) (he : a.Empty E) : assign_move E Ts s p p = .ok s := by
  obtain ⟨ai, ad⟩ := a
  have e1 : ai = E.void_type_id := he.1
  subst e1
  have hdes : variant_helper.destroy E Ts E.void_type_id p s = .ok s :=
    variant_helper_rec.destroy_void E Ts p s
  simp only [assign_move, read_of_getElem? ha, Outcome.andThen, hdes, set_getElem?_self ha,
    variant_helper.move]
  exact variant_helper_rec.move_void E Ts _ _ _

/-- Move assignment to itself of a variant that holds a value: the destructor
runs, the new object takes over the bytes of the destroyed one in place, and it
is left with the moved-from value. -/
theorem assign_move_self_holds {s : Store Ty V} {p : Nat} {a : variant Ty V} {T : Ty}
    (hT : T ∈ Ts) {v : V} (ha : s[p]? = some a) (hh : a.Holds E T v) :
    assign_move E Ts s p p = .ok (s.set p ⟨E.type_id T, .live ⟨T, E.moved_from T v⟩⟩) := by
  have hlt : p < s.length := lt_of_getElem? ha
  obtain ⟨ai, ad⟩ := a
  have e1 : ai = E.type_id T := hh.1
  have e2 : ad = .live ⟨T, v⟩ := hh.2
  subst e1 e2
  have hdes : variant_helper.destroy E Ts (E.type_id T) p s
      = .ok (s.set p ⟨E.type_id T, .destroyed ⟨T, v⟩⟩) :=
    variant_helper_rec.destroy_holds E Ts hT ha rfl
  have h1 : (s.set p (⟨E.type_id T, .destroyed ⟨T, v⟩⟩ : variant Ty V))[p]?
      = some ⟨E.type_id T, .destroyed ⟨T, v⟩⟩ := List.getElem?_set_self hlt
  have hstep : assign_move E Ts s p p
      = variant_helper_rec.move E Ts (E.type_id T) p p
          (s.set p ⟨E.type_id T, .destroyed ⟨T, v⟩⟩) := by
    simp only [assign_move, read_of_getElem? ha, Outcome.andThen, hdes, read_of_getElem? h1,
      List.set_set, variant_helper.move]
  rw [hstep]
  have hx1 : ((s.set p (⟨E.type_id T, .destroyed ⟨T, v⟩⟩ : variant Ty V)).set p
      { (⟨E.type_id T, .destroyed ⟨T, v⟩⟩ : variant Ty V) with data := .live ⟨T, v⟩ })[p]?
        = some ⟨E.type_id T, .live ⟨T, v⟩⟩ := by
    rw [List.set_set]; exact List.getElem?_set_self hlt
  rw [variant_helper_rec.move_holds E Ts hT h1 rfl h1 hx1, List.set_set, List.set_set]
  rfl

/-- The call `set<T>` with a value that is no part of the variant, on a valid
variant: the variant holds the value afterwards; nothing else changes. -/
theorem set_value_valid {s : Store Ty V} {this : Nat} {a : variant Ty V}
    (ha : s[this]? = some a) (hv : a.Valid E Ts) (T : Ty) (v : V) :
    set_value E Ts s this T (.value v)
      = .ok (s.set this { variant_id := E.type_id T, data := .live ⟨T, v⟩ }) := by
  have hlt : this < s.length := lt_of_getElem? ha
  obtain ⟨d, _, hdes, _, _⟩ := variant.destroy_valid E ha hv
  have h1 : (s.set this { a with data := d })[this]? = some { a with data := d } :=
    List.getElem?_set_self hlt
  simp only [set_value, variant.set, read_of_getElem? ha, Outcome.andThen, hdes,
    read_of_getElem? h1, List.set_set]

/-- The call `set<T>(get<T>())` on a variant that holds a `T`: the destructor
runs, and the new object is built from what the destroyed object is read as. -/
theorem set_own_payload_holds {s : Store Ty V} {this : Nat} {a : variant Ty V} {T : Ty}
    (hT : T ∈ Ts) {v : V} (ha : s[this]? = some a) (hh : a.Holds E T v) :
    (∀ v2, E.after_destroy T v = some v2 →
      set_value E Ts s this T .own_payload
        = .ok (s.set this ⟨E.type_id T, .live ⟨T, v2⟩⟩)) ∧
    (E.after_destroy T v = none →
      set_value E Ts s this T .own_payload = .undefined_behavior) := by
  have hlt : this < s.length := lt_of_getElem? ha
  obtain ⟨ai, ad⟩ := a
  have e1 : ai = E.type_id T := hh.1
  have e2 : ad = .live ⟨T, v⟩ := hh.2
  subst e1 e2
  have hdes : variant_helper.destroy E Ts (E.type_id T) this s
      = .ok (s.set this ⟨E.type_id T, .destroyed ⟨T, v⟩⟩) :=
    variant_helper_rec.destroy_holds E Ts hT ha rfl
  have h1 : (s.set this (⟨E.type_id T, .destroyed ⟨T, v⟩⟩ : variant Ty V))[this]?
      = some ⟨E.type_id T, .destroyed ⟨T, v⟩⟩ := List.getElem?_set_self hlt
  constructor
  · intro v2 hs
    simp [set_value, variant.set, read_of_getElem? ha, Outcome.andThen, hdes,
      read_of_getElem? h1, List.set_set, variant.get, Buffer.read, hs]
  · intro hn
    simp [set_value, variant.set, read_of_getElem? ha, Outcome.andThen, hdes,
      read_of_getElem? h1, variant.get, Buffer.read, hn]

/-- The call `set<T>(get<T>())` on a variant whose tag is not that of `T`: the
argument is a reference made from the null pointer. -/
theorem set_own_payload_wrong_tag {s : Store Ty V} {this : Nat} {a : variant Ty V} {T : Ty}
    (ha : s[this]? = some a) (hne : a.variant_id ≠ E.type_id T) :
    set_value E Ts s this T .own_payload = .undefined_behavior := by
  simp [set_value, variant.set, read_of_getElem? ha, Outcome.andThen, variant.get, hne]

end Store

end tinyusdz

namespace tinyusdz

section Length

variable {Ty V : Type} [DecidableEq Ty] (E : ValueTypes Ty V)

/-- The destructor dispatch neither adds nor removes a variant. -/
theorem variant_helper_rec.destroy_length (Ts : List Ty) {s s2 : Store Ty V} {id p : Nat}
    (h : variant_helper_rec.destroy E Ts id p s = .ok s2) : s2.length = s.length := by
  induction Ts with
  | nil =>
    simp only [variant_helper_rec.destroy] at h
    cases h
    rfl
  | cons F Ts ih =>
    by_cases hm : E.type_id F = id
    · simp only [variant_helper_rec.destroy, if_pos hm] at h
      obtain ⟨x, _, h⟩ := Outcome.andThen_ok h
      cases hd : x.data with
      | indeterminate => rw [hd] at h; cases h
      | destroyed o => rw [hd] at h; cases h
      | live o =>
        rw [hd] at h
        by_cases ho : o.ty = F
        · simp only [if_pos ho] at h
          cases h
          simp
        · simp only [if_neg ho] at h
          cases h
    · simp only [variant_helper_rec.destroy, if_neg hm] at h
      exact ih h

end Length

namespace Store

variable {Ty V : Type} [DecidableEq Ty] (E : ValueTypes Ty V) (Ts : List Ty)

omit [DecidableEq Ty] in
theorem ok_injective {α : Type} {a b : α} (h : (Outcome.ok a) = .ok b) : a = b := by
  cases h
  rfl

/-- The cells that a copy or move assignment that ends well names exist. -/
theorem assign_copy_cells {s s2 : Store Ty V} {this rhs : Nat}
    (h : assign_copy E Ts s this rhs = .ok s2) :
    (∃ a, s[this]? = some a) ∧ rhs < s.length := by
  unfold assign_copy at h
  obtain ⟨a, ha, h⟩ := Outcome.andThen_ok h
  obtain ⟨s1, hs1, h⟩ := Outcome.andThen_ok h
  obtain ⟨b, hb, _⟩ := Outcome.andThen_ok h
  have hl := variant_helper_rec.destroy_length E Ts hs1
  exact ⟨⟨a, read_ok ha⟩, by rw [← hl]; exact lt_of_getElem? (read_ok hb)⟩

theorem assign_move_cells {s s2 : Store Ty V} {this rhs : Nat}
    (h : assign_move E Ts s this rhs = .ok s2) :
    (∃ a, s[this]? = some a) ∧ rhs < s.length := by
  unfold assign_move at h
  obtain ⟨a, ha, h⟩ := Outcome.andThen_ok h
  obtain ⟨s1, hs1, h⟩ := Outcome.andThen_ok h
  obtain ⟨b, hb, _⟩ := Outcome.andThen_ok h
  have hl := variant_helper_rec.destroy_length E Ts hs1
  exact ⟨⟨a, read_ok ha⟩, by rw [← hl]; exact lt_of_getElem? (read_ok hb)⟩

/-- One operation that ends well on a store of valid variants leaves a store of
valid variants, also when it names one variant twice. -/
theorem step_valid {s s2 : Store Ty V} (hs : ∀ y ∈ s, y.Valid E Ts) {op : Op Ty V}
    (hop : op.WellTyped Ts) (h : step E Ts s op = .ok s2) : ∀ y ∈ s2, y.Valid E Ts := by
  cases op with
  | construct =>
    have e : s2 = s ++ [variant.ctor E] := (ok_injective h).symm
    rw [e]
    exact valid_append E Ts hs (variant.valid_ctor E Ts)
  | copy_construct src =>
    have h0 : copy_construct E Ts s src = .ok s2 := h
    have h1 := h0
    unfold copy_construct at h1
    obtain ⟨x, hx, _⟩ := Outcome.andThen_ok h1
    have hx := read_ok hx
    obtain ⟨dst, hc, _, hdv, _⟩ := copy_construct_valid E Ts hx (hs x (mem_of_getElem? hx))
    rw [hc] at h0
    rw [← ok_injective h0]
    exact valid_append E Ts hs hdv
  | move_construct src =>
    have h0 : move_construct E Ts s src = .ok s2 := h
    have h1 := h0
    unfold move_construct at h1
    obtain ⟨x, hx, _⟩ := Outcome.andThen_ok h1
    have hx := read_ok hx
    obtain ⟨dst, r, hc, _, hdv, hrv, _⟩ :=
      move_construct_valid E Ts hx (hs x (mem_of_getElem? hx))
    rw [hc] at h0
    rw [← ok_injective h0]
    exact valid_append E Ts (valid_set E Ts hs src hrv) hdv
  | assign_copy this rhs =>
    have h0 : assign_copy E Ts s this rhs = .ok s2 := h
    obtain ⟨⟨a, ha⟩, hr⟩ := assign_copy_cells E Ts h0
    have hav := hs a (mem_of_getElem? ha)
    by_cases hne : this = rhs
    · subst hne
      rcases hav with he | ⟨T, hT, v, hh⟩
      · rw [assign_copy_self_empty E Ts ha he] at h0
        rw [← ok_injective h0]
        exact hs
      · cases hd : E.after_destroy T v with
        | none =>
          rw [(assign_copy_self_holds E Ts hT ha hh).2 hd] at h0
          cases h0
        | some v2 =>
          rw [(assign_copy_self_holds E Ts hT ha hh).1 v2 hd] at h0
          rw [← ok_injective h0]
          exact valid_set E Ts hs this (variant.valid_holds E hT v2)
    · obtain ⟨x, hx, hm⟩ := exists_of_lt (s := s) hr
      obtain ⟨dst, hc, _, hdv, _⟩ := assign_copy_valid E Ts ha hav hx (hs x hm) hne
      rw [hc] at h0
      rw [← ok_injective h0]
      exact valid_set E Ts hs this hdv
  | assign_move this rhs =>
    have h0 : assign_move E Ts s this rhs = .ok s2 := h
    obtain ⟨⟨a, ha⟩, hr⟩ := assign_move_cells E Ts h0
    have hav := hs a (mem_of_getElem? ha)
    by_cases hne : this = rhs
    · subst hne
      rcases hav with he | ⟨T, hT, v, hh⟩
      · rw [assign_move_self_empty E Ts ha he] at h0
        rw [← ok_injective h0]
        exact hs
      · rw [assign_move_self_holds E Ts hT ha hh] at h0
        rw [← ok_injective h0]
        exact valid_set E Ts hs this (variant.valid_holds E hT _)
    · obtain ⟨x, hx, hm⟩ := exists_of_lt (s := s) hr
      obtain ⟨dst, r, hc, _, hdv, hrv, _⟩ := assign_move_valid E Ts ha hav hx (hs x hm) hne
      rw [hc] at h0
      rw [← ok_injective h0]
      exact valid_set E Ts (valid_set E Ts hs this hdv) rhs hrv
  | set this T arg =>
    have hT : T ∈ Ts := hop
    have h0 : set_value E Ts s this T arg = .ok s2 := h
    have h1 := h0
    unfold set_value variant.set at h1
    obtain ⟨a, ha, _⟩ := Outcome.andThen_ok h1
    have ha := read_ok ha
    have hav := hs a (mem_of_getElem? ha)
    cases arg with
    | value v =>
      rw [set_value_valid E Ts ha hav T v] at h0
      rw [← ok_injective h0]
      exact valid_set E Ts hs this (variant.valid_holds E hT v)
    | own_payload =>
      by_cases ht : a.variant_id = E.type_id T
      · obtain ⟨_, v, hh⟩ := variant.holds_of_tag E hav ht
        cases hd : E.after_destroy T v with
        | none =>
          rw [(set_own_payload_holds E Ts hT ha hh).2 hd] at h0
          cases h0
        | some v2 =>
          rw [(set_own_payload_holds E Ts hT ha hh).1 v2 hd] at h0
          rw [← ok_injective h0]
          exact valid_set E Ts hs this (variant.valid_holds E hT v2)
      · rw [set_own_payload_wrong_tag E Ts ha ht] at h0
        cases h0

/-- A sequence of operations that ends well, from a store of valid variants,
leaves a store of valid variants. -/
theorem run_valid (ops : List (Op Ty V)) :
    ∀ s s2 : Store Ty V, (∀ y ∈ s, y.Valid E Ts) → (∀ op ∈ ops, op.WellTyped Ts) →
      run E Ts s ops = .ok s2 → ∀ y ∈ s2, y.Valid E Ts := by
  induction ops with
  | nil =>
    intro s s2 hs _ h
    rw [← ok_injective h]
    exact hs
  | cons op ops ih =>
    intro s s2 hs hw h
    unfold run at h
    obtain ⟨s1, h1, h2⟩ := Outcome.andThen_ok h
    exact ih s1 s2 (step_valid E Ts hs (hw op (List.mem_cons_self _ _)) h1)
      (fun o ho => hw o (List.mem_cons_of_mem _ ho)) h2

omit [DecidableEq Ty] in
theorem Op.InRange.well_typed {n : Nat} {op : Op Ty V} (h : op.InRange Ts n) :
    op.WellTyped Ts := by
  cases op with
  | construct => exact h
  | copy_construct src => trivial
  | move_construct src => trivial
  | assign_copy this rhs => trivial
  | assign_move this rhs => trivial
  | set this T arg => exact h.2.1

/-- One operation on cells that exist, on a store of valid variants, ends well
when it is not a copy assignment of a variant to itself, and also when it is
one, provided the destructors of the types of the variant leave what they
destroy readable. -/
theorem step_defined {s : Store Ty V} (hs : ∀ y ∈ s, y.Valid E Ts) {op : Op Ty V}
    (hop : op.InRange Ts s.length)
    (h : op.NoSelfCopy ∨ ∀ T, T ∈ Ts → ∀ v, (E.after_destroy T v).isSome = true) :
    ∃ s2, step E Ts s op = .ok s2 ∧ s2.length = s.length + op.grows := by
  cases op with
  | construct => exact ⟨_, rfl, by simp [Op.grows]⟩
  | copy_construct src =>
    obtain ⟨x, hx, hm⟩ := exists_of_lt (s := s) hop
    obtain ⟨dst, hc, _⟩ := copy_construct_valid E Ts hx (hs x hm)
    exact ⟨_, hc, by simp [Op.grows]⟩
  | move_construct src =>
    obtain ⟨x, hx, hm⟩ := exists_of_lt (s := s) hop
    obtain ⟨dst, r, hc, _⟩ := move_construct_valid E Ts hx (hs x hm)
    exact ⟨_, hc, by simp [Op.grows]⟩
  | assign_copy this rhs =>
    obtain ⟨a, ha, hma⟩ := exists_of_lt (s := s) hop.1
    obtain ⟨x, hx, hmx⟩ := exists_of_lt (s := s) hop.2
    by_cases hne : this = rhs
    · subst hne
      rcases h with h | h
      · exact absurd rfl h
      · rcases hs a hma with he | ⟨T, hT, v, hh⟩
        · exact ⟨_, assign_copy_self_empty E Ts ha he, by simp [Op.grows]⟩
        · obtain ⟨v2, hv2⟩ := Option.isSome_iff_exists.mp (h T hT v)
          exact ⟨_, (assign_copy_self_holds E Ts hT ha hh).1 v2 hv2, by simp [Op.grows]⟩
    · obtain ⟨dst, hc, _⟩ := assign_copy_valid E Ts ha (hs a hma) hx (hs x hmx) hne
      exact ⟨_, hc, by simp [Op.grows]⟩
  | assign_move this rhs =>
    obtain ⟨a, ha, hma⟩ := exists_of_lt (s := s) hop.1
    obtain ⟨x, hx, hmx⟩ := exists_of_lt (s := s) hop.2
    by_cases hne : this = rhs
    · subst hne
      rcases hs a hma with he | ⟨T, hT, v, hh⟩
      · exact ⟨_, assign_move_self_empty E Ts ha he, by simp [Op.grows]⟩
      · exact ⟨_, assign_move_self_holds E Ts hT ha hh, by simp [Op.grows]⟩
    · obtain ⟨dst, r, hc, _⟩ := assign_move_valid E Ts ha (hs a hma) hx (hs x hmx) hne
      exact ⟨_, hc, by simp [Op.grows]⟩
  | set this T arg =>
    obtain ⟨a, ha, hma⟩ := exists_of_lt (s := s) hop.1
    obtain ⟨v, hv⟩ := hop.2.2
    subst hv
    exact ⟨_, set_value_valid E Ts ha (hs a hma) T v, by simp [Op.grows]⟩

/-- A sequence of such operations ends well and leaves a store of valid
variants. -/
theorem run_defined (ops : List (Op Ty V)) :
    ∀ s : Store Ty V, (∀ y ∈ s, y.Valid E Ts) → InRange Ts s.length ops →
      ((∀ op ∈ ops, op.NoSelfCopy) ∨
        ∀ T, T ∈ Ts → ∀ v, (E.after_destroy T v).isSome = true) →
      ∃ s2, run E Ts s ops = .ok s2 ∧ ∀ y ∈ s2, y.Valid E Ts := by
  induction ops with
  | nil => intro s hs _ _; exact ⟨s, rfl, hs⟩
  | cons op ops ih =>
    intro s hs hr h
    have hd : op.NoSelfCopy ∨ ∀ T, T ∈ Ts → ∀ v, (E.after_destroy T v).isSome = true := by
      rcases h with h | h
      · exact Or.inl (h op (List.mem_cons_self _ _))
      · exact Or.inr h
    obtain ⟨s1, h1, hl⟩ := step_defined E Ts hs hr.1 hd
    have hv1 := step_valid E Ts hs (Op.InRange.well_typed Ts hr.1) h1
    have h2 : (∀ o ∈ ops, o.NoSelfCopy) ∨
        ∀ T, T ∈ Ts → ∀ v, (E.after_destroy T v).isSome = true := by
      rcases h with h | h
      · exact Or.inl (fun o ho => h o (List.mem_cons_of_mem _ ho))
      · exact Or.inr h
    obtain ⟨s2, h3, hv2⟩ := ih s1 hv1 (by rw [hl]; exact hr.2) h2
    exact ⟨s2, by simp [run, h1, Outcome.andThen, h3], hv2⟩

end Store

end tinyusdz

namespace tinyusdz

namespace variant

variable {Ty V : Type} [DecidableEq Ty]

/-- With a tag other than that of `T`, `get<T>()` returns the reference made from
the null pointer. -/
theorem get_of_tag_ne (E : ValueTypes Ty V) (self : variant Ty V) (T : Ty)
    (h : self.variant_id ≠ E.type_id T) : self.get E T = Ref.null := by
  simp [variant.get, h]

/-- What `is`, `id` and `get` return on a variant with the tag of `T` and a live
`T` of value `v` in the buffer. -/
theorem observe_holds (E : ValueTypes Ty V) (Ts : List Ty) (T : Ty) (v : V) :
    (variant.mk (E.type_id T) (.live ⟨T, v⟩)).is E T = true ∧
    (variant.mk (E.type_id T) (.live ⟨T, v⟩)).id = E.type_id T ∧
    (variant.mk (E.type_id T) (.live ⟨T, v⟩)).get E T = .object v ∧
    (∀ U, U ∈ Ts → E.type_id U ≠ E.type_id T →
      (variant.mk (E.type_id T) (.live ⟨T, v⟩)).is E U = false) ∧
    (∀ U, U ∈ Ts → U ≠ T → (variant.mk (E.type_id T) (.live ⟨T, v⟩)).is E U = false) := by
  refine ⟨?_, rfl, ?_, ?_, ?_⟩
  · simp [variant.is]
  · simp [variant.get]
  · intro U _ hne
    simp [variant.is, Ne.symm hne]
  · intro U _ hne
    have h2 : E.type_id T ≠ E.type_id U := fun e => hne (E.type_id_injective _ _ e.symm)
    simp [variant.is, h2]

/-- C12, amended. Set then get: on a variant that is empty or holds a value of
one of its types, `set<T>(v)` for a type `T` of the variant, with a value `v`
that is no part of the variant, ends well; afterwards `is<T>()` is true, `id()`
is the type id of `T`, `get<T>()` refers to a `T` of value `v`, and `is<U>()` is
false for every type `U` of the variant whose type id is not that of `T`, which
is every type other than `T`. With the reference `get<T>()` to the own payload
of value `v` as argument, the same holds with the value `v2` that is read in
the bytes of the destroyed payload, when they can be read. -/
theorem set_then_get (E : ValueTypes Ty V) (Ts : List Ty) (s : Store Ty V) (this : Nat)
    (self : variant Ty V) (hs : s[this]? = some self) (hself : self.Valid E Ts) (T : Ty)
    (hT : T ∈ Ts) :
    (∀ v, ∃ s2 after, variant.set E Ts T (.value v) s this = .ok s2 ∧
      s2[this]? = some after ∧
      after.is E T = true ∧ after.id = E.type_id T ∧ after.get E T = .object v ∧
      (∀ U, U ∈ Ts → E.type_id U ≠ E.type_id T → after.is E U = false) ∧
      (∀ U, U ∈ Ts → U ≠ T → after.is E U = false)) ∧
    (∀ v v2, self.Holds E T v → E.after_destroy T v = some v2 →
      ∃ s2 after, variant.set E Ts T .own_payload s this = .ok s2 ∧
        s2[this]? = some after ∧
        after.is E T = true ∧ after.id = E.type_id T ∧ after.get E T = .object v2 ∧
        (∀ U, U ∈ Ts → E.type_id U ≠ E.type_id T → after.is E U = false) ∧
        (∀ U, U ∈ Ts → U ≠ T → after.is E U = false)) := by
  have hlt : this < s.length := Store.lt_of_getElem? hs
  constructor
  · intro v
    exact ⟨_, _, Store.set_value_valid E Ts hs hself T v, List.getElem?_set_self hlt,
      observe_holds E Ts T v⟩
  · intro v v2 hh hd
    exact ⟨_, _, (Store.set_own_payload_holds E Ts hT hs hh).1 v2 hd,
      List.getElem?_set_self hlt, observe_holds E Ts T v2⟩

/-- C12, an instance: `set<int>(5)` on the empty `variant<int, float, string>`,
and `set<string>(get<string>())` on one that holds a `string` kept in place. -/
theorem set_then_get_witness :
    (∃ s2 after, variant.set sampleTypes sampleTs .int (.value 5) [variant.ctor sampleTypes] 0
        = .ok s2 ∧ s2[0]? = some after ∧
      after.is sampleTypes .int = true ∧ after.id = sampleTypes.type_id .int ∧
      after.get sampleTypes .int = .object 5 ∧
      (∀ U, U ∈ sampleTs → sampleTypes.type_id U ≠ sampleTypes.type_id .int →
        after.is sampleTypes U = false) ∧
      (∀ U, U ∈ sampleTs → U ≠ .int → after.is sampleTypes U = false)) ∧
    (∃ s2 after, variant.set sampleTypes sampleTs .string .own_payload
        [⟨3, .live ⟨.string, 7⟩⟩] 0 = .ok s2 ∧ s2[0]? = some after ∧
      after.is sampleTypes .string = true ∧ after.id = sampleTypes.type_id .string ∧
      after.get sampleTypes .string = .object 7 ∧
      (∀ U, U ∈ sampleTs → sampleTypes.type_id U ≠ sampleTypes.type_id .string →
        after.is sampleTypes U = false) ∧
      (∀ U, U ∈ sampleTs → U ≠ .string → after.is sampleTypes U = false)) :=
  ⟨(set_then_get sampleTypes sampleTs [variant.ctor sampleTypes] 0 (variant.ctor sampleTypes)
      rfl (Or.inl ⟨rfl, rfl⟩) .int (by decide)).1 5,
   (set_then_get sampleTypes sampleTs [⟨3, .live ⟨.string, 7⟩⟩] 0 ⟨3, .live ⟨.string, 7⟩⟩
      rfl (Or.inr ⟨.string, by decide, 7, rfl, rfl⟩) .string (by decide)).2 7 7 ⟨rfl, rfl⟩
      (by decide)⟩

/-- C12 as stated fails: a new variant is given a `string` with heap storage by
`set<string>`; then `set<string>(get<string>())` on it destroys the string and
builds the new one from the destroyed one, whose characters have been released:
the call does not end with a variant from which `get<string>()` returns the
value passed. -/
theorem set_then_get_counterexample :
    Store.run sampleTypes sampleTs [] [.construct, .set 0 .string (.value 100)]
      = .ok [⟨3, .live ⟨.string, 100⟩⟩] ∧
    (variant.mk 3 (.live ⟨SampleType.string, 100⟩)).get sampleTypes .string = .object 100 ∧
    variant.set sampleTypes sampleTs .string .own_payload [⟨3, .live ⟨.string, 100⟩⟩] 0
      = .undefined_behavior := by
  decide

/-- C13, amended. Wrong tag: on a variant whose tag is not the type id of `T`,
the empty variant included, `is<T>()` is false and `get<T>()` returns the
reference made from the null pointer: it refers neither to a `T` in the buffer
nor to the buffer read as a `T`. -/
theorem wrong_tag_null (E : ValueTypes Ty V) (self : variant Ty V) (T : Ty)
    (h : self.variant_id ≠ E.type_id T) :
    self.is E T = false ∧ self.get E T = Ref.null ∧
    (∀ v, self.get E T ≠ Ref.object v) ∧ self.get E T ≠ Ref.reinterpreted := by
  have e := get_of_tag_ne E self T h
  refine ⟨by simp [variant.is, h], e, fun v => ?_, ?_⟩
  · rw [e]; exact fun c => by cases c
  · rw [e]; exact fun c => by cases c

/-- C13, an instance: `get<int>()` on a variant that holds a `float`. -/
theorem wrong_tag_null_witness :
    (variant.mk 2 (.live ⟨SampleType.float, 7⟩)).is sampleTypes .int = false ∧
    (variant.mk 2 (.live ⟨SampleType.float, 7⟩)).get sampleTypes .int = Ref.null ∧
    (∀ v, (variant.mk 2 (.live ⟨SampleType.float, 7⟩)).get sampleTypes .int ≠ Ref.object v) ∧
    (variant.mk 2 (.live ⟨SampleType.float, 7⟩)).get sampleTypes .int ≠ Ref.reinterpreted :=
  wrong_tag_null sampleTypes ⟨2, .live ⟨.float, 7⟩⟩ .int (by decide)

/-- C13 as stated fails: on the empty variant `get<int>()` signals no failure;
it returns a reference, the one made from the null pointer. -/
theorem wrong_tag_null_counterexample :
    (variant.ctor sampleTypes).is sampleTypes .int = false ∧
    (variant.ctor sampleTypes).get sampleTypes .int = Ref.null := by
  decide

end variant

namespace Store

variable {Ty V : Type} [DecidableEq Ty]

omit [DecidableEq Ty] in
/-- A variant that holds the moved-from value of `T`, under the tag of `T`. -/
theorem holds_moved_from (E : ValueTypes Ty V) (T : Ty) (v : V) :
    (variant.mk (E.type_id T) (.live ⟨T, E.moved_from T v⟩)).Holds E T (E.moved_from T v) ∧
    (variant.mk (E.type_id T) (.live ⟨T, E.moved_from T v⟩)).is E T = true ∧
    (variant.mk (E.type_id T) (.live ⟨T, E.moved_from T v⟩)).id = E.type_id T ∧
    (variant.mk (E.type_id T) (.live ⟨T, E.moved_from T v⟩)).id ≠ variant.invalid_type E := by
  refine ⟨⟨rfl, rfl⟩, by simp [variant.is], rfl, ?_⟩
  exact E.type_id_ne_void T

/-- C14, amended. A move keeps the tag of the source: when the variant in cell
`src` holds the value `v` of a type `T` of the variant, after move construction
of a new variant from it, and after move assignment from it to another valid
variant, the destination holds `v` under the tag of `T`, and the source still
has the tag of `T` (`is<T>()` is true, `id()` is the type id of `T`, which is
not the invalid id) and holds the moved-from value of type `T`. -/
theorem move_keeps_source_tag (E : ValueTypes Ty V) (Ts : List Ty) (s : Store Ty V)
    (src : Nat) (x : variant Ty V) (T : Ty) (v : V)
    (hx : s[src]? = some x) (hT : T ∈ Ts) (hh : x.Holds E T v) :
    (∃ s2, move_construct E Ts s src = .ok s2 ∧
      (∃ dst, s2[s.length]? = some dst ∧ dst.Holds E T v) ∧
      (∃ r, s2[src]? = some r ∧ r.Holds E T (E.moved_from T v) ∧ r.is E T = true ∧
        r.id = E.type_id T ∧ r.id ≠ variant.invalid_type E)) ∧
    (∀ this a, this ≠ src → s[this]? = some a → a.Valid E Ts →
      ∃ s2, assign_move E Ts s this src = .ok s2 ∧
        (∃ dst, s2[this]? = some dst ∧ dst.Holds E T v) ∧
        (∃ r, s2[src]? = some r ∧ r.Holds E T (E.moved_from T v) ∧ r.is E T = true ∧
          r.id = E.type_id T ∧ r.id ≠ variant.invalid_type E)) := by
  have hv : x.Valid E Ts := Or.inr ⟨T, hT, v, hh⟩
  have hlt : src < s.length := lt_of_getElem? hx
  constructor
  · obtain ⟨dst, r, hc, _, _, _, hd⟩ := move_construct_valid E Ts hx hv
    obtain ⟨e1, e2⟩ := hd T v hh
    subst e1 e2
    refine ⟨_, hc, ⟨dst, ?_, hh⟩, ⟨_, ?_, holds_moved_from E T v⟩⟩
    · have hl : s.length = (s.set src ⟨E.type_id T, .live ⟨T, E.moved_from T v⟩⟩).length := by
        simp
      rw [hl]
      exact List.getElem?_concat_length _ _
    · rw [List.getElem?_append_left (by simpa using hlt), List.getElem?_set_self hlt]
  · intro this a hne ha hav
    have hlt2 : this < s.length := lt_of_getElem? ha
    obtain ⟨dst, r, hc, _, _, _, hd⟩ := assign_move_valid E Ts ha hav hx hv hne
    obtain ⟨e1, e2⟩ := hd T v hh
    subst e1 e2
    refine ⟨_, hc, ⟨dst, ?_, hh⟩, ⟨_, ?_, holds_moved_from E T v⟩⟩
    · rw [List.getElem?_set_ne (Ne.symm hne), List.getElem?_set_self hlt2]
    · rw [List.getElem?_set_self (by simpa using hlt)]

/-- C14, an instance: a `string` of value 7 in cell 0, an empty variant in
cell 1; move construction from cell 0 and move assignment of cell 1 from
cell 0. -/
theorem move_keeps_source_tag_witness :
    (∃ s2, move_construct sampleTypes sampleTs
        [⟨3, .live ⟨.string, 7⟩⟩, variant.ctor sampleTypes] 0 = .ok s2 ∧
      (∃ dst, s2[2]? = some dst ∧ dst.Holds sampleTypes .string 7) ∧
      (∃ r, s2[0]? = some r ∧ r.is sampleTypes .string = true)) ∧
    (∃ s2, assign_move sampleTypes sampleTs
        [⟨3, .live ⟨.string, 7⟩⟩, variant.ctor sampleTypes] 1 0 = .ok s2 ∧
      (∃ dst, s2[1]? = some dst ∧ dst.Holds sampleTypes .string 7) ∧
      (∃ r, s2[0]? = some r ∧ r.is sampleTypes .string = true)) := by
  have h := move_keeps_source_tag sampleTypes sampleTs
    [⟨3, .live ⟨.string, 7⟩⟩, variant.ctor sampleTypes] 0 ⟨3, .live ⟨.string, 7⟩⟩ .string 7
    rfl (by decide) ⟨rfl, rfl⟩
  constructor
  · obtain ⟨s2, h1, h2, r, h3, _, h4, _⟩ := h.1
    exact ⟨s2, h1, h2, r, h3, h4⟩
  · obtain ⟨s2, h1, h2, r, h3, _, h4, _⟩ :=
      h.2 1 (variant.ctor sampleTypes) (by decide) rfl (Or.inl ⟨rfl, rfl⟩)
    exact ⟨s2, h1, h2, r, h3, h4⟩

/-- C14 as stated fails: after move construction from a variant holding a
`string`, the source is not in the empty state: `is<string>()` is true and
`id()` is the id of `string`, not the invalid id. -/
theorem move_keeps_source_tag_counterexample :
    move_construct sampleTypes sampleTs [⟨3, .live ⟨.string, 7⟩⟩] 0
      = .ok [⟨3, .live ⟨.string, 0⟩⟩, ⟨3, .live ⟨.string, 7⟩⟩] ∧
    (variant.mk 3 (.live ⟨SampleType.string, 0⟩)).is sampleTypes .string = true ∧
    (variant.mk 3 (.live ⟨SampleType.string, 0⟩)).id ≠ variant.invalid_type sampleTypes := by
  decide

/-- C15. A copy keeps tag and payload: for a valid variant in cell `src` (empty
or holding a value), the variant built from it by copy construction, and
another valid variant after copy assignment from it, has the `id()` of the
source and, when the source holds `v` of type `T`, a `get<T>()` that refers to
a `T` of value `v`; the source is as before, and it is still as before after a
later `set` on the copy. -/
theorem copy_preserves (E : ValueTypes Ty V) (Ts : List Ty) (s : Store Ty V)
    (src : Nat) (x : variant Ty V) (hx : s[src]? = some x) (hv : x.Valid E Ts) :
    (∃ s2, copy_construct E Ts s src = .ok s2 ∧
      ∃ dst, s2[s.length]? = some dst ∧ dst.id = x.id ∧
        (∀ T v, x.Holds E T v → dst.get E T = .object v) ∧
        s2[src]? = some x ∧
        (∀ U, U ∈ Ts → ∀ w, ∃ s3, set_value E Ts s2 s.length U (.value w) = .ok s3 ∧
          s3[src]? = some x)) ∧
    (∀ this a, this ≠ src → s[this]? = some a → a.Valid E Ts →
      ∃ s2, assign_copy E Ts s this src = .ok s2 ∧
        ∃ dst, s2[this]? = some dst ∧ dst.id = x.id ∧
          (∀ T v, x.Holds E T v → dst.get E T = .object v) ∧
          s2[src]? = some x ∧
          (∀ U, U ∈ Ts → ∀ w, ∃ s3, set_value E Ts s2 this U (.value w) = .ok s3 ∧
            s3[src]? = some x)) := by
  have hlt : src < s.length := lt_of_getElem? hx
  constructor
  · obtain ⟨dst, hc, hid, hdv, hdx⟩ := copy_construct_valid E Ts hx hv
    have hd : (s ++ [dst])[s.length]? = some dst := List.getElem?_concat_length _ _
    have hs : (s ++ [dst])[src]? = some x := by
      rw [List.getElem?_append_left hlt]; exact hx
    refine ⟨_, hc, dst, hd, hid, fun T v h => ?_, hs, fun U _ w => ?_⟩
    · rw [hdx T v h]; exact variant.get_holds E h
    · refine ⟨_, set_value_valid E Ts hd hdv U w, ?_⟩
      rw [List.getElem?_set_ne (Nat.ne_of_gt hlt)]
      exact hs
  · intro this a hne ha hav
    have hlt2 : this < s.length := lt_of_getElem? ha
    obtain ⟨dst, hc, hid, hdv, hdx⟩ := assign_copy_valid E Ts ha hav hx hv hne
    have hd : (s.set this dst)[this]? = some dst := List.getElem?_set_self hlt2
    have hs : (s.set this dst)[src]? = some x := by
      rw [List.getElem?_set_ne hne]; exact hx
    refine ⟨_, hc, dst, hd, hid, fun T v h => ?_, hs, fun U _ w => ?_⟩
    · rw [hdx T v h]; exact variant.get_holds E h
    · refine ⟨_, set_value_valid E Ts hd hdv U w, ?_⟩
      rw [List.getElem?_set_ne hne]
      exact hs

/-- C15, an instance: an `int` of value 5 in cell 0, an empty variant in cell 1;
copy construction from cell 0 and copy assignment of cell 1 from cell 0. -/
theorem copy_preserves_witness :
    (∃ s2, copy_construct sampleTypes sampleTs
        [⟨1, .live ⟨.int, 5⟩⟩, variant.ctor sampleTypes] 0 = .ok s2 ∧
      ∃ dst, s2[2]? = some dst ∧ dst.id = 1 ∧ dst.get sampleTypes .int = .object 5 ∧
        s2[0]? = some ⟨1, .live ⟨.int, 5⟩⟩) ∧
    (∃ s2, assign_copy sampleTypes sampleTs
        [⟨1, .live ⟨.int, 5⟩⟩, variant.ctor sampleTypes] 1 0 = .ok s2 ∧
      ∃ dst, s2[1]? = some dst ∧ dst.id = 1 ∧ dst.get sampleTypes .int = .object 5 ∧
        s2[0]? = some ⟨1, .live ⟨.int, 5⟩⟩) := by
  have h := copy_preserves sampleTypes sampleTs
    [⟨1, .live ⟨.int, 5⟩⟩, variant.ctor sampleTypes] 0 ⟨1, .live ⟨.int, 5⟩⟩ rfl
    (Or.inr ⟨.int, by decide, 5, rfl, rfl⟩)
  constructor
  · obtain ⟨s2, h1, dst, h2, h3, h4, h5, _⟩ := h.1
    exact ⟨s2, h1, dst, h2, h3, h4 .int 5 ⟨rfl, rfl⟩, h5⟩
  · obtain ⟨s2, h1, dst, h2, h3, h4, h5, _⟩ :=
      h.2 1 (variant.ctor sampleTypes) (by decide) rfl (Or.inl ⟨rfl, rfl⟩)
    exact ⟨s2, h1, dst, h2, h3, h4 .int 5 ⟨rfl, rfl⟩, h5⟩

end Store

end tinyusdz

namespace tinyusdz

namespace Store

variable {Ty V : Type} [DecidableEq Ty]

/-- C16, amended. The tag/payload invariant: every variant of a store reached
from nothing by a sequence of `set<T>`, copy construction, move construction,
copy assignment and move assignment that ends without undefined behaviour,
moved-from sources and self-assigned variants included, is empty or holds
exactly one live value of the type of the variant that its tag names. A
sequence on existing variants, with values that are no part of a variant as
arguments of `set`, ends so whenever no copy assignment is one of a variant to
itself, and also with such copy assignments when the destructors of the types
of the variant leave what they destroy readable. -/
theorem tag_payload_invariant (E : ValueTypes Ty V) (Ts : List Ty) (ops : List (Op Ty V)) :
    (∀ s, (∀ op ∈ ops, op.WellTyped Ts) → run E Ts [] ops = .ok s →
      ∀ y ∈ s, y.Valid E Ts) ∧
    (InRange Ts 0 ops → (∀ op ∈ ops, op.NoSelfCopy) →
      ∃ s, run E Ts [] ops = .ok s ∧ ∀ y ∈ s, y.Valid E Ts) ∧
    (InRange Ts 0 ops → (∀ T, T ∈ Ts → ∀ v, (E.after_destroy T v).isSome = true) →
      ∃ s, run E Ts [] ops = .ok s ∧ ∀ y ∈ s, y.Valid E Ts) := by
  have h0 : ∀ y ∈ ([] : Store Ty V), y.Valid E Ts := fun y hy => by cases hy
  refine ⟨fun s hw h => run_valid E Ts ops [] s h0 hw h, fun hr hn => ?_, fun hr hd => ?_⟩
  · exact run_defined E Ts ops [] h0 hr (Or.inl hn)
  · exact run_defined E Ts ops [] h0 hr (Or.inr hd)

/-- C16, instances: on a new `variant<int, float, string>`, a `string` kept in
place is set, copy-assigned to itself, move-assigned to itself and set from its
own payload; a program with a `string` with heap storage that is copied, moved
and move-assigned to itself; and on a `variant<int, float>` a program with
copy and move assignments of a variant to itself. -/
theorem tag_payload_invariant_witness :
    (∀ y ∈ [(⟨3, .live ⟨.string, 0⟩⟩ : variant SampleType Nat)],
      y.Valid sampleTypes sampleTs) ∧
    (∃ s, run sampleTypes sampleTs []
        [.construct, .set 0 .string (.value 100), .copy_construct 0, .move_construct 0,
          .construct, .assign_copy 3 1, .assign_move 3 2, .assign_move 1 1] = .ok s ∧
      ∀ y ∈ s, y.Valid sampleTypes sampleTs) ∧
    (∃ s, run sampleTypes [.int, .float] []
        [.construct, .set 0 .int (.value 5), .assign_copy 0 0, .assign_move 0 0] = .ok s ∧
      ∀ y ∈ s, y.Valid sampleTypes [.int, .float]) :=
  ⟨(tag_payload_invariant sampleTypes sampleTs
      [.construct, .set 0 .string (.value 7), .assign_copy 0 0, .assign_move 0 0,
        .set 0 .string .own_payload]).1 [⟨3, .live ⟨.string, 0⟩⟩]
      (by simp [Op.WellTyped, sampleTs]) (by decide),
   (tag_payload_invariant sampleTypes sampleTs
      [.construct, .set 0 .string (.value 100), .copy_construct 0, .move_construct 0,
        .construct, .assign_copy 3 1, .assign_move 3 2, .assign_move 1 1]).2.1
      (by simp [InRange, Op.InRange, Op.grows, sampleTs])
      (by simp [Op.NoSelfCopy]),
   (tag_payload_invariant sampleTypes [.int, .float]
      [.construct, .set 0 .int (.value 5), .assign_copy 0 0, .assign_move 0 0]).2.2
      (by simp [InRange, Op.InRange, Op.grows])
      (by intro T hT v; cases T <;> simp [sampleTypes] at hT ⊢)⟩

/-- C16 as stated fails: a new variant is given a `string` with heap storage by
`set<string>`, and is then copy-assigned to itself: `operator=` first destroys
the string, which leaves the tag of `string` on a buffer without live string,
and then builds the copy from the destroyed string, whose characters have been
released. The assignment does not end with a live `string` in the buffer. -/
theorem tag_payload_invariant_counterexample :
    run sampleTypes sampleTs [] [.construct, .set 0 .string (.value 100)]
      = .ok [⟨3, .live ⟨.string, 100⟩⟩] ∧
    variant_helper.destroy sampleTypes sampleTs 3 0 [⟨3, .live ⟨.string, 100⟩⟩]
      = .ok [⟨3, .destroyed ⟨.string, 100⟩⟩] ∧
    (Buffer.destroyed ⟨SampleType.string, 100⟩ : Buffer SampleType Nat).read sampleTypes
      = none ∧
    run sampleTypes sampleTs [] [.construct, .set 0 .string (.value 100), .assign_copy 0 0]
      = .undefined_behavior := by
  decide

end Store

end tinyusdz

/-! ## The size of the variant buffer -/

namespace tinyusdz

theorem static_max_mem (arg : Nat) (others : List Nat) :
    static_max arg others ∈ arg :: others := by
  induction others generalizing arg with
  | nil => simp [static_max]
  | cons a others ih =>
    unfold static_max
    split
    · rcases List.mem_cons.mp (ih arg) with h | h
      · rw [h]; simp
      · exact List.mem_cons_of_mem _ (List.mem_cons_of_mem _ h)
    · exact List.mem_cons_of_mem _ (ih a)

theorem le_static_max_self (arg : Nat) (others : List Nat) : arg ≤ static_max arg others := by
  induction others generalizing arg with
  | nil => simp [static_max]
  | cons a others ih =>
    unfold static_max
    split
    · exact ih arg
    · exact le_trans (by omega) (ih a)

theorem le_static_max (arg : Nat) (others : List Nat) :
    ∀ x ∈ arg :: others, x ≤ static_max arg others := by
  induction others generalizing arg with
  | nil => intro x hx; simp at hx; simp [static_max, hx]
  | cons a others ih =>
    intro x hx
    unfold static_max
    rcases List.mem_cons.mp hx with h | h
    · subst h
      split
      · exact le_static_max_self _ _
      · exact le_trans (by omega) (le_static_max_self a others)
    · split
      · rename_i hge
        rcases List.mem_cons.mp h with h2 | h2
        · subst h2
          exact le_trans hge (le_static_max_self _ _)
        · exact ih arg x (List.mem_cons_of_mem _ h2)
      · exact ih a x h

theorem static_max_eq_foldl (arg : Nat) (others : List Nat) :
    static_max arg others = others.foldl max arg := by
  induction others generalizing arg with
  | nil => rfl
  | cons a others ih =>
    unfold static_max
    rw [List.foldl_cons]
    split
    · rename_i h
      rw [ih, Nat.max_eq_left h]
    · rename_i h
      rw [ih, Nat.max_eq_right (by omega)]

/-- C21. The variant buffer fits every registered type: `static_max` of a
non-empty list of numbers is an element of the list and no element is larger,
so it is the maximum of the list; hence, for a variant with at least one type,
`data_size` and `data_align` are at least the size and the alignment of every
type of the variant, and each is the size, respectively the alignment, of one
of its types. -/
theorem buffer_fits_every_type {Ty : Type} (arg : Nat) (others : List Nat)
    (L : TypeLayout Ty) (T : Ty) (Ts : List Ty) :
    (static_max arg others ∈ arg :: others ∧
      (∀ x ∈ arg :: others, x ≤ static_max arg others) ∧
      static_max arg others = others.foldl max arg) ∧
    ∃ size align,
      variant.data_size L (T :: Ts) = some size ∧
      variant.data_align L (T :: Ts) = some align ∧
      (∀ U ∈ T :: Ts, L.sizeof U ≤ size ∧ L.alignof U ≤ align) ∧
      (∃ U ∈ T :: Ts, L.sizeof U = size) ∧
      (∃ U ∈ T :: Ts, L.alignof U = align) := by
  refine ⟨⟨static_max_mem arg others, le_static_max arg others,
    static_max_eq_foldl arg others⟩, _, _, rfl, rfl, fun U hU => ⟨?_, ?_⟩, ?_, ?_⟩
  · exact le_static_max _ _ (L.sizeof U) (by
      rw [← List.map_cons L.sizeof]; exact List.mem_map_of_mem _ hU)
  · exact le_static_max _ _ (L.alignof U) (by
      rw [← List.map_cons L.alignof]; exact List.mem_map_of_mem _ hU)
  · have h := static_max_mem (L.sizeof T) (Ts.map L.sizeof)
    rw [← List.map_cons L.sizeof] at h
    obtain ⟨U, hU, e⟩ := List.mem_map.mp h
    exact ⟨U, hU, e⟩
  · have h := static_max_mem (L.alignof T) (Ts.map L.alignof)
    rw [← List.map_cons L.alignof] at h
    obtain ⟨U, hU, e⟩ := List.mem_map.mp h
    exact ⟨U, hU, e⟩

/-- C21, an instance: the sizes 4, 4, 32 and the alignments 4, 4, 8 of
`variant<int, float, string>`. -/
theorem buffer_fits_every_type_witness :
    (static_max 4 [4, 32] ∈ 4 :: [4, 32] ∧
      (∀ x ∈ 4 :: [4, 32], x ≤ static_max 4 [4, 32]) ∧
      static_max 4 [4, 32] = [4, 32].foldl max 4) ∧
    ∃ size align,
      variant.data_size sampleLayout (.int :: [.float, .string]) = some size ∧
      variant.data_align sampleLayout (.int :: [.float, .string]) = some align ∧
      (∀ U ∈ SampleType.int :: [.float, .string],
        sampleLayout.sizeof U ≤ size ∧ sampleLayout.alignof U ≤ align) ∧
      (∃ U ∈ SampleType.int :: [.float, .string], sampleLayout.sizeof U = size) ∧
      (∃ U ∈ SampleType.int :: [.float, .string], sampleLayout.alignof U = align) :=
  buffer_fits_every_type 4 [4, 32] sampleLayout .int [.float, .string]

namespace usdc
namespace Writer

variable {Scene : Type}

/-- C23. `Write` never succeeds: `WriteTokens` returns false, so `Write` returns
false, appends a text that is not empty to the error string and leaves the
output stream as it was, header and TOC unwritten; `GetOutput` then returns
false and leaves its output argument as it was. -/
theorem write_never_succeeds (w : Writer Scene) (cfg : BuildConfig) (u : Indeterminate) :
    w.WriteTokens.1 = false ∧
    (w.Write cfg u).1 = false ∧
    (∃ msg, 0 < msg.length ∧ (w.Write cfg u).2.Error = w.Error ++ msg) ∧
    (w.Write cfg u).2.oss_ = w.oss_ ∧
    ∀ output : List Nat, (w.Write cfg u).2.GetOutput output = (false, output) := by
  obtain ⟨msg, hlen, hmsg⟩ := PUSH_ERROR_appends cfg "Write" 288 "Failed to write TOC." w.err_
  refine ⟨rfl, by simp [Write, WriteTokens], ⟨msg, hlen, ?_⟩, by simp [Write, WriteTokens],
    fun output => ?_⟩
  · show (w.Write cfg u).2.Error = w.err_ ++ msg
    rw [← hmsg]
    simp [Write, WriteTokens, Error]
  · unfold GetOutput
    split <;> rfl

end Writer
end usdc

/-! ## Map and sequence of a table -/

namespace usdc
namespace InternTable

variable {K : Type} [DecidableEq K]

theorem Consistent.nodup_intern {t : InternTable K} (h : t.Consistent) (hn : t.seq.Nodup)
    (k : K) : (t.intern k).2.seq.Nodup := by
  by_cases hk : k ∈ t.seq
  · rw [h.intern_of_mem hk]; exact hn
  · rw [h.intern_of_not_mem hk]
    simp [List.nodup_append, hn, hk]

theorem size_intern {t : InternTable K} (h : t.map.size = t.seq.length) (k : K) :
    (t.intern k).2.map.size = (t.intern k).2.seq.length := by
  cases hl : lookup k t.map.entries with
  | some i => rw [intern_of_lookup_some hl]; exact h
  | none =>
    rw [intern_of_lookup_none hl]
    simp only [unordered_map.size] at h ⊢
    simp [h]

/-- The three facts that make map and sequence one bijection are kept by every
sequence of interns. -/
theorem wellformed_internAll (ks : List K) :
    ∀ t : InternTable K, t.Consistent → t.seq.Nodup → t.map.size = t.seq.length →
      (t.internAll ks).Consistent ∧ (t.internAll ks).seq.Nodup ∧
        (t.internAll ks).map.size = (t.internAll ks).seq.length := by
  induction ks with
  | nil => intro t h1 h2 h3; exact ⟨h1, h2, h3⟩
  | cons k ks ih =>
    intro t h1 h2 h3
    exact ih _ (h1.intern k) (h1.nodup_intern h2 k) (size_intern h3 k)

/-- In a consistent table without repetition the key at position `i` has the
32-bit image of `i` as entry. -/
theorem Consistent.lookup_getElem? {t : InternTable K} (h : t.Consistent) (hn : t.seq.Nodup)
    {i : Nat} {k : K} (hk : t.seq[i]? = some k) :
    lookup k t.map.entries = some ⟨uint32_t i⟩ := by
  obtain ⟨hlt, e⟩ := List.getElem?_eq_some.mp hk
  have hm : k ∈ t.seq := List.getElem?_mem hk
  rw [h k, if_pos hm]
  have hi := List.indexOf_getElem hn i hlt
  rw [e] at hi
  rw [hi]

end InternTable

namespace Packer

/-- The last of the tokens `tok 0`, ..., `tok n` sits at position `n` and has
the 32-bit image of `n` as entry. -/
theorem last_token_entry (n : Nat) :
    (empty.run (tokensFrom 0 (n + 1))).tokens_[n]? = some (tok n) ∧
    lookup (tok n) (empty.run (tokensFrom 0 (n + 1))).token_to_index_map.entries
      = some ⟨uint32_t n⟩ := by
  have e : empty.run (tokensFrom 0 (n + 1))
      = ((empty.run (tokensFrom 0 n)).AddToken (tok n)).2 := by
    have h : tokensFrom 0 (n + 1) = tokensFrom 0 n ++ [Op.addToken (tok n)] := by
      simp [tokensFrom, List.range'_concat]
    rw [h, run_append]
    rfl
  rw [e]
  constructor
  · rw [(AddToken_after_tokensFrom n).2]
    have h := List.getElem?_concat_length ((List.range' 0 n).map tok) (tok n)
    rw [List.length_map, List.length_range'] at h
    exact h
  · have h := InternTable.lookup_intern_self (empty.run (tokensFrom 0 n)).tokenTable (tok n)
    rw [← AddToken_table, ← AddToken_fst, (AddToken_after_tokensFrom n).1] at h
    exact h

/-- C24, amended. Map/sequence consistency: in every Packer reachable from the
empty one, `tokens_` holds no key twice, `token_to_index_map` has as many
entries as `tokens_` has elements, and for every position `i < 2 ^ 32` of
`tokens_` the map holds `i` under the key at that position; likewise for the
string, path and field tables. And each `Add` call leaves every member of the
Packer other than the map and the sequence of its own table as it was. -/
theorem map_sequence_consistent (ops : List Op) :
    ((empty.run ops).tokens_.Nodup ∧
      (empty.run ops).token_to_index_map.size = (empty.run ops).tokens_.length ∧
      (∀ (i : Nat) (k : Token), (empty.run ops).tokens_[i]? = some k → i < 2 ^ 32 →
        lookup k (empty.run ops).token_to_index_map.entries = some ⟨i⟩)) ∧
    ((empty.run ops).strings_.Nodup ∧
      (empty.run ops).string_to_index_map.size = (empty.run ops).strings_.length ∧
      (∀ (i : Nat) (k : String), (empty.run ops).strings_[i]? = some k → i < 2 ^ 32 →
        lookup k (empty.run ops).string_to_index_map.entries = some ⟨i⟩)) ∧
    ((empty.run ops).paths_.Nodup ∧
      (empty.run ops).path_to_index_map.size = (empty.run ops).paths_.length ∧
      (∀ (i : Nat) (k : Path), (empty.run ops).paths_[i]? = some k → i < 2 ^ 32 →
        lookup k (empty.run ops).path_to_index_map.entries = some ⟨i⟩)) ∧
    ((empty.run ops).fields_.Nodup ∧
      (empty.run ops).field_to_index_map.size = (empty.run ops).fields_.length ∧
      (∀ (i : Nat) (k : Field), (empty.run ops).fields_[i]? = some k → i < 2 ^ 32 →
        lookup k (empty.run ops).field_to_index_map.entries = some ⟨i⟩)) ∧
    (∀ k : Token, ((empty.run ops).AddToken k).2 =
      { (empty.run ops) with
        token_to_index_map := ((empty.run ops).AddToken k).2.token_to_index_map,
        tokens_ := ((empty.run ops).AddToken k).2.tokens_ }) ∧
    (∀ k : String, ((empty.run ops).AddString k).2 =
      { (empty.run ops) with
        string_to_index_map := ((empty.run ops).AddString k).2.string_to_index_map,
        strings_ := ((empty.run ops).AddString k).2.strings_ }) ∧
    (∀ k : Path, ((empty.run ops).AddPath k).2 =
      { (empty.run ops) with
        path_to_index_map := ((empty.run ops).AddPath k).2.path_to_index_map,
        paths_ := ((empty.run ops).AddPath k).2.paths_ }) ∧
    (∀ k : Field, ((empty.run ops).AddField k).2 =
      { (empty.run ops) with
        field_to_index_map := ((empty.run ops).AddField k).2.field_to_index_map,
        fields_ := ((empty.run ops).AddField k).2.fields_ }) ∧
    (∀ fs : List crate.FieldIndex, ((empty.run ops).AddFieldSet fs).2 =
      { (empty.run ops) with
        fieldset_to_index_map := ((empty.run ops).AddFieldSet fs).2.fieldset_to_index_map,
        fieldsets_ := ((empty.run ops).AddFieldSet fs).2.fieldsets_ }) := by
  refine ⟨?_, ?_, ?_, ?_, ?_, ?_, ?_, ?_, ?_⟩
  · have h := InternTable.wellformed_internAll (ops.filterMap Op.tokenKey)
      empty.tokenTable InternTable.consistent_nil List.nodup_nil rfl
    rw [← tokenTable_run ops empty] at h
    exact ⟨h.2.1, h.2.2, fun i k hk hi => by
      have h2 := InternTable.Consistent.lookup_getElem? h.1 h.2.1 hk
      rw [uint32_t_of_lt hi] at h2
      exact h2⟩
  · have h := InternTable.wellformed_internAll (ops.filterMap Op.stringKey)
      empty.stringTable InternTable.consistent_nil List.nodup_nil rfl
    rw [← stringTable_run ops empty] at h
    exact ⟨h.2.1, h.2.2, fun i k hk hi => by
      have h2 := InternTable.Consistent.lookup_getElem? h.1 h.2.1 hk
      rw [uint32_t_of_lt hi] at h2
      exact h2⟩
  · have h := InternTable.wellformed_internAll (ops.filterMap Op.pathKey)
      empty.pathTable InternTable.consistent_nil List.nodup_nil rfl
    rw [← pathTable_run ops empty] at h
    exact ⟨h.2.1, h.2.2, fun i k hk hi => by
      have h2 := InternTable.Consistent.lookup_getElem? h.1 h.2.1 hk
      rw [uint32_t_of_lt hi] at h2
      exact h2⟩
  · have h := InternTable.wellformed_internAll (ops.filterMap Op.fieldKey)
      empty.fieldTable InternTable.consistent_nil List.nodup_nil rfl
    rw [← fieldTable_run ops empty] at h
    exact ⟨h.2.1, h.2.2, fun i k hk hi => by
      have h2 := InternTable.Consistent.lookup_getElem? h.1 h.2.1 hk
      rw [uint32_t_of_lt hi] at h2
      exact h2⟩
  · intro k
    rw [AddToken_eq]
  · intro k
    rw [AddString_eq]
  · intro k
    rw [AddPath_eq]
  · intro k
    rw [AddField_eq]
  · intro fs
    cases h : lookup fs (empty.run ops).fieldset_to_index_map.entries with
    | some i => rw [AddFieldSet_of_lookup_some h]
    | none => rw [AddFieldSet_of_lookup_none h]

/-- C24, an instance: after `sampleOps` the key at position 0 of each table has
the entry 0. -/
theorem map_sequence_consistent_witness :
    lookup (tok 0) (empty.run sampleOps).token_to_index_map.entries = some ⟨0⟩ ∧
    lookup "a" (empty.run sampleOps).string_to_index_map.entries = some ⟨0⟩ ∧
    lookup ⟨"/a", none⟩ (empty.run sampleOps).path_to_index_map.entries = some ⟨0⟩ ∧
    lookup ⟨⟨0⟩, ⟨0⟩⟩ (empty.run sampleOps).field_to_index_map.entries = some ⟨0⟩ :=
  ⟨(map_sequence_consistent sampleOps).1.2.2 0 (tok 0) rfl (by decide),
   (map_sequence_consistent sampleOps).2.1.2.2 0 "a" rfl (by decide),
   (map_sequence_consistent sampleOps).2.2.1.2.2 0 ⟨"/a", none⟩ rfl (by decide),
   (map_sequence_consistent sampleOps).2.2.2.1.2.2 0 ⟨⟨0⟩, ⟨0⟩⟩ rfl (by decide)⟩

/-- C24 as stated fails: after `AddToken (tok 0)`, ..., `AddToken (tok (2 ^ 32))`
position `2 ^ 32` of `tokens_` holds `tok (2 ^ 32)`, and the map holds 0 under
that key, not `2 ^ 32`. -/
theorem map_sequence_consistent_counterexample :
    (empty.run (tokensFrom 0 (2 ^ 32 + 1))).tokens_[2 ^ 32]? = some (tok (2 ^ 32)) ∧
    lookup (tok (2 ^ 32)) (empty.run (tokensFrom 0 (2 ^ 32 + 1))).token_to_index_map.entries
      = some ⟨0⟩ := by
  have h := last_token_entry (2 ^ 32)
  refine ⟨h.1, ?_⟩
  rw [h.2]
  decide

/-! ### The flattened fieldset array -/

theorem flattenSpans_append (spans : List (List crate.FieldIndex))
    (fs : List crate.FieldIndex) :
    flattenSpans (spans ++ [fs]) = flattenSpans spans ++ fs ++ [crate.Index.dflt] := by
  induction spans with
  | nil => simp [flattenSpans]
  | cons sp rest ih => simp [flattenSpans, ih, List.append_assoc]

theorem length_flattenSpans_cons (sp : List crate.FieldIndex)
    (rest : List (List crate.FieldIndex)) :
    (flattenSpans (sp :: rest)).length = sp.length + 1 + (flattenSpans rest).length := by
  simp [flattenSpans]
  omega

theorem spanEntries_append (spans : List (List crate.FieldIndex))
    (fs : List crate.FieldIndex) :
    ∀ s : Nat, spanEntries (spans ++ [fs]) s =
      spanEntries spans s ++ [(fs, ⟨uint32_t (s + (flattenSpans spans).length)⟩)] := by
  induction spans with
  | nil => intro s; simp [spanEntries, flattenSpans]
  | cons sp rest ih =>
    intro s
    have e : s + sp.length + 1 + (flattenSpans rest).length
        = s + (flattenSpans (sp :: rest)).length := by
      rw [length_flattenSpans_cons]; omega
    show (sp, _) :: spanEntries (rest ++ [fs]) (s + sp.length + 1) = _
    rw [ih, e]
    rfl

/-- What a call does to the fieldset map and the flattened array: nothing, or,
for `AddFieldSet` of a fieldset without entry, one entry and one span added at
the end. -/
theorem fieldset_step (p : Packer) (op : Op) :
    ((p.step op).fieldset_to_index_map = p.fieldset_to_index_map ∧
      (p.step op).fieldsets_ = p.fieldsets_) ∨
    ∃ fs, op = Op.addFieldSet fs ∧ lookup fs p.fieldset_to_index_map.entries = none ∧
      (p.step op).fieldset_to_index_map =
        ⟨p.fieldset_to_index_map.entries ++ [(fs, ⟨uint32_t p.fieldsets_.length⟩)]⟩ ∧
      (p.step op).fieldsets_ = p.fieldsets_ ++ fs ++ [crate.Index.dflt] := by
  cases op with
  | addToken t => left; simp [step, AddToken_eq]
  | addString t => left; simp [step, AddString_eq]
  | addPath t => left; simp [step, AddPath_eq]
  | addField t => left; simp [step, AddField_eq]
  | addFieldSet fs =>
    cases h : lookup fs p.fieldset_to_index_map.entries with
    | some i => left; simp [step, AddFieldSet_of_lookup_some h]
    | none =>
      right
      refine ⟨fs, rfl, h, ?_, ?_⟩
      · simp [step, AddFieldSet_of_lookup_none h]
      · simp [step, AddFieldSet_of_lookup_none h]

theorem spanConsistent_empty : empty.SpanConsistent := ⟨[], rfl, rfl⟩

theorem spanConsistent_step {p : Packer} (h : p.SpanConsistent) (op : Op) :
    (p.step op).SpanConsistent := by
  obtain ⟨spans, h1, h2⟩ := h
  rcases fieldset_step p op with ⟨e1, e2⟩ | ⟨fs, _, _, e1, e2⟩
  · exact ⟨spans, by rw [e1]; exact h1, by rw [e2]; exact h2⟩
  · refine ⟨spans ++ [fs], ?_, ?_⟩
    · rw [e1, spanEntries_append, h1, h2]
      simp
    · rw [e2, flattenSpans_append, h2]

theorem spanConsistent_run (ops : List Op) :
    ∀ p : Packer, p.SpanConsistent → (p.run ops).SpanConsistent := by
  induction ops with
  | nil => intro p h; exact h
  | cons op ops ih => intro p h; exact ih _ (spanConsistent_step h op)

/-- The flattened array only grows at its end. -/
theorem fieldsets_run_extends (ops : List Op) :
    ∀ p : Packer, ∃ l, (p.run ops).fieldsets_ = p.fieldsets_ ++ l := by
  induction ops with
  | nil => intro p; exact ⟨[], by simp [run]⟩
  | cons op ops ih =>
    intro p
    obtain ⟨l2, h2⟩ := ih (p.step op)
    rcases fieldset_step p op with ⟨_, e2⟩ | ⟨fs, _, _, _, e2⟩
    · exact ⟨l2, by rw [← e2]; exact h2⟩
    · refine ⟨fs ++ [crate.Index.dflt] ++ l2, ?_⟩
      have h3 : (p.run (op :: ops)).fieldsets_ = (p.step op).fieldsets_ ++ l2 := h2
      rw [h3, e2]
      simp [List.append_assoc]

/-- An entry of the map names the start of a span of the flattened array that
holds its key followed by the terminator. -/
theorem lookup_spanEntries {fs : List crate.FieldIndex} {i : crate.FieldSetIndex} :
    ∀ (spans : List (List crate.FieldIndex)) (s : Nat),
      lookup fs (spanEntries spans s) = some i →
      ∃ pre post, flattenSpans spans = pre ++ fs ++ [crate.Index.dflt] ++ post ∧
        i = ⟨uint32_t (s + pre.length)⟩ := by
  intro spans
  induction spans with
  | nil => intro s h; simp [spanEntries, lookup] at h
  | cons sp rest ih =>
    intro s h
    by_cases e : sp = fs
    · subst e
      refine ⟨[], flattenSpans rest, by simp [flattenSpans], ?_⟩
      simp [spanEntries, lookup] at h
      simp [h]
    · simp only [spanEntries, lookup, if_neg e] at h
      obtain ⟨pre, post, h1, h2⟩ := ih _ h
      refine ⟨sp ++ [crate.Index.dflt] ++ pre, post, ?_, ?_⟩
      · simp [flattenSpans, h1, List.append_assoc]
      · rw [h2]
        congr 2
        simp
        omega

/-- The position named by an entry lies inside the flattened array, at or
after the start of the first span. -/
theorem lookup_spanEntries_bound {fs : List crate.FieldIndex} {i : crate.FieldSetIndex}
    {spans : List (List crate.FieldIndex)} {s : Nat}
    (h : lookup fs (spanEntries spans s) = some i) :
    ∃ start, s ≤ start ∧ start < s + (flattenSpans spans).length ∧ i = ⟨uint32_t start⟩ := by
  obtain ⟨pre, post, h1, h2⟩ := lookup_spanEntries spans s h
  refine ⟨s + pre.length, by omega, ?_, h2⟩
  rw [h1]
  simp

/-- Two fieldsets with the same entry are the same fieldset, when the flattened
array holds at most `2 ^ 32` elements. -/
theorem spanEntries_injective {fs1 fs2 : List crate.FieldIndex} {i : crate.FieldSetIndex} :
    ∀ (spans : List (List crate.FieldIndex)) (s : Nat),
      s + (flattenSpans spans).length ≤ 2 ^ 32 →
      lookup fs1 (spanEntries spans s) = some i →
      lookup fs2 (spanEntries spans s) = some i → fs1 = fs2 := by
  intro spans
  induction spans with
  | nil => intro s _ h; simp [spanEntries, lookup] at h
  | cons sp rest ih =>
    intro s hlen h1 h2
    rw [length_flattenSpans_cons] at hlen
    by_cases a : sp = fs1
    · by_cases b : sp = fs2
      · rw [← a, ← b]
      · exfalso
        simp only [spanEntries, lookup, if_pos a, if_neg b] at h1 h2
        obtain ⟨start, g1, g2, g3⟩ := lookup_spanEntries_bound h2
        have e1 : i = ⟨uint32_t s⟩ := by simpa using h1.symm
        rw [e1, uint32_t_of_lt (by omega), uint32_t_of_lt (by omega)] at g3
        have e2 : s = start := by simpa using g3
        omega
    · by_cases b : sp = fs2
      · exfalso
        simp only [spanEntries, lookup, if_neg a, if_pos b] at h1 h2
        obtain ⟨start, g1, g2, g3⟩ := lookup_spanEntries_bound h1
        have e1 : i = ⟨uint32_t s⟩ := by simpa using h2.symm
        rw [e1, uint32_t_of_lt (by omega), uint32_t_of_lt (by omega)] at g3
        have e2 : s = start := by simpa using g3
        omega
      · simp only [spanEntries, lookup, if_neg a, if_neg b] at h1 h2
        exact ih _ (by omega) h1 h2

theorem takeWhile_span (fs rest : List crate.FieldIndex) (h : crate.Index.dflt ∉ fs) :
    (fs ++ crate.Index.dflt :: rest).takeWhile (fun x => x != crate.Index.dflt) = fs := by
  induction fs with
  | nil => simp
  | cons a fs ih =>
    have h1 : a ≠ crate.Index.dflt := fun e => h (by rw [e]; exact List.mem_cons_self _ _)
    have h2 : crate.Index.dflt ∉ fs := fun e => h (List.mem_cons_of_mem _ e)
    simp [h1, ih h2]

/-- Reading back at the start of a span gives the fieldset of the span, when the
fieldset does not hold the terminator. -/
theorem readSpan_span (pre fs post : List crate.FieldIndex) (h : crate.Index.dflt ∉ fs) :
    readSpan (pre ++ fs ++ [crate.Index.dflt] ++ post) pre.length = fs := by
  unfold readSpan
  have e : pre ++ fs ++ [crate.Index.dflt] ++ post
      = pre ++ (fs ++ crate.Index.dflt :: post) := by simp [List.append_assoc]
  rw [e, List.drop_left]
  exact takeWhile_span fs post h

/-- Two fieldsets added one after the other to the empty Packer: the second,
when it is not the first, gets the 32-bit image of the length of the first
plus one. -/
theorem AddFieldSet_second (B fs2 : List crate.FieldIndex) (hne : fs2 ≠ B) :
    (empty.AddFieldSet B).1 = ⟨uint32_t 0⟩ ∧
    ((empty.AddFieldSet B).2.AddFieldSet fs2).1 = ⟨uint32_t (B.length + 1)⟩ ∧
    ((empty.AddFieldSet B).2.AddFieldSet fs2).2.fieldsets_
      = B ++ [crate.Index.dflt] ++ fs2 ++ [crate.Index.dflt] := by
  have h0 : lookup B empty.fieldset_to_index_map.entries = none := rfl
  have h1 := @AddFieldSet_of_lookup_none empty B h0
  have h2 : lookup fs2 (empty.AddFieldSet B).2.fieldset_to_index_map.entries = none := by
    rw [h1]
    have : ¬ B = fs2 := fun e => hne e.symm
    simp [lookup, empty, this]
  have h3 := AddFieldSet_of_lookup_none h2
  refine ⟨by rw [h1]; rfl, ?_, ?_⟩
  · rw [h3, h1]
    simp [empty]
  · rw [h3, h1]
    simp [empty]

/-- The same, with the calls written as in a sequence from the empty Packer. -/
theorem AddFieldSet_second_run (B fs2 : List crate.FieldIndex) (hne : fs2 ≠ B) :
    ((empty.run []).AddFieldSet B).1 = ⟨uint32_t 0⟩ ∧
    ((((empty.run []).AddFieldSet B).2.run []).AddFieldSet fs2).1
      = ⟨uint32_t (B.length + 1)⟩ ∧
    ((empty.run [Op.addFieldSet B]).AddFieldSet fs2).1 = ⟨uint32_t (B.length + 1)⟩ ∧
    (((empty.run [Op.addFieldSet B]).AddFieldSet fs2).2.run []).fieldsets_
      = B ++ [crate.Index.dflt] ++ fs2 ++ [crate.Index.dflt] :=
  ⟨(AddFieldSet_second B fs2 hne).1, (AddFieldSet_second B fs2 hne).2.1,
    (AddFieldSet_second B fs2 hne).2.1, (AddFieldSet_second B fs2 hne).2.2⟩

/-- When the 32-bit image of the length of the flattened array is 0, the second
fieldset gets the index of the first, and reading back there gives the first. -/
theorem second_reads_first (B fs2 : List crate.FieldIndex) (hne : fs2 ≠ B)
    (hB : crate.Index.dflt ∉ B) (h0 : uint32_t (B.length + 1) = 0) :
    ((((empty.run []).AddFieldSet B).2.run []).AddFieldSet fs2).1
      = ((empty.run []).AddFieldSet B).1 ∧
    readSpan (((empty.run [Op.addFieldSet B]).AddFieldSet fs2).2.run []).fieldsets_
      ((empty.run [Op.addFieldSet B]).AddFieldSet fs2).1.value = B := by
  obtain ⟨h1, h2, h3, h4⟩ := AddFieldSet_second_run B fs2 hne
  constructor
  · rw [h1, h2, h0]; rfl
  · rw [h3, h4, h0]
    have e := readSpan_span [] B (fs2 ++ [crate.Index.dflt]) hB
    rw [List.append_assoc _ fs2 [crate.Index.dflt]]
    exact e

theorem dflt_not_mem_replicate (n : Nat) :
    crate.Index.dflt ∉ List.replicate n (⟨0⟩ : crate.FieldIndex) := by
  intro h
  have e := (List.mem_replicate.mp h).2
  revert e
  decide

theorem replicate_ne_singleton (n : Nat) :
    List.replicate n (⟨0⟩ : crate.FieldIndex) ≠ [⟨1⟩] := by
  intro h
  have h2 : (⟨1⟩ : crate.FieldIndex) ∈ List.replicate n (⟨0⟩ : crate.FieldIndex) := by
    rw [h]; exact List.mem_singleton.mpr rfl
  have e := (List.mem_replicate.mp h2).2
  revert e
  decide

theorem replicate_ne_nil (n : Nat) (hn : 0 < n) :
    List.replicate n (⟨0⟩ : crate.FieldIndex) ≠ [] := by
  intro h
  have h2 := congrArg List.length h
  rw [List.length_replicate] at h2
  simp at h2
  omega

/-- C22, amended. Distinct fieldsets get distinct indices: in a sequence of
calls from the empty Packer, `AddFieldSet` of a list and a later `AddFieldSet`
of another list return different indices, provided the flattened array holds at
most `2 ^ 32` elements after the later call; and when both lists are seen for
the first time at these calls and the flattened array holds fewer than
`2 ^ 32` elements before the later call, the later index is the larger. -/
theorem fieldset_indices_distinct (ops0 ops1 : List Op) (fs1 fs2 : List crate.FieldIndex)
    (hne : fs1 ≠ fs2) :
    (((((empty.run ops0).AddFieldSet fs1).2.run ops1).AddFieldSet fs2).2.fieldsets_.length
        ≤ 2 ^ 32 →
      ((((empty.run ops0).AddFieldSet fs1).2.run ops1).AddFieldSet fs2).1
        ≠ ((empty.run ops0).AddFieldSet fs1).1) ∧
    (Op.addFieldSet fs1 ∉ ops0 → Op.addFieldSet fs2 ∉ ops0 ++ ops1 →
      (((empty.run ops0).AddFieldSet fs1).2.run ops1).fieldsets_.length < 2 ^ 32 →
      ((empty.run ops0).AddFieldSet fs1).1.value
        < ((((empty.run ops0).AddFieldSet fs1).2.run ops1).AddFieldSet fs2).1.value) := by
  have hc0 : (empty.run ops0).SpanConsistent := spanConsistent_run ops0 empty spanConsistent_empty
  have hc1 : ((empty.run ops0).AddFieldSet fs1).2.SpanConsistent :=
    spanConsistent_step hc0 (.addFieldSet fs1)
  have hcq := spanConsistent_run ops1 _ hc1
  constructor
  · intro hlen heq
    obtain ⟨spans, e1, e2⟩ := spanConsistent_step hcq (.addFieldSet fs2)
    have a1 := lookup_fieldset_step
      (lookup_fieldset_run ops1 (lookup_AddFieldSet_self (empty.run ops0) fs1))
      (.addFieldSet fs2)
    have a2 := lookup_AddFieldSet_self
      (((empty.run ops0).AddFieldSet fs1).2.run ops1) fs2
    rw [heq] at a2
    have hlen2 : 0 + (flattenSpans spans).length ≤ 2 ^ 32 := by
      rw [Nat.zero_add, ← e2]; exact hlen
    have b1 : lookup fs1 (spanEntries spans 0)
        = some ((empty.run ops0).AddFieldSet fs1).1 := by rw [← e1]; exact a1
    have b2 : lookup fs2 (spanEntries spans 0)
        = some ((empty.run ops0).AddFieldSet fs1).1 := by rw [← e1]; exact a2
    exact hne (spanEntries_injective spans 0 hlen2 b1 b2)
  · intro hn1 hn2 hlen
    have h1 : lookup fs1 (empty.run ops0).fieldset_to_index_map.entries = none :=
      lookup_fieldset_none ops0 (p := empty) rfl hn1
    have hq : ((empty.run ops0).AddFieldSet fs1).2.run ops1
        = empty.run (ops0 ++ Op.addFieldSet fs1 :: ops1) := by
      rw [run_append]; rfl
    have hn3 : Op.addFieldSet fs2 ∉ ops0 ++ Op.addFieldSet fs1 :: ops1 := by
      intro h
      rcases List.mem_append.mp h with h | h
      · exact hn2 (List.mem_append_left _ h)
      · rcases List.mem_cons.mp h with h | h
        · exact hne (by injection h with h; exact h.symm)
        · exact hn2 (List.mem_append_right _ h)
    have h2 : lookup fs2
        (((empty.run ops0).AddFieldSet fs1).2.run ops1).fieldset_to_index_map.entries
          = none := by
      rw [hq]; exact lookup_fieldset_none _ (p := empty) rfl hn3
    obtain ⟨l, hl⟩ := fieldsets_run_extends ops1 ((empty.run ops0).AddFieldSet fs1).2
    rw [AddFieldSet_of_lookup_none h2]
    rw [hl] at hlen ⊢
    rw [AddFieldSet_of_lookup_none h1] at hlen ⊢
    simp only [List.length_append, List.length_singleton] at hlen ⊢
    rw [uint32_t_of_lt (by omega), uint32_t_of_lt (by omega)]
    omega

/-- C22, an instance: after `sampleOps` the fieldsets `[1]` and `[]`, both new,
get different indices, the later one the larger. -/
theorem fieldset_indices_distinct_witness :
    ((((empty.run sampleOps).AddFieldSet [⟨1⟩]).2.run []).AddFieldSet []).1
        ≠ ((empty.run sampleOps).AddFieldSet [⟨1⟩]).1 ∧
    ((empty.run sampleOps).AddFieldSet [⟨1⟩]).1.value
        < ((((empty.run sampleOps).AddFieldSet [⟨1⟩]).2.run []).AddFieldSet []).1.value :=
  ⟨(fieldset_indices_distinct sampleOps [] [⟨1⟩] [] (by decide)).1 (by decide),
   (fieldset_indices_distinct sampleOps [] [⟨1⟩] [] (by decide)).2 (by decide) (by decide)
     (by decide)⟩

/-- C22 as stated fails: a fieldset of `2 ^ 32 - 1` field indices and then the
empty fieldset, two different lists added to the empty Packer, get the same
index. -/
theorem fieldset_indices_distinct_counterexample :
    List.replicate (2 ^ 32 - 1) (⟨0⟩ : crate.FieldIndex) ≠ [] ∧
    ((((empty.run []).AddFieldSet (List.replicate (2 ^ 32 - 1) ⟨0⟩)).2.run []).AddFieldSet
        []).1
      = ((empty.run []).AddFieldSet (List.replicate (2 ^ 32 - 1) ⟨0⟩)).1 :=
  ⟨replicate_ne_nil (2 ^ 32 - 1) (by decide),
    (second_reads_first (List.replicate (2 ^ 32 - 1) ⟨0⟩) []
      (Ne.symm (replicate_ne_nil (2 ^ 32 - 1) (by decide)))
      (dflt_not_mem_replicate (2 ^ 32 - 1))
      (by rw [List.length_replicate]; decide)).1⟩

/-- C25, amended. FieldSet read-back: let `i` be the index returned by
`AddFieldSet` of a list without terminator on a Packer reachable from the empty
one, the flattened array holding at most `2 ^ 32` elements after that call.
Then after any further `Add` calls, reading `fieldsets_` from position `i` up to
the first terminator gives that list. -/
theorem fieldset_read_back (ops0 ops1 : List Op) (fs : List crate.FieldIndex)
    (hfs : crate.Index.dflt ∉ fs)
    (hlen : ((empty.run ops0).AddFieldSet fs).2.fieldsets_.length ≤ 2 ^ 32) :
    readSpan (((empty.run ops0).AddFieldSet fs).2.run ops1).fieldsets_
      ((empty.run ops0).AddFieldSet fs).1.value = fs := by
  have hc0 : (empty.run ops0).SpanConsistent := spanConsistent_run ops0 empty spanConsistent_empty
  obtain ⟨spans, e1, e2⟩ := spanConsistent_step hc0 (.addFieldSet fs)
  have a := lookup_AddFieldSet_self (empty.run ops0) fs
  have b : lookup fs (spanEntries spans 0) = some ((empty.run ops0).AddFieldSet fs).1 := by
    rw [← e1]; exact a
  obtain ⟨pre, post, h1, h2⟩ := lookup_spanEntries spans 0 b
  obtain ⟨l, hl⟩ := fieldsets_run_extends ops1 ((empty.run ops0).AddFieldSet fs).2
  have e3 : ((empty.run ops0).AddFieldSet fs).2.fieldsets_
      = pre ++ fs ++ [crate.Index.dflt] ++ post := by
    rw [← h1]; exact e2
  have hlt : pre.length < 2 ^ 32 := by
    rw [e3] at hlen
    simp only [List.length_append, List.length_singleton] at hlen
    omega
  rw [hl, h2, e3, Nat.zero_add]
  simp only
  rw [uint32_t_of_lt hlt, List.append_assoc _ post l]
  exact readSpan_span pre fs (post ++ l) hfs

/-- C25, an instance: the fieldset `[1, 2]` added after `sampleOps` is read back
at its index, also after the empty fieldset has been added. -/
theorem fieldset_read_back_witness :
    readSpan (((empty.run sampleOps).AddFieldSet [⟨1⟩, ⟨2⟩]).2.run
        [Op.addFieldSet []]).fieldsets_
      ((empty.run sampleOps).AddFieldSet [⟨1⟩, ⟨2⟩]).1.value = [⟨1⟩, ⟨2⟩] :=
  fieldset_read_back sampleOps [Op.addFieldSet []] [⟨1⟩, ⟨2⟩] (by decide) (by decide)

/-- C25 as stated fails: after a fieldset of `2 ^ 32 - 1` field indices, none of
them the terminator, the fieldset `[1]` gets index 0, and reading back at
position 0 gives the long fieldset, not `[1]`. -/
theorem fieldset_read_back_counterexample :
    crate.Index.dflt ∉ List.replicate (2 ^ 32 - 1) (⟨0⟩ : crate.FieldIndex) ∧
    crate.Index.dflt ∉ [(⟨1⟩ : crate.FieldIndex)] ∧
    readSpan
        (((empty.run [Op.addFieldSet (List.replicate (2 ^ 32 - 1) ⟨0⟩)]).AddFieldSet
          [⟨1⟩]).2.run []).fieldsets_
        ((empty.run [Op.addFieldSet (List.replicate (2 ^ 32 - 1) ⟨0⟩)]).AddFieldSet
          [⟨1⟩]).1.value
      = List.replicate (2 ^ 32 - 1) ⟨0⟩ ∧
    List.replicate (2 ^ 32 - 1) (⟨0⟩ : crate.FieldIndex) ≠ [⟨1⟩] := by
  have hB := dflt_not_mem_replicate (2 ^ 32 - 1)
  have hne := replicate_ne_singleton (2 ^ 32 - 1)
  exact ⟨hB, by decide,
    (second_reads_first (List.replicate (2 ^ 32 - 1) ⟨0⟩) [⟨1⟩] (Ne.symm hne) hB
      (by rw [List.length_replicate]; decide)).2, hne⟩

end Packer
end usdc

end tinyusdz
